import Mathlib

/-!
# Kate search plugin: `SearchOpenFiles`

A shallow embedding of `src/addons/search/search_open_files.cpp`.

* `QString` values are lists of characters; `int` values are `Int` (the sentinel `-1` is
  kept as it is in the source; 32-bit overflow is not modelled, documents are far smaller).
* `QRegularExpression::match` is an external collaborator: every matcher takes the regex
  engine as a parameter `engine : RegexEngine`.
* `QElapsedTimer::elapsed() > 100` is an external clock reading: every matcher takes a
  `StepClock`, whose field `expired k` is the outcome of the `k`-th budget check made on the
  matcher's local timer during one call, and whose field `statusElapsed` is the reading of
  `m_statusTime` in `searchOpenFile`.
* Signals are collected, in emission order, in a list of `Signal`. In the functions named
  after the source the connected slots do not call back into the object while a step is
  running; the functions with the suffix `Slot` are the same code with the object threaded
  through every `emit matchFound`, for slots that call `cancelSearch` or `terminateSearch`.
* The `while` loops of the matchers need not terminate for an arbitrary engine, so they take
  a `fuel : Nat` bounding the number of loop bodies executed and return `none` when it runs out.
-/

namespace Kate

/-- A `QString`, as the list of its characters. -/
abbrev QString := List Char

namespace QString

/-- `QString::endsWith(QChar)`. -/
def endsWith (s : QString) (c : Char) : Bool :=
  s.getLast? == some c

/-- `QString::contains(const QString &)`: whether `sub` occurs in `s`. -/
def contains : QString → QString → Bool
  | [], sub => sub.isEmpty
  | c :: cs, sub => sub.isPrefixOf (c :: cs) || contains cs sub

/-- Worker of `QString::replace(before, after)`: scans left to right, `skip` is the number
of characters of the occurrence just replaced that remain to be dropped. -/
def replaceGo (before after : QString) : Nat → QString → QString
  | _, [] => []
  | skip + 1, _ :: cs => replaceGo before after skip cs
  | 0, c :: cs =>
    if before.isPrefixOf (c :: cs) then after ++ replaceGo before after (before.length - 1) cs
    else c :: replaceGo before after 0 cs

/-- `QString::replace(const QString &before, const QString &after)` for a non-empty `before`:
every occurrence of `before` is replaced by `after`. -/
def replace (s before after : QString) : QString :=
  replaceGo before after 0 s

/-- `QString::remove(int position, int n)` (Qt 5): a negative position counts from the end,
a position outside the string changes nothing. -/
def remove (s : QString) (position n : Int) : QString :=
  let pos : Int := if position < 0 then position + s.length else position
  if pos < 0 ∨ (s.length : Int) ≤ pos then s
  else if (s.length : Int) - pos ≤ n then s.take pos.toNat
  else if 0 < n then s.take pos.toNat ++ s.drop (pos + n).toNat
  else s

/-- `QString::left(int n)`: the whole string when `n` is negative or at least the size. -/
def left (s : QString) (n : Int) : QString :=
  if n < 0 ∨ (s.length : Int) ≤ n then s else s.take n.toNat

/-- `QString::count(QChar)`. -/
def count (s : QString) (c : Char) : Int :=
  (List.count c s : Nat)

/-- Worker of `lastIndexOf`: `idx` is the index of the head, `acc` the last hit so far. -/
def lastIndexOfGo (c : Char) : QString → Int → Int → Int
  | [], _, acc => acc
  | d :: ds, idx, acc => lastIndexOfGo c ds (idx + 1) (if d = c then idx else acc)

/-- `QString::lastIndexOf(QChar)`: index of the last occurrence, `-1` when there is none. -/
def lastIndexOf (s : QString) (c : Char) : Int :=
  lastIndexOfGo c s 0 (-1)

end QString

/-- The part of `KTextEditor::Document` the search reads: `url()`, `documentName()` and the
lines of text. -/
structure Document where
  url : QString
  documentName : QString
  text : List QString
  deriving DecidableEq, Repr

/-- `KTextEditor::Document::lines()`. -/
def Document.lines (doc : Document) : Int :=
  doc.text.length

/-- `KTextEditor::Document::line(int)`: the empty string for a line that does not exist. -/
def Document.line (doc : Document) (i : Int) : QString :=
  if 0 ≤ i then doc.text.getD i.toNat [] else []

/-- A `QRegularExpression`, as its pattern text. -/
structure QRegularExpression where
  pattern : QString
  deriving DecidableEq, Repr

/-- `QRegularExpression::setPattern`. -/
def QRegularExpression.setPattern (_re : QRegularExpression) (p : QString) : QRegularExpression :=
  { pattern := p }

/-- A `QRegularExpressionMatch`: `capturedStart()` (`-1` when nothing matched) and
`captured()`. -/
structure QRegularExpressionMatch where
  capturedStart : Int
  captured : QString
  deriving DecidableEq, Repr

/-- `QRegularExpressionMatch::capturedLength()`. -/
def QRegularExpressionMatch.capturedLength (m : QRegularExpressionMatch) : Int :=
  m.captured.length

/-- The regex engine, `QRegularExpression::match(subject, offset)`. -/
abbrev RegexEngine := QRegularExpression → QString → Int → QRegularExpressionMatch

/-- The arguments of one `matchFound` signal, in the order of the source. -/
structure MatchFound where
  url : QString
  docName : QString
  lineContent : QString
  matchLen : Int
  startLine : Int
  startColumn : Int
  endLine : Int
  endColumn : Int
  deriving DecidableEq, Repr

/-- The signals of `SearchOpenFiles`. -/
inductive Signal where
  | matchFound (m : MatchFound)
  | searching (url : QString)
  | searchDone
  deriving DecidableEq, Repr

/-- The clock readings of one step: `statusElapsed` is `m_statusTime.elapsed() > 100` in
`searchOpenFile`, `expired k` is the `k`-th evaluation of `time.elapsed() > 100` on the
matcher's local timer. -/
structure StepClock where
  statusElapsed : Bool
  expired : Nat → Bool

/-- A clock whose budget never expires. -/
def StepClock.unbounded : StepClock :=
  { statusElapsed := false, expired := fun _ => false }

/-- A clock whose budget check fires exactly at the `n`-th evaluation (counted from 0). -/
def StepClock.firesAt (n : Nat) : StepClock :=
  { statusElapsed := false, expired := fun k => k == n }

/-- The member variables of `SearchOpenFiles`; `m_nextRunTimer` is whether the single-shot
timer is active, i.e. whether a call of `doSearchNextFile(m_nextLine)` is scheduled. -/
structure SearchOpenFiles where
  m_docList : List Document
  m_nextFileIndex : Int
  m_nextRunTimer : Bool
  m_regExp : QRegularExpression
  m_cancelSearch : Bool
  m_terminateSearch : Bool
  m_fullDoc : QString
  m_lineStart : List Int
  m_nextLine : Int
  deriving DecidableEq, Repr

/-- `QList::operator[]` on the document list (an empty document stands for an index outside
the list, which the source never reads). -/
def docAt (list : List Document) (i : Int) : Document :=
  if 0 ≤ i then list.getD i.toNat ⟨[], [], []⟩ else ⟨[], [], []⟩

/-- `QVector<int>::operator[]` on `m_lineStart`. -/
def lineStartAt (ls : List Int) (i : Int) : Int :=
  if 0 ≤ i then ls.getD i.toNat 0 else 0

namespace SearchOpenFiles

/-- `SearchOpenFiles::searching()`. -/
def searching (self : SearchOpenFiles) : Bool :=
  !self.m_cancelSearch

/-- `SearchOpenFiles::startSearch`. The call `m_statusTime.restart()` only resets a clock, whose
later readings are inputs of the steps (`StepClock.statusElapsed`). -/
def startSearch (list : List Document) (regexp : QRegularExpression) (self : SearchOpenFiles) :
    SearchOpenFiles :=
  if self.m_nextFileIndex ≠ -1 then self
  else
    { self with
      m_docList := list
      m_nextFileIndex := 0
      m_regExp := regexp
      m_cancelSearch := false
      m_terminateSearch := false
      m_nextLine := 0
      m_nextRunTimer := true }

/-- `SearchOpenFiles::terminateSearch`. -/
def terminateSearch (self : SearchOpenFiles) : SearchOpenFiles :=
  { self with
    m_cancelSearch := true
    m_terminateSearch := true
    m_nextFileIndex := -1
    m_nextLine := -1
    m_nextRunTimer := false }

/-- `SearchOpenFiles::cancelSearch`. -/
def cancelSearch (self : SearchOpenFiles) : SearchOpenFiles :=
  { self with m_cancelSearch := true }

/-- The `matchFound` signal of the single-line matcher for the match `m` on line `line`. -/
def singleLineMatchFound (doc : Document) (line : Int) (m : QRegularExpressionMatch) : MatchFound :=
  { url := doc.url
    docName := doc.documentName
    lineContent := doc.line line
    matchLen := m.capturedLength
    startLine := line
    startColumn := m.capturedStart
    endLine := line
    endColumn := m.capturedStart + m.capturedLength }

/-- The `while` loop of `searchSingleLineRegExp` (source lines 123-127) on line `line`,
entered with the match `m`; the result is the list of matches emitted. -/
def singleLineWhile (engine : RegexEngine) (doc : Document) (regExp : QRegularExpression)
    (line : Int) : Nat → QRegularExpressionMatch → Option (List MatchFound)
  | 0, m =>
    if m.capturedStart ≠ -1 ∧ ¬ m.captured.isEmpty then none else some []
  | fuel + 1, m =>
    if m.capturedStart ≠ -1 ∧ ¬ m.captured.isEmpty then
      (singleLineWhile engine doc regExp line fuel
          (engine regExp (doc.line line) (m.capturedStart + m.capturedLength))).map
        (fun evs => singleLineMatchFound doc line m :: evs)
    else some []

/-- The `for` loop of `searchSingleLineRegExp` (source lines 115-128): `remaining` is the
number of iterations left before `line < doc->lines()` fails, `k` the number of budget
checks made so far. The result is the matches emitted and the returned `int`. -/
def singleLineFor (engine : RegexEngine) (clock : StepClock) (fuel : Nat) (doc : Document)
    (regExp : QRegularExpression) : Nat → Nat → Int → Option (List MatchFound × Int)
  | 0, _, _ => some ([], 0)
  | remaining + 1, k, line =>
    if clock.expired k then some ([], line)
    else
      match singleLineWhile engine doc regExp line fuel (engine regExp (doc.line line) 0) with
      | none => none
      | some evs =>
        (singleLineFor engine clock fuel doc regExp remaining (k + 1) (line + 1)).map
          (fun r => (evs ++ r.1, r.2))

/-- `SearchOpenFiles::searchSingleLineRegExp`. -/
def searchSingleLineRegExp (engine : RegexEngine) (clock : StepClock) (fuel : Nat)
    (doc : Document) (regExp : QRegularExpression) (startLine : Int) :
    Option (List MatchFound × Int) :=
  singleLineFor engine clock fuel doc regExp (doc.lines - startLine).toNat 0 startLine

/-- The synthesis loop of `searchMultiLineRegExp` (source lines 145-148) over the lines of the
document, from the scratch pair `(m_fullDoc, m_lineStart)`. -/
def synthLoop : List QString → QString × List Int → QString × List Int
  | [], acc => acc
  | l :: rest, (fullDoc, lineStart) =>
    synthLoop rest
      (fullDoc ++ (l ++ ['\n']), lineStart ++ [((fullDoc ++ (l ++ ['\n'])).length : Int)])

/-- The scratch pair `(m_fullDoc, m_lineStart)` built by `searchMultiLineRegExp` when it is
entered with `inStartLine == 0` (source lines 142-153). -/
def synthesize (doc : Document) (regExp : QRegularExpression) : QString × List Int :=
  let r := synthLoop doc.text ([], [0])
  if !regExp.pattern.endsWith '$' then (r.1.remove ((r.1.length : Int) - 1) 1, r.2) else r

/-- The regular expression `tmpRegExp` that `searchMultiLineRegExp` runs (source lines
138 and 163-167). -/
def tmpRegExp (regExp : QRegularExpression) : QRegularExpression :=
  if regExp.pattern.endsWith '$' then
    regExp.setPattern (regExp.pattern.replace "$".toList "(?=\\n)".toList)
  else regExp

/-- Worker of `findStartLine`: the list is `m_lineStart` from index `i` on. -/
def findStartLineGo (column : Int) : List Int → Int → Int
  | [], _ => -1
  | x :: rest, i => if x > column then i - 1 else findStartLineGo column rest (i + 1)

/-- The line lookup of `searchMultiLineRegExp` (source lines 175-181): the value of
`startLine` after the `for` loop, `-1` when no entry of `m_lineStart` exceeds `column`. -/
def findStartLine (lineStart : List Int) (column : Int) : Int :=
  findStartLineGo column (lineStart.drop 1) 1

/-- The `matchFound` signal of the multi-line matcher (source lines 186-191) for a match
with `capturedStart() = column` and `captured() = captured`, once `startLine` is known. -/
def multiLineMatchFound (doc : Document) (lineStart : List Int) (startLine column : Int)
    (captured : QString) : MatchFound :=
  let startColumn := column - lineStartAt lineStart startLine
  let endLine := startLine + QString.count captured '\n'
  let lastNL := QString.lastIndexOf captured '\n'
  let endColumn :=
    if lastNL = -1 then startColumn + captured.length else (captured.length : Int) - lastNL - 1
  { url := doc.url
    docName := doc.documentName
    lineContent :=
      QString.left (doc.line startLine) (column - lineStartAt lineStart startLine) ++ captured
    matchLen := captured.length
    startLine := startLine
    startColumn := startColumn
    endLine := endLine
    endColumn := endColumn }

/-- The `while` loop of `searchMultiLineRegExp` (source lines 172-200), entered with the match
`m`; `k` is the number of budget checks made so far. The result is the matches emitted and
the `int` that `searchMultiLineRegExp` returns (the `return 0` after the loop included). -/
def multiLineWhile (engine : RegexEngine) (clock : StepClock) (doc : Document)
    (regExp : QRegularExpression) (fullDoc : QString) (lineStart : List Int) :
    Nat → Nat → QRegularExpressionMatch → Option (List MatchFound × Int)
  | 0, _, m =>
    if m.capturedStart ≠ -1 ∧ ¬ m.captured.isEmpty then
      if findStartLine lineStart m.capturedStart = -1 then some ([], 0) else none
    else some ([], 0)
  | fuel + 1, k, m =>
    if m.capturedStart ≠ -1 ∧ ¬ m.captured.isEmpty then
      if findStartLine lineStart m.capturedStart = -1 then some ([], 0)
      else
        let startLine := findStartLine lineStart m.capturedStart
        let ev := multiLineMatchFound doc lineStart startLine m.capturedStart m.captured
        let next := engine regExp fullDoc (m.capturedStart + m.capturedLength)
        if clock.expired k then some ([ev], startLine)
        else
          (multiLineWhile engine clock doc regExp fullDoc lineStart fuel (k + 1) next).map
            (fun r => (ev :: r.1, r.2))
    else some ([], 0)

/-- `SearchOpenFiles::searchMultiLineRegExp`: the object after the call (the scratch members
`m_fullDoc` and `m_lineStart` may have been rebuilt), the matches emitted and the returned
`int`. -/
def searchMultiLineRegExp (engine : RegexEngine) (clock : StepClock) (fuel : Nat)
    (self : SearchOpenFiles) (doc : Document) (regExp : QRegularExpression) (inStartLine : Int) :
    Option (SearchOpenFiles × List MatchFound × Int) :=
  if inStartLine = 0 then
    let self1 : SearchOpenFiles :=
      { self with
        m_fullDoc := (synthesize doc regExp).1
        m_lineStart := (synthesize doc regExp).2 }
    (multiLineWhile engine clock doc (tmpRegExp regExp) self1.m_fullDoc self1.m_lineStart fuel 0
        (engine (tmpRegExp regExp) self1.m_fullDoc 0)).map
      (fun r => (self1, r.1, r.2))
  else if 0 < inStartLine ∧ inStartLine < self.m_lineStart.length then
    (multiLineWhile engine clock doc (tmpRegExp regExp) self.m_fullDoc self.m_lineStart fuel 0
        (engine (tmpRegExp regExp) self.m_fullDoc (lineStartAt self.m_lineStart inStartLine))).map
      (fun r => (self, r.1, r.2))
  else some (self, [], 0)

/-- `SearchOpenFiles::searchOpenFile`: the object after the call, the signals emitted and the
returned `int`. -/
def searchOpenFile (engine : RegexEngine) (clock : StepClock) (fuel : Nat)
    (self : SearchOpenFiles) (doc : Document) (regExp : QRegularExpression) (startLine : Int) :
    Option (SearchOpenFiles × List Signal × Int) :=
  let progress : List Signal := if clock.statusElapsed then [Signal.searching doc.url] else []
  if QString.contains regExp.pattern "\\n".toList then
    (searchMultiLineRegExp engine clock fuel self doc regExp startLine).map
      (fun r => (r.1, progress ++ r.2.1.map Signal.matchFound, r.2.2))
  else
    (searchSingleLineRegExp engine clock fuel doc regExp startLine).map
      (fun r => (self, progress ++ r.1.map Signal.matchFound, r.2))

/-- `SearchOpenFiles::doSearchNextFile`: the object after the call and the signals emitted. -/
def doSearchNextFile (engine : RegexEngine) (clock : StepClock) (fuel : Nat)
    (self : SearchOpenFiles) (startLine : Int) : Option (SearchOpenFiles × List Signal) :=
  if self.m_cancelSearch = true ∨ (self.m_docList.length : Int) ≤ self.m_nextFileIndex then
    some ({ self with m_nextFileIndex := -1, m_cancelSearch := true, m_nextLine := -1 }, [])
  else
    match searchOpenFile engine clock fuel self (docAt self.m_docList self.m_nextFileIndex)
        self.m_regExp startLine with
    | none => none
    | some (self1, signals, line) =>
      if line = 0 then
        if self1.m_nextFileIndex + 1 = (self1.m_docList.length : Int) then
          some ({ self1 with
                  m_nextFileIndex := -1
                  m_cancelSearch := true
                  m_nextRunTimer := true },
                signals ++ [Signal.searchDone])
        else
          some ({ self1 with
                  m_nextFileIndex := self1.m_nextFileIndex + 1
                  m_nextLine := 0
                  m_nextRunTimer := true },
                signals)
      else
        some ({ self1 with m_nextLine := line, m_nextRunTimer := true }, signals)

/-- One turn of the event loop: when the single-shot timer `m_nextRunTimer` is active it
fires, which runs the connected lambda `doSearchNextFile(m_nextLine)`; otherwise nothing
happens. -/
def timerTick (engine : RegexEngine) (clock : StepClock) (fuel : Nat) (self : SearchOpenFiles) :
    Option (SearchOpenFiles × List Signal) :=
  if self.m_nextRunTimer then
    doSearchNextFile engine clock fuel { self with m_nextRunTimer := false } self.m_nextLine
  else some (self, [])

/-- The event loop run for one timer turn per clock of the list: the final object and, per
turn, the value of `m_nextFileIndex` when the turn began with the signals it emitted. -/
def runTicks (engine : RegexEngine) (fuel : Nat) :
    List StepClock → SearchOpenFiles → Option (SearchOpenFiles × List (Int × List Signal))
  | [], self => some (self, [])
  | clock :: clocks, self =>
    match timerTick engine clock fuel self with
    | none => none
    | some (self1, signals) =>
      (runTicks engine fuel clocks self1).map
        (fun r => (r.1, (self.m_nextFileIndex, signals) :: r.2))

/-- Direct calls of `doSearchNextFile`, one per entry `(clock, startLine)` of the list,
whatever the state of the timer: the final object and all signals emitted. -/
def runSteps (engine : RegexEngine) (fuel : Nat) :
    List (StepClock × Int) → SearchOpenFiles → Option (SearchOpenFiles × List Signal)
  | [], self => some (self, [])
  | (clock, startLine) :: rest, self =>
    match doSearchNextFile engine clock fuel self startLine with
    | none => none
    | some (self1, signals) =>
      (runSteps engine fuel rest self1).map (fun r => (r.1, signals ++ r.2))

/-- All signals of a run, in emission order. -/
def signalsOf (log : List (Int × List Signal)) : List Signal :=
  log.flatMap (fun e => e.2)

/-- The `matchFound` signals of a list of signals, in order. -/
def matchesOf : List Signal → List MatchFound
  | [] => []
  | Signal.matchFound m :: rest => m :: matchesOf rest
  | _ :: rest => matchesOf rest

end SearchOpenFiles

/-! ## Slots that call back into the object

`matchFound` is delivered synchronously: a connected slot runs inside the matcher loop and
may itself call `cancelSearch` or `terminateSearch` on the object. The definitions below are
the step again, with the object threaded through every `emit matchFound`. -/

/-- What a slot connected to `matchFound` calls on the object while the signal is being
delivered. -/
inductive SlotCall where
  | nothing
  | cancelSearch
  | terminateSearch
  deriving DecidableEq, Repr

/-- The effect of the call on the object. -/
def SlotCall.run : SlotCall → SearchOpenFiles → SearchOpenFiles
  | SlotCall.nothing, s => s
  | SlotCall.cancelSearch, s => SearchOpenFiles.cancelSearch s
  | SlotCall.terminateSearch, s => SearchOpenFiles.terminateSearch s

/-- The object after the slot has been run for each of the matches, in order. -/
def runSlots (slot : MatchFound → SlotCall) : List MatchFound → SearchOpenFiles → SearchOpenFiles
  | [], s => s
  | ev :: rest, s => runSlots slot rest ((slot ev).run s)

namespace SearchOpenFiles

/-- The `while` loop of `searchSingleLineRegExp` (source lines 123-127) with the slot run at
every `emit matchFound`. -/
def singleLineWhileSlot (slot : MatchFound → SlotCall) (engine : RegexEngine) (doc : Document)
    (regExp : QRegularExpression) (line : Int) :
    Nat → QRegularExpressionMatch → SearchOpenFiles → Option (List MatchFound × SearchOpenFiles)
  | 0, m, self =>
    if m.capturedStart ≠ -1 ∧ ¬ m.captured.isEmpty then none else some ([], self)
  | fuel + 1, m, self =>
    if m.capturedStart ≠ -1 ∧ ¬ m.captured.isEmpty then
      (singleLineWhileSlot slot engine doc regExp line fuel
          (engine regExp (doc.line line) (m.capturedStart + m.capturedLength))
          ((slot (singleLineMatchFound doc line m)).run self)).map
        (fun r => (singleLineMatchFound doc line m :: r.1, r.2))
    else some ([], self)

/-- The `for` loop of `searchSingleLineRegExp` (source lines 115-128) with the slot run at
every `emit matchFound`. -/
def singleLineForSlot (slot : MatchFound → SlotCall) (engine : RegexEngine) (clock : StepClock)
    (fuel : Nat) (doc : Document) (regExp : QRegularExpression) :
    Nat → Nat → Int → SearchOpenFiles → Option (List MatchFound × Int × SearchOpenFiles)
  | 0, _, _, self => some ([], 0, self)
  | remaining + 1, k, line, self =>
    if clock.expired k then some ([], line, self)
    else
      match singleLineWhileSlot slot engine doc regExp line fuel
          (engine regExp (doc.line line) 0) self with
      | none => none
      | some (evs, self1) =>
        (singleLineForSlot slot engine clock fuel doc regExp remaining (k + 1) (line + 1)
            self1).map
          (fun r => (evs ++ r.1, r.2.1, r.2.2))

/-- `SearchOpenFiles::searchSingleLineRegExp` with the slot run at every `emit matchFound`. -/
def searchSingleLineRegExpSlot (slot : MatchFound → SlotCall) (engine : RegexEngine)
    (clock : StepClock) (fuel : Nat) (self : SearchOpenFiles) (doc : Document)
    (regExp : QRegularExpression) (startLine : Int) :
    Option (List MatchFound × Int × SearchOpenFiles) :=
  singleLineForSlot slot engine clock fuel doc regExp (doc.lines - startLine).toNat 0 startLine
    self

/-- The `while` loop of `searchMultiLineRegExp` (source lines 172-200) with the slot run at
every `emit matchFound`; `m_fullDoc` and `m_lineStart` are read from the object as it is at
each iteration. -/
def multiLineWhileSlot (slot : MatchFound → SlotCall) (engine : RegexEngine) (clock : StepClock)
    (doc : Document) (regExp : QRegularExpression) :
    Nat → Nat → QRegularExpressionMatch → SearchOpenFiles →
      Option (List MatchFound × Int × SearchOpenFiles)
  | 0, _, m, self =>
    if m.capturedStart ≠ -1 ∧ ¬ m.captured.isEmpty then
      if findStartLine self.m_lineStart m.capturedStart = -1 then some ([], 0, self) else none
    else some ([], 0, self)
  | fuel + 1, k, m, self =>
    if m.capturedStart ≠ -1 ∧ ¬ m.captured.isEmpty then
      if findStartLine self.m_lineStart m.capturedStart = -1 then some ([], 0, self)
      else
        let startLine := findStartLine self.m_lineStart m.capturedStart
        let ev := multiLineMatchFound doc self.m_lineStart startLine m.capturedStart m.captured
        let self1 := (slot ev).run self
        let next := engine regExp self1.m_fullDoc (m.capturedStart + m.capturedLength)
        if clock.expired k then some ([ev], startLine, self1)
        else
          (multiLineWhileSlot slot engine clock doc regExp fuel (k + 1) next self1).map
            (fun r => (ev :: r.1, r.2.1, r.2.2))
    else some ([], 0, self)

/-- `SearchOpenFiles::searchMultiLineRegExp` with the slot run at every `emit matchFound`. -/
def searchMultiLineRegExpSlot (slot : MatchFound → SlotCall) (engine : RegexEngine)
    (clock : StepClock) (fuel : Nat) (self : SearchOpenFiles) (doc : Document)
    (regExp : QRegularExpression) (inStartLine : Int) :
    Option (List MatchFound × Int × SearchOpenFiles) :=
  if inStartLine = 0 then
    let self1 : SearchOpenFiles :=
      { self with
        m_fullDoc := (synthesize doc regExp).1
        m_lineStart := (synthesize doc regExp).2 }
    multiLineWhileSlot slot engine clock doc (tmpRegExp regExp) fuel 0
      (engine (tmpRegExp regExp) self1.m_fullDoc 0) self1
  else if 0 < inStartLine ∧ inStartLine < self.m_lineStart.length then
    multiLineWhileSlot slot engine clock doc (tmpRegExp regExp) fuel 0
      (engine (tmpRegExp regExp) self.m_fullDoc (lineStartAt self.m_lineStart inStartLine)) self
  else some ([], 0, self)

/-- `SearchOpenFiles::searchOpenFile` with the slot run at every `emit matchFound`. -/
def searchOpenFileSlot (slot : MatchFound → SlotCall) (engine : RegexEngine) (clock : StepClock)
    (fuel : Nat) (self : SearchOpenFiles) (doc : Document) (regExp : QRegularExpression)
    (startLine : Int) : Option (SearchOpenFiles × List Signal × Int) :=
  let progress : List Signal := if clock.statusElapsed then [Signal.searching doc.url] else []
  if QString.contains regExp.pattern "\\n".toList then
    (searchMultiLineRegExpSlot slot engine clock fuel self doc regExp startLine).map
      (fun r => (r.2.2, progress ++ r.1.map Signal.matchFound, r.2.1))
  else
    (searchSingleLineRegExpSlot slot engine clock fuel self doc regExp startLine).map
      (fun r => (r.2.2, progress ++ r.1.map Signal.matchFound, r.2.1))

/-- `SearchOpenFiles::doSearchNextFile` with the slot run at every `emit matchFound`: the
statements after the matcher call read the members as the slot calls left them. -/
def doSearchNextFileSlot (slot : MatchFound → SlotCall) (engine : RegexEngine)
    (clock : StepClock) (fuel : Nat) (self : SearchOpenFiles) (startLine : Int) :
    Option (SearchOpenFiles × List Signal) :=
  if self.m_cancelSearch = true ∨ (self.m_docList.length : Int) ≤ self.m_nextFileIndex then
    some ({ self with m_nextFileIndex := -1, m_cancelSearch := true, m_nextLine := -1 }, [])
  else
    match searchOpenFileSlot slot engine clock fuel self
        (docAt self.m_docList self.m_nextFileIndex) self.m_regExp startLine with
    | none => none
    | some (self1, signals, line) =>
      if line = 0 then
        if self1.m_nextFileIndex + 1 = (self1.m_docList.length : Int) then
          some ({ self1 with
                  m_nextFileIndex := -1
                  m_cancelSearch := true
                  m_nextRunTimer := true },
                signals ++ [Signal.searchDone])
        else
          some ({ self1 with
                  m_nextFileIndex := self1.m_nextFileIndex + 1
                  m_nextLine := 0
                  m_nextRunTimer := true },
                signals)
      else
        some ({ self1 with m_nextLine := line, m_nextRunTimer := true }, signals)

end SearchOpenFiles

/-! ## A reference engine for concrete inputs

For a pattern made of plain characters, the escape `\n` and starred characters `c*`,
`QRegularExpression::match(subject, offset)` reports the leftmost match at or after `offset`,
a starred character taking as many repetitions as the rest of the pattern allows. -/

/-- One item of such a pattern. -/
inductive Atom where
  | lit (c : Char)
  | star (c : Char)
  deriving DecidableEq, Repr

/-- The items of a pattern text. -/
def parsePattern : QString → List Atom
  | [] => []
  | '\\' :: 'n' :: rest => Atom.lit '\n' :: parsePattern rest
  | c :: '*' :: rest => Atom.star c :: parsePattern rest
  | c :: rest => Atom.lit c :: parsePattern rest

/-- Greedy repetition of `c` followed by the continuation `f`: the length matched. -/
def starTry (f : QString → Option Nat) (c : Char) : QString → Option Nat
  | [] => f []
  | d :: s =>
    if c = d then
      match starTry f c s with
      | some l => some (l + 1)
      | none => f (d :: s)
    else f (d :: s)

/-- The length of the match of the items at the very start of the subject, if any. -/
def matchHere : List Atom → QString → Option Nat
  | [], _ => some 0
  | Atom.lit _ :: _, [] => none
  | Atom.lit c :: rest, d :: s => if c = d then (matchHere rest s).map (fun l => l + 1) else none
  | Atom.star c :: rest, s => starTry (matchHere rest) c s

/-- The leftmost match in `s`, which is the subject from position `pos` on. -/
def findFrom (atoms : List Atom) : Nat → QString → QRegularExpressionMatch
  | pos, [] =>
    match matchHere atoms [] with
    | some _ => ⟨pos, []⟩
    | none => ⟨-1, []⟩
  | pos, c :: s =>
    match matchHere atoms (c :: s) with
    | some l => ⟨pos, (c :: s).take l⟩
    | none => findFrom atoms (pos + 1) s

/-- The reference engine. -/
def refEngine : RegexEngine := fun regExp subject offset =>
  if offset < 0 ∨ (subject.length : Int) < offset then ⟨-1, []⟩
  else findFrom (parsePattern regExp.pattern) offset.toNat (subject.drop offset.toNat)

/-! ## Notions used to state the properties -/

/-- The left-to-right match sequence of one line as the loop of `searchSingleLineRegExp`
walks it: from offset `o` the engine is asked for the next match, a non-empty match is
kept and the walk goes on from its end, and the walk stops at the first request that
reports no match or a zero-length match. -/
inductive MatchChain (engine : RegexEngine) (regExp : QRegularExpression) (text : QString) :
    Int → List QRegularExpressionMatch → Prop where
  | stop (o : Int)
      (h : (engine regExp text o).capturedStart = -1 ∨ (engine regExp text o).captured = []) :
      MatchChain engine regExp text o []
  | next (o : Int) (ms : List QRegularExpressionMatch)
      (hstart : (engine regExp text o).capturedStart ≠ -1)
      (hne : (engine regExp text o).captured ≠ [])
      (rest : MatchChain engine regExp text
        ((engine regExp text o).capturedStart + (engine regExp text o).captured.length) ms) :
      MatchChain engine regExp text o (engine regExp text o :: ms)

/-- The matches emitted for consecutive lines, the first being line `line`, when the kept
matches of each line are given: each match becomes the `matchFound` signal of its line. -/
def emittedFor (doc : Document) : Int → List (List QRegularExpressionMatch) → List MatchFound
  | _, [] => []
  | line, ms :: rest =>
    ms.map (SearchOpenFiles.singleLineMatchFound doc line) ++ emittedFor doc (line + 1) rest

/-- The offsets that the synthesis loop appends to `m_lineStart` for the given lines when
the buffer already holds `base` characters: after each line, the size of the buffer. -/
def lineStartsFrom : Int → List QString → List Int
  | _, [] => []
  | base, l :: rest => (base + l.length + 1) :: lineStartsFrom (base + l.length + 1) rest

/-- Every line followed by a newline character, concatenated. -/
def joinedLines (text : List QString) : QString :=
  text.flatMap (fun l => l ++ ['\n'])

/-- The states a session passes through between steps: either no session is running (the
cancel flag is set and `m_nextFileIndex` is `-1`) or one is, with a non-negative index. -/
def SessionInv (s : SearchOpenFiles) : Prop :=
  (s.m_cancelSearch = true ∧ s.m_nextFileIndex = -1) ∨
    (s.m_cancelSearch = false ∧ 0 ≤ s.m_nextFileIndex)

/-- The span `(start_line, start_column, end_line, end_column)` of a match. -/
def spanOf (e : MatchFound) : Int × Int × Int × Int :=
  (e.startLine, e.startColumn, e.endLine, e.endColumn)

/-- The number of characters, newline included, that the lines before line `i` take in the
synthesized buffer. -/
def offsetOfLine (text : List QString) (i : Nat) : Nat :=
  ((text.take i).map (fun l => l.length + 1)).sum

/-- The states reachable from `init` by any sequence of `startSearch`, step
(`doSearchNextFile` with any clock, any fuel that lets it return, any start line),
`cancelSearch` and `terminateSearch`. -/
inductive Reachable (engine : RegexEngine) (init : SearchOpenFiles) : SearchOpenFiles → Prop where
  | init : Reachable engine init init
  | startSearch (s : SearchOpenFiles) (list : List Document) (regexp : QRegularExpression)
      (h : Reachable engine init s) :
      Reachable engine init (SearchOpenFiles.startSearch list regexp s)
  | step (s s1 : SearchOpenFiles) (clock : StepClock) (fuel : Nat) (startLine : Int)
      (signals : List Signal) (h : Reachable engine init s)
      (hstep : SearchOpenFiles.doSearchNextFile engine clock fuel s startLine =
        some (s1, signals)) :
      Reachable engine init s1
  | cancelSearch (s : SearchOpenFiles) (h : Reachable engine init s) :
      Reachable engine init (SearchOpenFiles.cancelSearch s)
  | terminateSearch (s : SearchOpenFiles) (h : Reachable engine init s) :
      Reachable engine init (SearchOpenFiles.terminateSearch s)

/-! ## Concrete inputs -/

/-- A concrete object with no session: `m_nextFileIndex` is `-1` and the cancel flag is set. -/
def idleObject : SearchOpenFiles :=
  ⟨[], -1, false, ⟨[]⟩, true, false, [], [], -1⟩

/-- An active session on one document, used as a concrete input. -/
def activeSession : SearchOpenFiles :=
  SearchOpenFiles.startSearch [⟨"a.txt".toList, "a".toList, ["abc".toList]⟩] ⟨"b".toList⟩
    idleObject

/-- The document with the lines `abc`, `def`, `ghi`. -/
def docAbc : Document :=
  ⟨"abc.txt".toList, "abc".toList, ["abc".toList, "def".toList, "ghi".toList]⟩

/-- The document with the lines `x`, `a`, `b`, `a`, `b`. -/
def docXabab : Document :=
  ⟨"d.txt".toList, "d".toList, ["x".toList, "a".toList, "b".toList, "a".toList, "b".toList]⟩

/-- The document with the lines `a`, `b`, `a`, `b`. -/
def docAbab : Document :=
  ⟨"e.txt".toList, "e".toList, ["a".toList, "b".toList, "a".toList, "b".toList]⟩

/-- The spans of all matches emitted by a session on `list` with pattern `regexp`, started
on `idleObject` and driven for one timer turn per clock of the list. -/
def sessionSpans (engine : RegexEngine) (fuel : Nat) (clocks : List StepClock)
    (list : List Document) (regexp : QRegularExpression) : Option (List (Int × Int × Int × Int)) :=
  (SearchOpenFiles.runTicks engine fuel clocks
      (SearchOpenFiles.startSearch list regexp idleObject)).map
    (fun r => (SearchOpenFiles.matchesOf (SearchOpenFiles.signalsOf r.2)).map spanOf)

/-- Two documents with one match of the pattern `a` each: `A` has it on its second line, `B`
on its first. -/
def twoDocs : List Document :=
  [⟨"A.txt".toList, "A".toList, ["-".toList, "a".toList]⟩,
   ⟨"B.txt".toList, "B".toList, ["a".toList, "-".toList]⟩]

/-- Five timer turns; the first and the third pause after one line. -/
def twoDocsClocks : List StepClock :=
  [StepClock.firesAt 1, StepClock.unbounded, StepClock.firesAt 1, StepClock.unbounded,
   StepClock.unbounded]

/-- The log of the session on `twoDocs` driven by `twoDocsClocks`: per turn, the value of
`m_nextFileIndex` when the turn began and the signals emitted. -/
def twoDocsLog : List (Int × List Signal) :=
  [(0, []),
   (0, [Signal.matchFound ⟨"A.txt".toList, "A".toList, "a".toList, 1, 1, 0, 1, 1⟩]),
   (1, [Signal.matchFound ⟨"B.txt".toList, "B".toList, "a".toList, 1, 0, 0, 0, 1⟩]),
   (1, [Signal.searchDone]),
   (-1, [])]

/-- The document with the lines `ab`, `b`, `cb`. -/
def docThree : Document :=
  ⟨"t.txt".toList, "t".toList, ["ab".toList, "b".toList, "cb".toList]⟩

/-! ## A reference engine with alternation

For a pattern made of alternatives separated by `|`, each a sequence of plain characters,
`\n` and starred characters that may end with the lookahead `(?=\n)`,
`QRegularExpression::match(subject, offset)` reports the leftmost position at which an
alternative matches, the first such alternative giving the match. -/

/-- The alternatives of a pattern text: the text split at every `|`. -/
def splitAlternatives : QString → List QString
  | [] => [[]]
  | c :: rest =>
    if c = '|' then [] :: splitAlternatives rest
    else
      match splitAlternatives rest with
      | [] => [[c]]
      | a :: more => (c :: a) :: more

/-- An alternative without its final lookahead `(?=\n)`, and whether it had one. -/
def stripLookahead (alt : QString) : QString × Bool :=
  if "(?=\\n)".toList.isSuffixOf alt then (alt.take (alt.length - 6), true) else (alt, false)

/-- The length of the match of the items at the very start of the subject, if any, when the
rest of the subject after the items has to satisfy `k`. -/
def matchHereThen (k : QString → Option Nat) : List Atom → QString → Option Nat
  | [], s => k s
  | Atom.lit _ :: _, [] => none
  | Atom.lit c :: rest, d :: s =>
    if c = d then (matchHereThen k rest s).map (fun l => l + 1) else none
  | Atom.star c :: rest, s => starTry (matchHereThen k rest) c s

/-- The lookahead `(?=\n)`: the rest of the subject starts with a newline; it takes no
character. -/
def lookaheadNewline (s : QString) : Option Nat :=
  if s.head? = some '\n' then some 0 else none

/-- The length of the match of one alternative at the very start of the subject, if any. -/
def matchBranch (alt : QString) (s : QString) : Option Nat :=
  if (stripLookahead alt).2 = true then
    matchHereThen lookaheadNewline (parsePattern (stripLookahead alt).1) s
  else matchHereThen (fun _ => some 0) (parsePattern (stripLookahead alt).1) s

/-- The length of the match of the first alternative that matches at the very start of the
subject, if any. -/
def matchAlternatives : List QString → QString → Option Nat
  | [], _ => none
  | a :: more, s =>
    match matchBranch a s with
    | some l => some l
    | none => matchAlternatives more s

/-- The leftmost match of the alternatives in `s`, which is the subject from position `pos`
on. -/
def findFromAlt (alts : List QString) : Nat → QString → QRegularExpressionMatch
  | pos, [] =>
    match matchAlternatives alts [] with
    | some _ => ⟨pos, []⟩
    | none => ⟨-1, []⟩
  | pos, c :: s =>
    match matchAlternatives alts (c :: s) with
    | some l => ⟨pos, (c :: s).take l⟩
    | none => findFromAlt alts (pos + 1) s

/-- The reference engine with alternation. -/
def altEngine : RegexEngine := fun regExp subject offset =>
  if offset < 0 ∨ (subject.length : Int) < offset then ⟨-1, []⟩
  else findFromAlt (splitAlternatives regExp.pattern) offset.toNat (subject.drop offset.toNat)

/-- The document with the lines `x`, `a`. -/
def docXa : Document :=
  ⟨"f.txt".toList, "f".toList, ["x".toList, "a".toList]⟩

/-- A clock on which every budget check fires: more than 100 ms have elapsed at each
evaluation of `time.elapsed() > 100`. -/
def StepClock.exhausted : StepClock :=
  { statusElapsed := false, expired := fun _ => true }

end Kate

namespace Kate

open SearchOpenFiles

/-! ## Session control: `startSearch`, `cancelSearch`, `terminateSearch` -/

theorem doSearchNextFile_cancelled (engine : RegexEngine) (clock : StepClock) (fuel : Nat)
    (self : SearchOpenFiles) (startLine : Int) (h : self.m_cancelSearch = true) :
    doSearchNextFile engine clock fuel self startLine =
      some ({ self with m_nextFileIndex := -1, m_cancelSearch := true, m_nextLine := -1 }, []) := by
  simp [doSearchNextFile, h]

theorem runSteps_cancelled (engine : RegexEngine) (fuel : Nat) (steps : List (StepClock × Int)) :
    ∀ self : SearchOpenFiles, self.m_cancelSearch = true →
      ∃ self1, runSteps engine fuel steps self = some (self1, []) ∧
        self1.m_cancelSearch = true := by
  induction steps with
  | nil => intro self h; exact ⟨self, rfl, h⟩
  | cons st rest ih =>
    intro self h
    obtain ⟨clock, startLine⟩ := st
    obtain ⟨self1, h1, h2⟩ :=
      ih { self with m_nextFileIndex := -1, m_cancelSearch := true, m_nextLine := -1 } rfl
    refine ⟨self1, ?_, h2⟩
    simp [runSteps, doSearchNextFile_cancelled engine clock fuel self startLine h, h1]

theorem timerTick_cancelled (engine : RegexEngine) (clock : StepClock) (fuel : Nat)
    (self : SearchOpenFiles) (h : self.m_cancelSearch = true) :
    ∃ self1, timerTick engine clock fuel self = some (self1, []) ∧
      self1.m_cancelSearch = true ∧ self1.m_docList = self.m_docList ∧
      (self.m_nextFileIndex = -1 → self1.m_nextFileIndex = -1) := by
  unfold timerTick
  by_cases ht : self.m_nextRunTimer = true
  · rw [if_pos ht, doSearchNextFile_cancelled _ _ _ _ _ (by simpa using h)]
    exact ⟨_, rfl, rfl, rfl, fun _ => rfl⟩
  · rw [if_neg ht]
    exact ⟨self, rfl, h, rfl, fun e => e⟩

theorem runTicks_cancelled (engine : RegexEngine) (fuel : Nat) (clocks : List StepClock) :
    ∀ self : SearchOpenFiles, self.m_cancelSearch = true →
      ∃ self1 log, runTicks engine fuel clocks self = some (self1, log) ∧
        self1.m_cancelSearch = true ∧ (∀ e ∈ log, e.2 = []) ∧
        (self.m_nextFileIndex = -1 → self1.m_nextFileIndex = -1 ∧ ∀ e ∈ log, e.1 = -1) := by
  induction clocks with
  | nil => intro self h; exact ⟨self, [], rfl, h, by simp, fun e => ⟨e, by simp⟩⟩
  | cons clock rest ih =>
    intro self h
    obtain ⟨s1, h1, h2, _, hidx⟩ := timerTick_cancelled engine clock fuel self h
    obtain ⟨s2, log, h3, h4, h5, h6⟩ := ih s1 h2
    refine ⟨s2, (self.m_nextFileIndex, []) :: log, ?_, h4, ?_, ?_⟩
    · simp [runTicks, h1, h3]
    · intro e he
      rcases List.mem_cons.1 he with rfl | he
      · rfl
      · exact h5 e he
    · intro hi
      refine ⟨(h6 (hidx hi)).1, ?_⟩
      intro e he
      rcases List.mem_cons.1 he with rfl | he
      · exact hi
      · exact (h6 (hidx hi)).2 e he

theorem signalsOf_eq_nil (log : List (Int × List Signal)) (h : ∀ e ∈ log, e.2 = []) :
    signalsOf log = [] := by
  induction log with
  | nil => rfl
  | cons e rest ih =>
    have h1 : e.2 = [] := h e (List.mem_cons_self _ _)
    have h2 := ih (fun x hx => h x (List.mem_cons_of_mem _ hx))
    simp only [signalsOf, List.flatMap_cons] at h2 ⊢
    rw [h1, h2]; rfl

/-- C8: `startSearch` takes effect exactly when `m_nextFileIndex` is `-1`. With any other
value the call is rejected and the whole object (document list, pattern, cursor, cancel and
terminate flags, timer) is left as it was, so no step is scheduled by the call; with `-1` the
document list and the pattern are stored, the cursor becomes `(0, 0)`, `searching()` is true,
both flags are cleared and the first step is scheduled. -/
theorem startSearch_accepted_iff_idle (list : List Document) (regexp : QRegularExpression)
    (self : SearchOpenFiles) :
    (self.m_nextFileIndex ≠ -1 → startSearch list regexp self = self) ∧
    (self.m_nextFileIndex = -1 →
      (startSearch list regexp self).m_docList = list ∧
      (startSearch list regexp self).m_regExp = regexp ∧
      (startSearch list regexp self).m_nextFileIndex = 0 ∧
      (startSearch list regexp self).m_nextLine = 0 ∧
      (startSearch list regexp self).searching = true ∧
      (startSearch list regexp self).m_cancelSearch = false ∧
      (startSearch list regexp self).m_terminateSearch = false ∧
      (startSearch list regexp self).m_nextRunTimer = true) := by
  constructor
  · intro h
    simp [startSearch, h]
  · intro h
    simp [startSearch, h, searching]

/-- C10: from every state, `cancelSearch` twice equals `cancelSearch` once, and `cancelSearch`
followed by `terminateSearch` equals `terminateSearch` alone; `searching()` is false
afterwards, and from either state every sequence of later steps, whether direct calls of
`doSearchNextFile` (any clock, any start line, even with no fuel for a matcher loop) or
timer turns, returns with no signal at all, the result being the same for every engine. -/
theorem cancel_twice_and_cancel_terminate (self : SearchOpenFiles) (engine : RegexEngine)
    (fuel : Nat) (steps : List (StepClock × Int)) (clocks : List StepClock) :
    cancelSearch (cancelSearch self) = cancelSearch self ∧
    terminateSearch (cancelSearch self) = terminateSearch self ∧
    (cancelSearch (cancelSearch self)).searching = false ∧
    (terminateSearch (cancelSearch self)).searching = false ∧
    (∀ s, s = cancelSearch (cancelSearch self) ∨ s = terminateSearch (cancelSearch self) →
      (∀ clock startLine,
        doSearchNextFile engine clock 0 s startLine =
          some ({ s with m_nextFileIndex := -1, m_cancelSearch := true, m_nextLine := -1 }, [])) ∧
      (∃ s1, runSteps engine fuel steps s = some (s1, []) ∧ s1.searching = false) ∧
      (∃ s1 log, runTicks engine fuel clocks s = some (s1, log) ∧ signalsOf log = [] ∧
        s1.searching = false)) := by
  refine ⟨rfl, rfl, rfl, rfl, ?_⟩
  intro s hs
  have hc : s.m_cancelSearch = true := by
    rcases hs with rfl | rfl <;> rfl
  refine ⟨fun clock startLine => doSearchNextFile_cancelled engine clock 0 s startLine hc, ?_, ?_⟩
  · obtain ⟨s1, h1, h2⟩ := runSteps_cancelled engine fuel steps s hc
    exact ⟨s1, h1, by simp [searching, h2]⟩
  · obtain ⟨s1, log, h1, h2, h3, _⟩ := runTicks_cancelled engine fuel clocks s hc
    exact ⟨s1, log, h1, signalsOf_eq_nil log h3, by simp [searching, h2]⟩

/-- C9, as stated, fails: on an active session with `m_nextFileIndex = 0`, `cancelSearch`
leaves `m_nextFileIndex` at `0`, not `-1`, and a `startSearch` called right after it is
rejected: the object is unchanged, the new document list is not stored. -/
theorem cancel_then_start_rejected :
    activeSession.m_nextFileIndex = 0 ∧
    (cancelSearch activeSession).m_nextFileIndex ≠ -1 ∧
    startSearch [⟨"b.txt".toList, "b".toList, ["xyz".toList]⟩] ⟨"y".toList⟩
        (cancelSearch activeSession) = cancelSearch activeSession ∧
    (startSearch [⟨"b.txt".toList, "b".toList, ["xyz".toList]⟩] ⟨"y".toList⟩
        (cancelSearch activeSession)).m_docList ≠
      [⟨"b.txt".toList, "b".toList, ["xyz".toList]⟩] := by
  decide

/-- C9, amended: `cancelSearch` only sets the cancel flag, so `searching()` becomes false and
`m_nextFileIndex` keeps its value; on an active session a `startSearch` called right after
it, with no step in between, is rejected. The next step (`doSearchNextFile`) emits nothing
and sets `m_nextFileIndex` to `-1`, and a `startSearch` called after that step is accepted
and begins a new session with cursor `(0, 0)`. -/
theorem cancel_takes_effect_at_next_step (self : SearchOpenFiles) (list : List Document)
    (regexp : QRegularExpression) (engine : RegexEngine) (clock : StepClock) (fuel : Nat)
    (startLine : Int) :
    (cancelSearch self).m_nextFileIndex = self.m_nextFileIndex ∧
    (cancelSearch self).searching = false ∧
    (self.m_nextFileIndex ≠ -1 →
      startSearch list regexp (cancelSearch self) = cancelSearch self) ∧
    (∃ s1, doSearchNextFile engine clock fuel (cancelSearch self) startLine = some (s1, []) ∧
      s1.m_nextFileIndex = -1 ∧
      (startSearch list regexp s1).m_docList = list ∧
      (startSearch list regexp s1).m_regExp = regexp ∧
      (startSearch list regexp s1).m_nextFileIndex = 0 ∧
      (startSearch list regexp s1).m_nextLine = 0 ∧
      (startSearch list regexp s1).searching = true) := by
  refine ⟨rfl, rfl, ?_, ?_⟩
  · intro h
    simp [startSearch, cancelSearch, h]
  · refine ⟨_, doSearchNextFile_cancelled engine clock fuel (cancelSearch self) startLine rfl, ?_⟩
    simp [startSearch, searching]

/-! ## The end-anchor rewrite -/

theorem replaceGo_dollar (after : QString) (s : QString) :
    QString.replaceGo ['$'] after 0 s = s.flatMap (fun c => if c = '$' then after else [c]) := by
  induction s with
  | nil => rfl
  | cons c cs ih =>
    by_cases h : c = '$'
    · subst h
      simp [QString.replaceGo, List.isPrefixOf, ih]
    · have h1 : ¬ '$' = c := fun e => h e.symm
      simp [QString.replaceGo, List.isPrefixOf, ih, h, h1]

/-- C5, as stated, fails: for the pattern text `a$\nb$`, which ends with `$` and has an
interior `$`, the pattern that is run is `a(?=\n)\nb(?=\n)`; the claim's pattern, with only
the trailing `$` replaced, would be `a$\nb(?=\n)`. -/
theorem tmpRegExp_rewrites_interior_dollar :
    QString.endsWith "a$\\nb$".toList '$' = true ∧
    (tmpRegExp ⟨"a$\\nb$".toList⟩).pattern = "a(?=\\n)\\nb(?=\\n)".toList ∧
    (tmpRegExp ⟨"a$\\nb$".toList⟩).pattern ≠ "a$\\nb".toList ++ "(?=\\n)".toList := by
  decide

/-- C5, amended: for every pattern text that ends with `$`, the pattern that
`searchMultiLineRegExp` runs is the original text with every `$`, the trailing one and any
interior one, replaced by the lookahead `(?=\n)`; every character other than `$` is left
unchanged. For every pattern text that does not end with `$` the regular expression is run
unchanged, interior `$` included. -/
theorem tmpRegExp_replaces_every_dollar (regExp : QRegularExpression) :
    (QString.endsWith regExp.pattern '$' = true →
      (tmpRegExp regExp).pattern =
        regExp.pattern.flatMap (fun c => if c = '$' then "(?=\\n)".toList else [c])) ∧
    (QString.endsWith regExp.pattern '$' = false → tmpRegExp regExp = regExp) := by
  constructor
  · intro h
    have hd : "$".toList = ['$'] := rfl
    simp only [tmpRegExp, h, if_true, QRegularExpression.setPattern, QString.replace, hd]
    exact replaceGo_dollar _ _
  · intro h
    simp [tmpRegExp, h]

/-! ## The single-line matcher, one line at a time -/

theorem singleLineWhile_bound (engine : RegexEngine) (doc : Document)
    (regExp : QRegularExpression) (line : Int)
    (hin : ∀ o : Int, 0 ≤ o → o ≤ (doc.line line).length →
      (engine regExp (doc.line line) o).capturedStart ≠ -1 →
        o ≤ (engine regExp (doc.line line) o).capturedStart ∧
        (engine regExp (doc.line line) o).capturedStart +
          (engine regExp (doc.line line) o).captured.length ≤ (doc.line line).length) :
    ∀ (fuel : Nat) (o : Int), 0 ≤ o → o ≤ (doc.line line).length →
      ((doc.line line).length : Int) - o ≤ fuel →
      ∃ evs, singleLineWhile engine doc regExp line fuel (engine regExp (doc.line line) o) =
          some evs ∧ (evs.length : Int) ≤ (doc.line line).length - o := by
  intro fuel
  induction fuel with
  | zero =>
    intro o h0 hN hf
    have ho : o = (doc.line line).length := by omega
    refine ⟨[], ?_, by simp; omega⟩
    unfold singleLineWhile
    split
    · rename_i hc
      obtain ⟨hs, he⟩ := hc
      have h1 := hin o h0 hN hs
      have h2 : 0 < (engine regExp (doc.line line) o).captured.length := by
        cases hcap : (engine regExp (doc.line line) o).captured with
        | nil => simp [hcap] at he
        | cons a l => simp
      omega
    · rfl
  | succ fuel ih =>
    intro o h0 hN hf
    unfold singleLineWhile
    split
    · rename_i hc
      obtain ⟨hs, he⟩ := hc
      have h1 := hin o h0 hN hs
      have h2 : 0 < (engine regExp (doc.line line) o).captured.length := by
        cases hcap : (engine regExp (doc.line line) o).captured with
        | nil => simp [hcap] at he
        | cons a l => simp
      obtain ⟨evs, hev, hlen⟩ := ih
        ((engine regExp (doc.line line) o).capturedStart +
          (engine regExp (doc.line line) o).capturedLength)
        (by simp only [QRegularExpressionMatch.capturedLength]; omega)
        (by simp only [QRegularExpressionMatch.capturedLength]; omega)
        (by simp only [QRegularExpressionMatch.capturedLength]; omega)
      refine ⟨_ :: evs, by rw [hev]; rfl, ?_⟩
      simp only [QRegularExpressionMatch.capturedLength] at hlen
      simp only [List.length_cons]
      push_cast
      omega
    · exact ⟨[], rfl, by simp; omega⟩

/-- C3: for a line of length `N` and any engine (one that reports zero-length matches
included) whose reported match, for a requested offset inside the line, lies inside the line
at or after that offset, the per-line loop of `searchSingleLineRegExp` terminates: with fuel
for `N` loop bodies it returns, and it emits at most `N + 1` matches for the line. -/
theorem singleLineWhile_terminates (engine : RegexEngine) (doc : Document)
    (regExp : QRegularExpression) (line : Int) (fuel : Nat)
    (hin : ∀ o : Int, 0 ≤ o → o ≤ (doc.line line).length →
      (engine regExp (doc.line line) o).capturedStart ≠ -1 →
        o ≤ (engine regExp (doc.line line) o).capturedStart ∧
        (engine regExp (doc.line line) o).capturedStart +
          (engine regExp (doc.line line) o).captured.length ≤ (doc.line line).length)
    (hfuel : (doc.line line).length ≤ fuel) :
    ∃ evs, singleLineWhile engine doc regExp line fuel (engine regExp (doc.line line) 0) =
        some evs ∧ evs.length ≤ (doc.line line).length + 1 := by
  obtain ⟨evs, h1, h2⟩ := singleLineWhile_bound engine doc regExp line hin fuel 0
    (le_refl 0) (by omega) (by omega)
  exact ⟨evs, h1, by omega⟩

/-- C3 at a concrete input: the pattern `x*` on the line `xx` (length 2). -/
theorem singleLineWhile_terminates_witness :
    ∃ evs, singleLineWhile refEngine ⟨[], [], ["xx".toList]⟩ ⟨"x*".toList⟩ 0 2
        (refEngine ⟨"x*".toList⟩ (Document.line ⟨[], [], ["xx".toList]⟩ 0) 0) = some evs ∧
      evs.length ≤ (Document.line ⟨[], [], ["xx".toList]⟩ 0).length + 1 :=
  singleLineWhile_terminates refEngine ⟨[], [], ["xx".toList]⟩ ⟨"x*".toList⟩ 0 2
    (by
      intro o h0 h2
      have h2 : o ≤ 2 := h2
      have ho : o = 0 ∨ o = 1 ∨ o = 2 := by omega
      rcases ho with rfl | rfl | rfl <;> decide)
    (by decide)

theorem singleLineWhile_chain (engine : RegexEngine) (doc : Document)
    (regExp : QRegularExpression) (line : Int) :
    ∀ (fuel : Nat) (o : Int) (evs : List MatchFound),
      singleLineWhile engine doc regExp line fuel (engine regExp (doc.line line) o) = some evs →
      ∃ ms, MatchChain engine regExp (doc.line line) o ms ∧
        evs = ms.map (singleLineMatchFound doc line) := by
  intro fuel
  induction fuel with
  | zero =>
    intro o evs h
    unfold singleLineWhile at h
    split at h
    · exact absurd h (by simp)
    · rename_i hc
      refine ⟨[], MatchChain.stop o ?_, by simpa using h.symm⟩
      by_cases hs : (engine regExp (doc.line line) o).capturedStart = -1
      · exact Or.inl hs
      · right
        by_contra hne
        exact hc ⟨hs, by simpa using hne⟩
  | succ fuel ih =>
    intro o evs h
    unfold singleLineWhile at h
    split at h
    · rename_i hc
      obtain ⟨hs, he⟩ := hc
      cases hrest : singleLineWhile engine doc regExp line fuel
          (engine regExp (doc.line line)
            ((engine regExp (doc.line line) o).capturedStart +
              (engine regExp (doc.line line) o).capturedLength)) with
      | none => rw [hrest] at h; exact absurd h (by simp)
      | some evs1 =>
        rw [hrest] at h
        obtain ⟨ms, hch, hevs⟩ := ih _ evs1 hrest
        refine ⟨engine regExp (doc.line line) o :: ms,
          MatchChain.next o ms hs (by simpa using he) hch, ?_⟩
        simp only [Option.map_some', Option.some.injEq] at h
        rw [← h, hevs]; rfl
    · rename_i hc
      refine ⟨[], MatchChain.stop o ?_, by simpa using h.symm⟩
      by_cases hs : (engine regExp (doc.line line) o).capturedStart = -1
      · exact Or.inl hs
      · right
        by_contra hne
        exact hc ⟨hs, by simpa using hne⟩

theorem singleLineFor_chain (engine : RegexEngine) (clock : StepClock) (fuel : Nat)
    (doc : Document) (regExp : QRegularExpression) :
    ∀ (remaining k : Nat) (line : Int) (evs : List MatchFound) (ret : Int),
      singleLineFor engine clock fuel doc regExp remaining k line = some (evs, ret) →
      ∃ per : List (List QRegularExpressionMatch),
        evs = emittedFor doc line per ∧
        (∀ (i : Nat) (ms : List QRegularExpressionMatch), per[i]? = some ms →
          MatchChain engine regExp (doc.line (line + i)) 0 ms) ∧
        ((∀ j, clock.expired j = false) → per.length = remaining) := by
  intro remaining
  induction remaining with
  | zero =>
    intro k line evs ret h
    simp only [singleLineFor, Option.some.injEq, Prod.mk.injEq] at h
    exact ⟨[], by rw [← h.1]; rfl, by simp, fun _ => rfl⟩
  | succ remaining ih =>
    intro k line evs ret h
    unfold singleLineFor at h
    split at h
    · rename_i hexp
      simp only [Option.some.injEq, Prod.mk.injEq] at h
      refine ⟨[], by rw [← h.1]; rfl, by simp, ?_⟩
      intro hall
      rw [hall k] at hexp
      cases hexp
    · split at h
      · exact absurd h (by simp)
      · rename_i evs0 hw
        cases hrest : singleLineFor engine clock fuel doc regExp remaining (k + 1) (line + 1) with
        | none => rw [hrest] at h; exact absurd h (by simp)
        | some r =>
          obtain ⟨evs1, ret1⟩ := r
          rw [hrest] at h
          simp only [Option.map_some', Option.some.injEq, Prod.mk.injEq] at h
          obtain ⟨ms, hch, hevs0⟩ := singleLineWhile_chain engine doc regExp line fuel 0 evs0 hw
          obtain ⟨per, hper, hall, hlen⟩ := ih (k + 1) (line + 1) evs1 ret1 hrest
          refine ⟨ms :: per, ?_, ?_, ?_⟩
          · rw [← h.1, hevs0, hper]; rfl
          · intro i ms1 hi
            cases i with
            | zero =>
              simp only [List.getElem?_cons_zero, Option.some.injEq] at hi
              subst hi
              simpa using hch
            | succ j =>
              simp only [List.getElem?_cons_succ] at hi
              have := hall j ms1 hi
              have e : line + 1 + (j : Int) = line + ((j + 1 : Nat) : Int) := by
                push_cast; ring
              rw [e] at this
              exact this
          · intro hnever
            simp [hlen hnever]

theorem MatchChain.captured_ne_nil {engine : RegexEngine} {regExp : QRegularExpression}
    {text : QString} {o : Int} {ms : List QRegularExpressionMatch}
    (h : MatchChain engine regExp text o ms) : ∀ m ∈ ms, m.captured ≠ [] := by
  induction h with
  | stop o h => simp
  | next o ms hstart hne rest ih =>
    intro m hm
    rcases List.mem_cons.1 hm with rfl | hm
    · exact hne
    · exact ih m hm

theorem emittedFor_shape (doc : Document) :
    ∀ (per : List (List QRegularExpressionMatch)) (line : Int),
      (∀ ms ∈ per, ∀ m ∈ ms, m.captured ≠ []) →
      ∀ ev ∈ emittedFor doc line per,
        ev.startLine = ev.endLine ∧ 0 < ev.matchLen ∧
          ev.endColumn = ev.startColumn + ev.matchLen := by
  intro per
  induction per with
  | nil => intro line _ ev hev; simp [emittedFor] at hev
  | cons ms rest ih =>
    intro line hne ev hev
    simp only [emittedFor, List.mem_append, List.mem_map] at hev
    rcases hev with ⟨m, hm, rfl⟩ | hev
    · have h1 := hne ms (List.mem_cons_self _ _) m hm
      have h2 : 0 < m.captured.length := List.length_pos.2 h1
      refine ⟨rfl, ?_, rfl⟩
      simp only [singleLineMatchFound, QRegularExpressionMatch.capturedLength]
      omega
    · exact ih (line + 1) (fun ms1 h1 => hne ms1 (List.mem_cons_of_mem _ h1)) ev hev

/-- C4, as stated, fails: on the line `axx` the pattern `x*` has a zero-length match at
offset 0 and, after it, the non-empty match `xx` at offset 1, yet `searchSingleLineRegExp`
emits no match for the line: the loop stops at the zero-length match. -/
theorem zero_length_match_ends_line_scan :
    refEngine ⟨"x*".toList⟩ "axx".toList 0 = ⟨0, []⟩ ∧
    refEngine ⟨"x*".toList⟩ "axx".toList 1 = ⟨1, "xx".toList⟩ ∧
    searchSingleLineRegExp refEngine StepClock.unbounded 4 ⟨[], [], ["axx".toList]⟩
      ⟨"x*".toList⟩ 0 = some ([], 0) := by
  decide

/-- C4, amended: whenever `searchSingleLineRegExp` returns, the matches it emitted are, line
after line from the start line, the left-to-right match sequence of each scanned line (each
next search beginning at the previous match end) up to, and not including, the first
request that reports no match or a zero-length match, where the scan of that line stops;
each is emitted with `start_line = end_line =` the line index, a positive length and
`end_column = start_column + length`. When the budget never expires every line from the
start line to the last is scanned. -/
theorem searchSingleLineRegExp_emits_chains (engine : RegexEngine) (clock : StepClock)
    (fuel : Nat) (doc : Document) (regExp : QRegularExpression) (startLine : Int)
    (evs : List MatchFound) (ret : Int)
    (h : searchSingleLineRegExp engine clock fuel doc regExp startLine = some (evs, ret)) :
    ∃ per : List (List QRegularExpressionMatch),
      evs = emittedFor doc startLine per ∧
      (∀ (i : Nat) (ms : List QRegularExpressionMatch), per[i]? = some ms →
        MatchChain engine regExp (doc.line (startLine + i)) 0 ms) ∧
      ((∀ j, clock.expired j = false) → per.length = (doc.lines - startLine).toNat) ∧
      (∀ ev ∈ evs, ev.startLine = ev.endLine ∧ 0 < ev.matchLen ∧
        ev.endColumn = ev.startColumn + ev.matchLen) := by
  obtain ⟨per, hper, hall, hlen⟩ :=
    singleLineFor_chain engine clock fuel doc regExp _ 0 startLine evs ret h
  refine ⟨per, hper, hall, hlen, ?_⟩
  rw [hper]
  apply emittedFor_shape
  intro ms hms
  obtain ⟨i, hi, hget⟩ := List.getElem_of_mem hms
  exact (hall i ms (by rw [List.getElem?_eq_getElem hi, hget])).captured_ne_nil

/-- C4, amended, at a concrete input: the pattern `x` on the lines `axx` and `xb`. -/
theorem searchSingleLineRegExp_emits_chains_witness :
    ∃ per : List (List QRegularExpressionMatch),
      [⟨[], [], "axx".toList, 1, 0, 1, 0, 2⟩, ⟨[], [], "axx".toList, 1, 0, 2, 0, 3⟩,
        ⟨[], [], "xb".toList, 1, 1, 0, 1, 1⟩] =
        emittedFor ⟨[], [], ["axx".toList, "xb".toList]⟩ 0 per ∧
      (∀ (i : Nat) (ms : List QRegularExpressionMatch), per[i]? = some ms →
        MatchChain refEngine ⟨"x".toList⟩
          (Document.line ⟨[], [], ["axx".toList, "xb".toList]⟩ (0 + i)) 0 ms) ∧
      ((∀ j, StepClock.unbounded.expired j = false) →
        per.length = (Document.lines ⟨[], [], ["axx".toList, "xb".toList]⟩ - 0).toNat) ∧
      (∀ ev ∈ ([⟨[], [], "axx".toList, 1, 0, 1, 0, 2⟩, ⟨[], [], "axx".toList, 1, 0, 2, 0, 3⟩,
        ⟨[], [], "xb".toList, 1, 1, 0, 1, 1⟩] : List MatchFound),
        ev.startLine = ev.endLine ∧ 0 < ev.matchLen ∧
          ev.endColumn = ev.startColumn + ev.matchLen) :=
  searchSingleLineRegExp_emits_chains refEngine StepClock.unbounded 3
    ⟨[], [], ["axx".toList, "xb".toList]⟩ ⟨"x".toList⟩ 0 _ 0 (by decide)

/-! ## The synthesized buffer and the offset table -/

theorem synthLoop_eq (text : List QString) :
    ∀ (fullDoc : QString) (lineStart : List Int),
      synthLoop text (fullDoc, lineStart) =
        (fullDoc ++ joinedLines text, lineStart ++ lineStartsFrom fullDoc.length text) := by
  induction text with
  | nil => intro fullDoc lineStart; simp [synthLoop, joinedLines, lineStartsFrom]
  | cons l rest ih =>
    intro fullDoc lineStart
    rw [synthLoop, ih]
    have e : (((fullDoc ++ (l ++ ['\n'])).length : Nat) : Int) = (fullDoc.length : Int) + l.length + 1 := by
      simp only [List.length_append, List.length_singleton]; push_cast; ring
    simp only [joinedLines, List.flatMap_cons, lineStartsFrom, e, List.append_assoc,
      List.singleton_append]

theorem synthesize_lineStart (doc : Document) (regExp : QRegularExpression) :
    (synthesize doc regExp).2 = 0 :: lineStartsFrom 0 doc.text := by
  unfold synthesize
  simp only [synthLoop_eq]
  split <;> simp

theorem remove_last_length_le (b : QString) :
    (QString.remove b ((b.length : Int) - 1) 1).length ≤ b.length := by
  unfold QString.remove
  simp only
  split_ifs
  all_goals simp
  all_goals omega

theorem synthesize_fullDoc_length_le (doc : Document) (regExp : QRegularExpression) :
    (synthesize doc regExp).1.length ≤ (joinedLines doc.text).length := by
  unfold synthesize
  simp only [synthLoop_eq]
  split
  · simpa using remove_last_length_le (joinedLines doc.text)
  · simp

theorem lineStartsFrom_length (text : List QString) :
    ∀ base : Int, (lineStartsFrom base text).length = text.length := by
  induction text with
  | nil => intro base; rfl
  | cons l rest ih => intro base; simp [lineStartsFrom, ih]

theorem lineStartsFrom_gt (text : List QString) :
    ∀ (base : Int), ∀ x ∈ lineStartsFrom base text, base < x := by
  induction text with
  | nil => intro base x hx; simp [lineStartsFrom] at hx
  | cons l rest ih =>
    intro base x hx
    simp only [lineStartsFrom, List.mem_cons] at hx
    rcases hx with rfl | hx
    · omega
    · have := ih _ x hx
      omega

theorem lineStartsFrom_pairwise (text : List QString) :
    ∀ (base : Int), (lineStartsFrom base text).Pairwise (fun a b => a < b) := by
  induction text with
  | nil => intro base; simp [lineStartsFrom]
  | cons l rest ih =>
    intro base
    simp only [lineStartsFrom, List.pairwise_cons]
    exact ⟨fun x hx => lineStartsFrom_gt rest _ x hx, ih _⟩

theorem lineStartsFrom_total_mem (text : List QString) :
    ∀ (base : Int), text ≠ [] →
      base + (joinedLines text).length ∈ lineStartsFrom base text := by
  induction text with
  | nil => intro base h; exact absurd rfl h
  | cons l rest ih =>
    intro base _
    by_cases hr : rest = []
    · subst hr
      simp [lineStartsFrom, joinedLines]
      ring
    · have := ih (base + l.length + 1) hr
      simp only [lineStartsFrom, List.mem_cons]
      right
      have e : base + ((joinedLines (l :: rest)).length : Int) =
          base + l.length + 1 + (joinedLines rest).length := by
        simp only [joinedLines, List.flatMap_cons, List.length_append, List.length_singleton]
        push_cast; ring
      rw [e]; exact this

theorem synthesize_lineStart_pairwise (doc : Document) (regExp : QRegularExpression) :
    (synthesize doc regExp).2.Pairwise (fun a b => a < b) := by
  rw [synthesize_lineStart, List.pairwise_cons]
  exact ⟨fun x hx => lineStartsFrom_gt doc.text 0 x hx, lineStartsFrom_pairwise doc.text 0⟩

/-! ## The line lookup -/

theorem findStartLineGo_spec (column : Int) :
    ∀ (rest : List Int) (i prev : Int), prev ≤ column → (∃ x ∈ rest, column < x) →
      ∃ j : Nat, findStartLineGo column rest i = i - 1 + j ∧ j < rest.length ∧
        (prev :: rest).getD j 0 ≤ column ∧ column < rest.getD j 0 := by
  intro rest
  induction rest with
  | nil => intro i prev _ h; obtain ⟨x, hx, _⟩ := h; simp at hx
  | cons x xs ih =>
    intro i prev hprev hex
    unfold findStartLineGo
    by_cases hx : x > column
    · rw [if_pos hx]
      exact ⟨0, by simp, by simp, by simpa using hprev, by simpa using hx⟩
    · rw [if_neg hx]
      have hex2 : ∃ y ∈ xs, column < y := by
        obtain ⟨y, hy, hlt⟩ := hex
        rcases List.mem_cons.1 hy with rfl | hy
        · exact absurd hlt hx
        · exact ⟨y, hy, hlt⟩
      obtain ⟨j, h1, h2, h3, h4⟩ := ih (i + 1) x (by omega) hex2
      refine ⟨j + 1, ?_, by simp; omega, ?_, ?_⟩
      · rw [h1]; push_cast; ring
      · simpa using h3
      · simpa using h4

theorem pairwise_getD_lt (ls : List Int) (h : ls.Pairwise (fun a b => a < b)) (a b : Nat)
    (hab : a < b) (hb : b < ls.length) : ls.getD a 0 < ls.getD b 0 := by
  have ha : a < ls.length := by omega
  rw [List.getD_eq_getElem ls 0 ha, List.getD_eq_getElem ls 0 hb]
  exact (List.pairwise_iff_getElem.1 h) a b ha hb hab

theorem lastIndexOfGo_spec (c : Char) :
    ∀ (s : QString) (idx acc : Int),
      (c ∉ s → QString.lastIndexOfGo c s idx acc = acc) ∧
      (c ∈ s → ∃ k : Nat, k < s.length ∧ QString.lastIndexOfGo c s idx acc = idx + k ∧
        s[k]? = some c ∧ ∀ j : Nat, k < j → s[j]? ≠ some c) := by
  intro s
  induction s with
  | nil => intro idx acc; simp [QString.lastIndexOfGo]
  | cons d ds ih =>
    intro idx acc
    obtain ⟨ih1, ih2⟩ := ih (idx + 1) (if d = c then idx else acc)
    constructor
    · intro hn
      have hd : ¬ d = c := fun e => hn (by simp [e])
      have hds : c ∉ ds := fun e => hn (List.mem_cons_of_mem _ e)
      rw [QString.lastIndexOfGo, ih1 hds, if_neg hd]
    · intro _
      by_cases hds : c ∈ ds
      · obtain ⟨k, hk, hval, hget, hlast⟩ := ih2 hds
        refine ⟨k + 1, by simp; omega, ?_, by simpa using hget, ?_⟩
        · rw [QString.lastIndexOfGo, hval]; push_cast; ring
        · intro j hj
          cases j with
          | zero => omega
          | succ j2 => simpa using hlast j2 (by omega)
      · have hd : d = c := by
          rename_i hmem
          rcases List.mem_cons.1 hmem with e | e
          · exact e.symm
          · exact absurd e hds
        refine ⟨0, by simp, ?_, by simp [hd], ?_⟩
        · rw [QString.lastIndexOfGo, ih1 hds, if_pos hd]; simp
        · intro j hj
          cases j with
          | zero => omega
          | succ j2 =>
            simp only [List.getElem?_cons_succ]
            intro e
            exact hds (List.getElem?_mem e)

theorem findStartLine_synthesize (doc : Document) (regExp : QRegularExpression) (s : Int)
    (hs : 0 ≤ s) (hlt : s < (joinedLines doc.text).length) :
    ∃ j : Nat, findStartLine (synthesize doc regExp).2 s = j ∧ j < doc.text.length ∧
      (synthesize doc regExp).2.getD j 0 ≤ s ∧ s < (synthesize doc regExp).2.getD (j + 1) 0 := by
  have hne : doc.text ≠ [] := by
    intro e
    rw [e] at hlt
    simp [joinedLines] at hlt
    omega
  have hmem := lineStartsFrom_total_mem doc.text 0 hne
  obtain ⟨j, h1, h2, h3, h4⟩ := findStartLineGo_spec s (lineStartsFrom 0 doc.text) 1 0 hs
    ⟨_, hmem, by omega⟩
  rw [lineStartsFrom_length] at h2
  refine ⟨j, ?_, h2, ?_, ?_⟩
  · rw [findStartLine, synthesize_lineStart]
    simp only [List.drop_succ_cons, List.drop_zero]
    rw [h1]; ring
  · rw [synthesize_lineStart]; exact h3
  · rw [synthesize_lineStart]; simpa using h4

/-! ## The span emitted by the multi-line matcher -/

theorem multiLineWhile_succ (engine : RegexEngine) (clock : StepClock) (doc : Document)
    (regExp : QRegularExpression) (fullDoc : QString) (lineStart : List Int) (fuel k : Nat)
    (m : QRegularExpressionMatch) (hs : m.capturedStart ≠ -1) (he : m.captured ≠ [])
    (hl : findStartLine lineStart m.capturedStart ≠ -1) :
    multiLineWhile engine clock doc regExp fullDoc lineStart (fuel + 1) k m =
      if clock.expired k = true then
        some ([multiLineMatchFound doc lineStart (findStartLine lineStart m.capturedStart)
          m.capturedStart m.captured], findStartLine lineStart m.capturedStart)
      else
        (multiLineWhile engine clock doc regExp fullDoc lineStart fuel (k + 1)
            (engine regExp fullDoc (m.capturedStart + m.capturedLength))).map
          (fun r => (multiLineMatchFound doc lineStart (findStartLine lineStart m.capturedStart)
            m.capturedStart m.captured :: r.1, r.2)) := by
  rw [multiLineWhile, if_pos ⟨hs, by simpa using he⟩, if_neg hl]

theorem multiLineWhile_zero (engine : RegexEngine) (clock : StepClock) (doc : Document)
    (regExp : QRegularExpression) (fullDoc : QString) (lineStart : List Int) (k : Nat)
    (m : QRegularExpressionMatch) (hs : m.capturedStart ≠ -1) (he : m.captured ≠ [])
    (hl : findStartLine lineStart m.capturedStart ≠ -1) :
    multiLineWhile engine clock doc regExp fullDoc lineStart 0 k m = none := by
  rw [multiLineWhile, if_pos ⟨hs, by simpa using he⟩, if_neg hl]

/-- C2: for every document and every non-empty match with `capturedStart() = s` and
`captured() = m` lying inside the synthesized buffer, the loop body of
`searchMultiLineRegExp` finds `startLine` = the greatest index `i` with
`m_lineStart[i] <= s` (a line of the document) and emits, as the first signal of that
iteration, `start_column = s - m_lineStart[startLine]`,
`end_line = startLine +` the number of newline characters in `m`, and
`end_column = |m| - k - 1` with `k` the index of the last newline of `m` when `m` has one,
`start_column + |m|` otherwise. For the lines `abc`, `def`, `ghi` and the pattern
`c\ndef\ng` the regex reports the match at offset 2 and the only span emitted is
`(0, 2, 2, 1)`. -/
theorem multiLine_span (doc : Document) (regExp : QRegularExpression) (s : Int) (m : QString)
    (hm : m ≠ []) (hs : 0 ≤ s) (hin : s + m.length ≤ (synthesize doc regExp).1.length) :
    (0 ≤ findStartLine (synthesize doc regExp).2 s ∧
      findStartLine (synthesize doc regExp).2 s < doc.lines ∧
      lineStartAt (synthesize doc regExp).2 (findStartLine (synthesize doc regExp).2 s) ≤ s ∧
      ∀ j : Nat, j < (synthesize doc regExp).2.length →
        (synthesize doc regExp).2.getD j 0 ≤ s →
          (j : Int) ≤ findStartLine (synthesize doc regExp).2 s) ∧
    ((multiLineMatchFound doc (synthesize doc regExp).2
          (findStartLine (synthesize doc regExp).2 s) s m).startLine =
        findStartLine (synthesize doc regExp).2 s ∧
      (multiLineMatchFound doc (synthesize doc regExp).2
          (findStartLine (synthesize doc regExp).2 s) s m).startColumn =
        s - lineStartAt (synthesize doc regExp).2 (findStartLine (synthesize doc regExp).2 s) ∧
      (multiLineMatchFound doc (synthesize doc regExp).2
          (findStartLine (synthesize doc regExp).2 s) s m).endLine =
        findStartLine (synthesize doc regExp).2 s + (List.count '\n' m : Nat) ∧
      ('\n' ∈ m → ∃ k : Nat, m[k]? = some '\n' ∧ (∀ j : Nat, k < j → m[j]? ≠ some '\n') ∧
        (multiLineMatchFound doc (synthesize doc regExp).2
            (findStartLine (synthesize doc regExp).2 s) s m).endColumn =
          (m.length : Int) - k - 1) ∧
      ('\n' ∉ m →
        (multiLineMatchFound doc (synthesize doc regExp).2
            (findStartLine (synthesize doc regExp).2 s) s m).endColumn =
          s - lineStartAt (synthesize doc regExp).2 (findStartLine (synthesize doc regExp).2 s) +
            m.length)) ∧
    (∀ (engine : RegexEngine) (clock : StepClock) (fuel k : Nat),
      (clock.expired k = true →
        multiLineWhile engine clock doc (tmpRegExp regExp) (synthesize doc regExp).1
            (synthesize doc regExp).2 (fuel + 1) k ⟨s, m⟩ =
          some ([multiLineMatchFound doc (synthesize doc regExp).2
              (findStartLine (synthesize doc regExp).2 s) s m],
            findStartLine (synthesize doc regExp).2 s)) ∧
      ∀ evs ret,
        multiLineWhile engine clock doc (tmpRegExp regExp) (synthesize doc regExp).1
            (synthesize doc regExp).2 fuel k ⟨s, m⟩ = some (evs, ret) →
          evs.head? = some (multiLineMatchFound doc (synthesize doc regExp).2
            (findStartLine (synthesize doc regExp).2 s) s m)) ∧
    (refEngine (tmpRegExp ⟨"c\\ndef\\ng".toList⟩)
        (synthesize docAbc ⟨"c\\ndef\\ng".toList⟩).1 0 = ⟨2, "c\ndef\ng".toList⟩ ∧
      (searchMultiLineRegExp refEngine StepClock.unbounded 1 idleObject docAbc
          ⟨"c\\ndef\\ng".toList⟩ 0).map
        (fun r => r.2.1.map (fun e => (e.startLine, e.startColumn, e.endLine, e.endColumn))) =
        some [(0, 2, 2, 1)]) := by
  have hlen := synthesize_fullDoc_length_le doc regExp
  have hmpos : 0 < m.length := List.length_pos.2 hm
  obtain ⟨j, hj, hjlt, hle, hgt⟩ :=
    findStartLine_synthesize doc regExp s hs (by omega)
  have hlsa : lineStartAt (synthesize doc regExp).2 (findStartLine (synthesize doc regExp).2 s) =
      (synthesize doc regExp).2.getD j 0 := by
    rw [hj]; simp [lineStartAt]
  have hne1 : findStartLine (synthesize doc regExp).2 s ≠ -1 := by rw [hj]; omega
  refine ⟨⟨by rw [hj]; omega, by rw [hj]; simp [Document.lines]; exact hjlt,
    by rw [hlsa]; exact hle, ?_⟩, ⟨rfl, rfl, rfl, ?_, ?_⟩, ?_, by decide⟩
  · intro j2 hj2 hle2
    rw [hj]
    by_contra hcon
    have hcon : j + 1 ≤ j2 := by omega
    have hpw := synthesize_lineStart_pairwise doc regExp
    rcases Nat.eq_or_lt_of_le hcon with e | e
    · rw [← e] at hle2; omega
    · have := pairwise_getD_lt _ hpw (j + 1) j2 e hj2
      omega
  · intro hmem
    obtain ⟨k, _, hval, hget, hlast⟩ := (lastIndexOfGo_spec '\n' m 0 (-1)).2 hmem
    refine ⟨k, hget, hlast, ?_⟩
    have hk : QString.lastIndexOf m '\n' = k := by rw [QString.lastIndexOf, hval]; simp
    have hk1 : ¬ ((k : Int) = -1) := by omega
    simp only [multiLineMatchFound, hk, if_neg hk1]
  · intro hmem
    have hk : QString.lastIndexOf m '\n' = -1 := (lastIndexOfGo_spec '\n' m 0 (-1)).1 hmem
    simp only [multiLineMatchFound, hk, if_true]
  · intro engine clock fuel k
    have hs1 : (⟨s, m⟩ : QRegularExpressionMatch).capturedStart ≠ -1 := by
      show s ≠ -1
      omega
    constructor
    · intro hexp
      rw [multiLineWhile_succ engine clock doc _ _ _ fuel k ⟨s, m⟩ hs1 hm hne1, if_pos hexp]
    · intro evs ret h
      cases fuel with
      | zero =>
        rw [multiLineWhile_zero engine clock doc _ _ _ k ⟨s, m⟩ hs1 hm hne1] at h
        exact absurd h (by simp)
      | succ f =>
        rw [multiLineWhile_succ engine clock doc _ _ _ f k ⟨s, m⟩ hs1 hm hne1] at h
        split at h
        · simp only [Option.some.injEq, Prod.mk.injEq] at h
          rw [← h.1]; rfl
        · cases hrest : multiLineWhile engine clock doc (tmpRegExp regExp)
              (synthesize doc regExp).1 (synthesize doc regExp).2 f (k + 1)
              (engine (tmpRegExp regExp) (synthesize doc regExp).1
                ((⟨s, m⟩ : QRegularExpressionMatch).capturedStart +
                  QRegularExpressionMatch.capturedLength ⟨s, m⟩)) with
          | none => rw [hrest] at h; exact absurd h (by simp)
          | some r =>
            rw [hrest] at h
            simp only [Option.map_some', Option.some.injEq, Prod.mk.injEq] at h
            rw [← h.1]; rfl

/-- C2 at a concrete input: the lines `abc`, `def`, `ghi`, the match `c\ndef\ng` at
offset 2. -/
theorem multiLine_span_witness :
    (multiLineMatchFound docAbc (synthesize docAbc ⟨"c\\ndef\\ng".toList⟩).2
        (findStartLine (synthesize docAbc ⟨"c\\ndef\\ng".toList⟩).2 2) 2
        "c\ndef\ng".toList).endLine =
      findStartLine (synthesize docAbc ⟨"c\\ndef\\ng".toList⟩).2 2 +
        (List.count '\n' "c\ndef\ng".toList : Nat) :=
  (multiLine_span docAbc ⟨"c\\ndef\\ng".toList⟩ 2 "c\ndef\ng".toList
    (by decide) (by decide) (by decide)).2.1.2.2.1

/-! ## Pausing and resuming -/

/-- C1 fails on the code. With the multi-line pattern `a\nb`:
on the lines `x`, `a`, `b`, `a`, `b` one uninterrupted step emits the two matches, at lines
1-2 and 3-4, while a step whose budget check fires after the first match returns the line of
that match as resume point, and the resumed step emits the first match a second time;
on the lines `a`, `b`, `a`, `b` the first match begins on line 0, so the paused step returns
0, which `doSearchNextFile` reads as "document finished": the second match is never
emitted, however many further steps run. -/
theorem paused_multiLine_duplicates_and_drops :
    sessionSpans refEngine 3 [StepClock.unbounded, StepClock.unbounded, StepClock.unbounded]
        [docXabab] ⟨"a\\nb".toList⟩ = some [(1, 0, 2, 1), (3, 0, 4, 1)] ∧
    sessionSpans refEngine 3 [StepClock.firesAt 0, StepClock.unbounded, StepClock.unbounded]
        [docXabab] ⟨"a\\nb".toList⟩ = some [(1, 0, 2, 1), (1, 0, 2, 1), (3, 0, 4, 1)] ∧
    sessionSpans refEngine 3 [StepClock.unbounded, StepClock.unbounded, StepClock.unbounded]
        [docAbab] ⟨"a\\nb".toList⟩ = some [(0, 0, 1, 1), (2, 0, 3, 1)] ∧
    sessionSpans refEngine 3 [StepClock.firesAt 0, StepClock.unbounded, StepClock.unbounded]
        [docAbab] ⟨"a\\nb".toList⟩ = some [(0, 0, 1, 1)] ∧
    (searchMultiLineRegExp refEngine (StepClock.firesAt 0) 3 idleObject docXabab
        ⟨"a\\nb".toList⟩ 0).map (fun r => r.2.2) = some 1 ∧
    (searchMultiLineRegExp refEngine (StepClock.firesAt 0) 3 idleObject docAbab
        ⟨"a\\nb".toList⟩ 0).map (fun r => r.2.2) = some 0 := by
  refine ⟨?_, ?_, ?_, ?_, ?_, ?_⟩ <;> decide

/-! ## Completion -/

/-- C7 fails on the code for the empty document list: after `startSearch` with no document
the first step finds `m_nextFileIndex` past the end of the list and takes the early return,
which ends the session without `searchDone`; no signal at all is emitted, whatever the
number of timer turns, and the session is terminal (not searching, no step scheduled). A
list of one document, by contrast, gets its `searchDone` from the branch that follows
the last document. -/
theorem empty_list_never_signals_done (engine : RegexEngine) (fuel : Nat) (clock : StepClock)
    (clocks : List StepClock) (regexp : QRegularExpression) (self : SearchOpenFiles) :
    (∃ s1 log,
      runTicks engine fuel (clock :: clocks)
          (startSearch [] regexp { self with m_nextFileIndex := -1 }) = some (s1, log) ∧
        signalsOf log = [] ∧ s1.searching = false ∧ s1.m_nextFileIndex = -1) ∧
    (runTicks refEngine 1 [StepClock.unbounded, StepClock.unbounded]
        (startSearch [docAbc] ⟨"z".toList⟩ idleObject)).map (fun r => signalsOf r.2) =
      some [Signal.searchDone] := by
  constructor
  · have h0 : (startSearch [] regexp { self with m_nextFileIndex := -1 }).m_nextRunTimer = true := by
      simp [startSearch]
    have h1 : timerTick engine clock fuel
        (startSearch [] regexp { self with m_nextFileIndex := -1 }) =
        some ({ (startSearch [] regexp { self with m_nextFileIndex := -1 }) with
          m_nextRunTimer := false, m_nextFileIndex := -1, m_cancelSearch := true,
          m_nextLine := -1 }, []) := by
      simp [timerTick, doSearchNextFile, startSearch]
    obtain ⟨s2, log, h2, h3, h4, h5⟩ := runTicks_cancelled engine fuel clocks
      { (startSearch [] regexp { self with m_nextFileIndex := -1 }) with
          m_nextRunTimer := false, m_nextFileIndex := -1, m_cancelSearch := true,
          m_nextLine := -1 } rfl
    refine ⟨s2, _ :: log, by simp only [runTicks, h1, h2]; rfl, ?_, by simp [searching, h3], ?_⟩
    · exact signalsOf_eq_nil _ (by
        intro e he
        rcases List.mem_cons.1 he with rfl | he
        · rfl
        · exact h4 e he)
    · exact (h5 rfl).1
  · decide

/-! ## Scan order over the document list -/

theorem matchesOf_append (a b : List Signal) :
    matchesOf (a ++ b) = matchesOf a ++ matchesOf b := by
  induction a with
  | nil => rfl
  | cons x xs ih =>
    cases x <;> simp [matchesOf, ih]

theorem matchesOf_map_matchFound (evs : List MatchFound) :
    matchesOf (evs.map Signal.matchFound) = evs := by
  induction evs with
  | nil => rfl
  | cons x xs ih => simp [matchesOf, ih]

theorem emittedFor_source (doc : Document) :
    ∀ (per : List (List QRegularExpressionMatch)) (line : Int),
      ∀ ev ∈ emittedFor doc line per, ev.url = doc.url ∧ ev.docName = doc.documentName := by
  intro per
  induction per with
  | nil => intro line ev hev; simp [emittedFor] at hev
  | cons ms rest ih =>
    intro line ev hev
    simp only [emittedFor, List.mem_append, List.mem_map] at hev
    rcases hev with ⟨m, _, rfl⟩ | hev
    · exact ⟨rfl, rfl⟩
    · exact ih (line + 1) ev hev

theorem multiLineWhile_source (engine : RegexEngine) (clock : StepClock) (doc : Document)
    (regExp : QRegularExpression) (fullDoc : QString) (lineStart : List Int) :
    ∀ (fuel k : Nat) (m : QRegularExpressionMatch) (evs : List MatchFound) (ret : Int),
      multiLineWhile engine clock doc regExp fullDoc lineStart fuel k m = some (evs, ret) →
      ∀ ev ∈ evs, ev.url = doc.url ∧ ev.docName = doc.documentName := by
  intro fuel
  induction fuel with
  | zero =>
    intro k m evs ret h ev hev
    unfold multiLineWhile at h
    split at h
    · split at h
      · simp only [Option.some.injEq, Prod.mk.injEq] at h
        rw [← h.1] at hev; simp at hev
      · exact absurd h (by simp)
    · simp only [Option.some.injEq, Prod.mk.injEq] at h
      rw [← h.1] at hev; simp at hev
  | succ fuel ih =>
    intro k m evs ret h ev hev
    unfold multiLineWhile at h
    split at h
    · split at h
      · simp only [Option.some.injEq, Prod.mk.injEq] at h
        rw [← h.1] at hev; simp at hev
      · simp only at h
        split at h
        · simp only [Option.some.injEq, Prod.mk.injEq] at h
          rw [← h.1] at hev
          simp only [List.mem_singleton] at hev
          subst hev
          exact ⟨rfl, rfl⟩
        · cases hrest : multiLineWhile engine clock doc regExp fullDoc lineStart fuel (k + 1)
              (engine regExp fullDoc (m.capturedStart + m.capturedLength)) with
          | none => rw [hrest] at h; exact absurd h (by simp)
          | some r =>
            rw [hrest] at h
            simp only [Option.map_some', Option.some.injEq, Prod.mk.injEq] at h
            rw [← h.1] at hev
            rcases List.mem_cons.1 hev with rfl | hev
            · exact ⟨rfl, rfl⟩
            · exact ih (k + 1) _ r.1 r.2 hrest ev hev
    · simp only [Option.some.injEq, Prod.mk.injEq] at h
      rw [← h.1] at hev; simp at hev

theorem searchMultiLineRegExp_frame (engine : RegexEngine) (clock : StepClock) (fuel : Nat)
    (self : SearchOpenFiles) (doc : Document) (regExp : QRegularExpression) (inStartLine : Int)
    (s1 : SearchOpenFiles) (evs : List MatchFound) (ret : Int)
    (h : searchMultiLineRegExp engine clock fuel self doc regExp inStartLine =
      some (s1, evs, ret)) :
    s1.m_docList = self.m_docList ∧ s1.m_nextFileIndex = self.m_nextFileIndex ∧
      s1.m_cancelSearch = self.m_cancelSearch ∧ s1.m_regExp = self.m_regExp ∧
      s1.m_nextRunTimer = self.m_nextRunTimer ∧ s1.m_nextLine = self.m_nextLine ∧
      s1.m_terminateSearch = self.m_terminateSearch ∧
      ∀ ev ∈ evs, ev.url = doc.url ∧ ev.docName = doc.documentName := by
  unfold searchMultiLineRegExp at h
  split at h
  · simp only at h
    cases hw : multiLineWhile engine clock doc (tmpRegExp regExp) (synthesize doc regExp).1
        (synthesize doc regExp).2 fuel 0
        (engine (tmpRegExp regExp) (synthesize doc regExp).1 0) with
    | none => rw [hw] at h; exact absurd h (by simp)
    | some r =>
      rw [hw] at h
      simp only [Option.map_some', Option.some.injEq, Prod.mk.injEq] at h
      obtain ⟨h1, h2, h3⟩ := h
      subst h1 h2 h3
      exact ⟨rfl, rfl, rfl, rfl, rfl, rfl, rfl, multiLineWhile_source _ _ _ _ _ _ _ _ _ _ _ hw⟩
  · split at h
    · cases hw : multiLineWhile engine clock doc (tmpRegExp regExp) self.m_fullDoc
          self.m_lineStart fuel 0
          (engine (tmpRegExp regExp) self.m_fullDoc (lineStartAt self.m_lineStart inStartLine)) with
      | none => rw [hw] at h; exact absurd h (by simp)
      | some r =>
        rw [hw] at h
        simp only [Option.map_some', Option.some.injEq, Prod.mk.injEq] at h
        obtain ⟨h1, h2, h3⟩ := h
        subst h1 h2 h3
        exact ⟨rfl, rfl, rfl, rfl, rfl, rfl, rfl, multiLineWhile_source _ _ _ _ _ _ _ _ _ _ _ hw⟩
    · simp only [Option.some.injEq, Prod.mk.injEq] at h
      obtain ⟨h1, h2, h3⟩ := h
      subst h1 h2 h3
      exact ⟨rfl, rfl, rfl, rfl, rfl, rfl, rfl, by simp⟩

theorem searchOpenFile_frame (engine : RegexEngine) (clock : StepClock) (fuel : Nat)
    (self : SearchOpenFiles) (doc : Document) (regExp : QRegularExpression) (startLine : Int)
    (s1 : SearchOpenFiles) (signals : List Signal) (ret : Int)
    (h : searchOpenFile engine clock fuel self doc regExp startLine = some (s1, signals, ret)) :
    s1.m_docList = self.m_docList ∧ s1.m_nextFileIndex = self.m_nextFileIndex ∧
      s1.m_cancelSearch = self.m_cancelSearch ∧ s1.m_regExp = self.m_regExp ∧
      s1.m_nextRunTimer = self.m_nextRunTimer ∧ s1.m_nextLine = self.m_nextLine ∧
      s1.m_terminateSearch = self.m_terminateSearch ∧
      ∀ ev ∈ matchesOf signals, ev.url = doc.url ∧ ev.docName = doc.documentName := by
  have hprog : matchesOf (if clock.statusElapsed = true then [Signal.searching doc.url] else []) =
      [] := by
    split <;> rfl
  unfold searchOpenFile at h
  simp only at h
  split at h
  · cases hm : searchMultiLineRegExp engine clock fuel self doc regExp startLine with
    | none => rw [hm] at h; exact absurd h (by simp)
    | some r =>
      obtain ⟨r1, r2, r3⟩ := r
      rw [hm] at h
      simp only [Option.map_some', Option.some.injEq, Prod.mk.injEq] at h
      obtain ⟨h1, h2, h3⟩ := h
      subst h1 h2 h3
      obtain ⟨a, b, c, d, e, f, g, hsrc⟩ := searchMultiLineRegExp_frame _ _ _ _ _ _ _ _ _ _ hm
      refine ⟨a, b, c, d, e, f, g, ?_⟩
      rw [matchesOf_append, hprog, matchesOf_map_matchFound]
      simpa using hsrc
  · cases hm : searchSingleLineRegExp engine clock fuel doc regExp startLine with
    | none => rw [hm] at h; exact absurd h (by simp)
    | some r =>
      obtain ⟨r1, r2⟩ := r
      rw [hm] at h
      simp only [Option.map_some', Option.some.injEq, Prod.mk.injEq] at h
      obtain ⟨h1, h2, h3⟩ := h
      subst h1 h2 h3
      refine ⟨rfl, rfl, rfl, rfl, rfl, rfl, rfl, ?_⟩
      rw [matchesOf_append, hprog, matchesOf_map_matchFound]
      obtain ⟨per, hper, _, _⟩ :=
        singleLineFor_chain engine clock fuel doc regExp _ 0 startLine _ _ hm
      intro ev hev
      simp only [List.nil_append] at hev
      rw [hper] at hev
      exact emittedFor_source doc per startLine ev hev

theorem doSearchNextFile_running (engine : RegexEngine) (clock : StepClock) (fuel : Nat)
    (self : SearchOpenFiles) (startLine : Int) (s1 : SearchOpenFiles) (signals : List Signal)
    (hc : self.m_cancelSearch = false) (hlt : self.m_nextFileIndex < self.m_docList.length)
    (h : doSearchNextFile engine clock fuel self startLine = some (s1, signals)) :
    ∃ s0 sigs line,
      searchOpenFile engine clock fuel self (docAt self.m_docList self.m_nextFileIndex)
        self.m_regExp startLine = some (s0, sigs, line) ∧
      s1.m_docList = self.m_docList ∧
      (line ≠ 0 → s1.m_cancelSearch = false ∧ s1.m_nextFileIndex = self.m_nextFileIndex ∧
        s1.m_nextLine = line ∧ signals = sigs) ∧
      (line = 0 → self.m_nextFileIndex + 1 ≠ self.m_docList.length →
        s1.m_cancelSearch = false ∧ s1.m_nextFileIndex = self.m_nextFileIndex + 1 ∧
          s1.m_nextLine = 0 ∧ signals = sigs) ∧
      (line = 0 → self.m_nextFileIndex + 1 = self.m_docList.length →
        s1.m_cancelSearch = true ∧ s1.m_nextFileIndex = -1 ∧
          signals = sigs ++ [Signal.searchDone]) ∧
      ∀ ev ∈ matchesOf signals,
        ev.url = (docAt self.m_docList self.m_nextFileIndex).url ∧
        ev.docName = (docAt self.m_docList self.m_nextFileIndex).documentName := by
  unfold doSearchNextFile at h
  have hg : ¬ (self.m_cancelSearch = true ∨ (self.m_docList.length : Int) ≤ self.m_nextFileIndex) := by
    rw [hc]; simp; omega
  rw [if_neg hg] at h
  split at h
  · exact absurd h (by simp)
  · rename_i s0 sigs line hso
    obtain ⟨a, b, c, _, _, _, _, hsrc⟩ := searchOpenFile_frame _ _ _ _ _ _ _ _ _ _ hso
    refine ⟨s0, sigs, line, hso, ?_⟩
    split at h
    · rename_i hline
      split at h
      · rename_i hlast
        simp only [Option.some.injEq, Prod.mk.injEq] at h
        obtain ⟨h1, h2⟩ := h
        subst h1 h2
        rw [a, b] at hlast
        refine ⟨a, fun hn => absurd hline hn, fun _ hn => absurd hlast hn,
          fun _ _ => ⟨rfl, rfl, rfl⟩, ?_⟩
        rw [matchesOf_append]
        simpa [matchesOf] using hsrc
      · rename_i hlast
        simp only [Option.some.injEq, Prod.mk.injEq] at h
        obtain ⟨h1, h2⟩ := h
        subst h1 h2
        rw [a, b] at hlast
        exact ⟨a, fun hn => absurd hline hn, fun _ _ => ⟨by simpa using c.trans hc, by simp [b], rfl, rfl⟩,
          fun _ hn => absurd hn hlast, hsrc⟩
    · rename_i hline
      simp only [Option.some.injEq, Prod.mk.injEq] at h
      obtain ⟨h1, h2⟩ := h
      subst h1 h2
      exact ⟨a, fun _ => ⟨by simpa using c.trans hc, by simp [b], rfl, rfl⟩,
        fun hn => absurd hn hline, fun hn => absurd hn hline, hsrc⟩

theorem timerTick_session (engine : RegexEngine) (clock : StepClock) (fuel : Nat)
    (self s1 : SearchOpenFiles) (signals : List Signal) (hinv : SessionInv self)
    (h : timerTick engine clock fuel self = some (s1, signals)) :
    SessionInv s1 ∧ s1.m_docList = self.m_docList ∧
      (s1.m_nextFileIndex = self.m_nextFileIndex ∨
        s1.m_nextFileIndex = self.m_nextFileIndex + 1 ∨ s1.m_nextFileIndex = -1) ∧
      (s1.m_cancelSearch = false → self.m_cancelSearch = false) ∧
      (self.m_cancelSearch = true → signals = []) ∧
      ∀ ev ∈ matchesOf signals,
        0 ≤ self.m_nextFileIndex ∧ self.m_nextFileIndex < self.m_docList.length ∧
        ev.url = (docAt self.m_docList self.m_nextFileIndex).url ∧
        ev.docName = (docAt self.m_docList self.m_nextFileIndex).documentName := by
  have hbool : ∀ b : Bool, b = false → b = true → (signals = []) := by
    intro b h1 h2; rw [h1] at h2; cases h2
  rcases hinv with ⟨hc, hi⟩ | ⟨hc, hi⟩
  · obtain ⟨s2, h1, h2, h3, h4⟩ := timerTick_cancelled engine clock fuel self hc
    rw [h1] at h
    simp only [Option.some.injEq, Prod.mk.injEq] at h
    obtain ⟨e1, e2⟩ := h
    subst e1 e2
    exact ⟨Or.inl ⟨h2, h4 hi⟩, h3, Or.inl ((h4 hi).trans hi.symm),
      (fun e => absurd (h2.symm.trans e) (by simp)), (fun _ => rfl), (by simp [matchesOf])⟩
  · unfold timerTick at h
    by_cases ht : self.m_nextRunTimer = true
    · rw [if_pos ht] at h
      by_cases hlt : self.m_nextFileIndex < self.m_docList.length
      · obtain ⟨s0, sigs, line, _, hd, hpause, hnext, hdone, hsrc⟩ :=
          doSearchNextFile_running engine clock fuel { self with m_nextRunTimer := false }
            self.m_nextLine s1 signals hc hlt h
        simp only at hd hpause hnext hdone hsrc
        refine ⟨?_, hd, ?_, fun _ => hc, hbool _ hc, fun ev hev => ⟨hi, hlt, hsrc ev hev⟩⟩
        · by_cases hline : line = 0
          · by_cases hlast : self.m_nextFileIndex + 1 = self.m_docList.length
            · exact Or.inl ⟨(hdone hline hlast).1, (hdone hline hlast).2.1⟩
            · exact Or.inr ⟨(hnext hline hlast).1, by rw [(hnext hline hlast).2.1]; omega⟩
          · exact Or.inr ⟨(hpause hline).1, by rw [(hpause hline).2.1]; exact hi⟩
        · by_cases hline : line = 0
          · by_cases hlast : self.m_nextFileIndex + 1 = self.m_docList.length
            · exact Or.inr (Or.inr (hdone hline hlast).2.1)
            · exact Or.inr (Or.inl (hnext hline hlast).2.1)
          · exact Or.inl (hpause hline).2.1
      · have hg : ({ self with m_nextRunTimer := false } : SearchOpenFiles).m_cancelSearch = true ∨
            ((({ self with m_nextRunTimer := false } : SearchOpenFiles).m_docList.length : Nat) : Int) ≤
              ({ self with m_nextRunTimer := false } : SearchOpenFiles).m_nextFileIndex :=
          Or.inr (by simp only; omega)
        unfold doSearchNextFile at h
        rw [if_pos hg] at h
        simp only [Option.some.injEq, Prod.mk.injEq] at h
        obtain ⟨e1, e2⟩ := h
        subst e1 e2
        exact ⟨Or.inl ⟨rfl, rfl⟩, rfl, Or.inr (Or.inr rfl), (fun _ => hc), (fun _ => rfl),
          (by simp [matchesOf])⟩
    · rw [if_neg ht] at h
      simp only [Option.some.injEq, Prod.mk.injEq] at h
      obtain ⟨e1, e2⟩ := h
      subst e1 e2
      exact ⟨Or.inr ⟨hc, hi⟩, rfl, Or.inl rfl, (fun _ => hc), (fun _ => rfl),
        (by simp [matchesOf])⟩

theorem runTicks_session (engine : RegexEngine) (fuel : Nat) (clocks : List StepClock) :
    ∀ (self s1 : SearchOpenFiles) (log : List (Int × List Signal)), SessionInv self →
      runTicks engine fuel clocks self = some (s1, log) →
      (∀ e, log.head? = some e → e.1 = self.m_nextFileIndex) ∧
      log.Chain' (fun a b => b.1 = a.1 ∨ b.1 = a.1 + 1 ∨ b.1 = -1) ∧
      (∀ e ∈ log, (e.1 = -1 ∧ e.2 = []) ∨
        (self.m_cancelSearch = false ∧ self.m_nextFileIndex ≤ e.1)) ∧
      log.Pairwise (fun a b => a.1 ≤ b.1 ∨ (b.1 = -1 ∧ b.2 = [])) ∧
      ∀ e ∈ log, ∀ ev ∈ matchesOf e.2,
        0 ≤ e.1 ∧ e.1 < self.m_docList.length ∧
        ev.url = (docAt self.m_docList e.1).url ∧
        ev.docName = (docAt self.m_docList e.1).documentName := by
  induction clocks with
  | nil =>
    intro self s1 log _ h
    simp only [runTicks, Option.some.injEq, Prod.mk.injEq] at h
    rw [← h.2]
    simp
  | cons clock rest ih =>
    intro self s1 log hinv h
    unfold runTicks at h
    split at h
    · exact absurd h (by simp)
    · rename_i s2 signals htick
      cases hrest : runTicks engine fuel rest s2 with
      | none => rw [hrest] at h; exact absurd h (by simp)
      | some r =>
        obtain ⟨s3, log1⟩ := r
        rw [hrest] at h
        simp only [Option.map_some', Option.some.injEq, Prod.mk.injEq] at h
        obtain ⟨_, hlog⟩ := h
        subst hlog
        obtain ⟨hinv2, hdocs, hidx, hrun, hnil, hsrc⟩ :=
          timerTick_session engine clock fuel self s2 signals hinv htick
        obtain ⟨hhead, hchain, hall, hpw, hmatch⟩ := ih s2 s3 log1 hinv2 hrest
        have hall2 : ∀ e ∈ log1, (e.1 = -1 ∧ e.2 = []) ∨
            (self.m_cancelSearch = false ∧ self.m_nextFileIndex ≤ e.1) := by
          intro e he
          rcases hall e he with hx | ⟨hx1, hx2⟩
          · exact Or.inl hx
          · right
            refine ⟨hrun hx1, ?_⟩
            rcases hinv2 with ⟨hy, _⟩ | ⟨_, hy⟩
            · rw [hx1] at hy; cases hy
            · rcases hidx with e1 | e1 | e1 <;> omega
        refine ⟨?_, ?_, ?_, ?_, ?_⟩
        · intro e he
          simp only [List.head?_cons, Option.some.injEq] at he
          rw [← he]
        · rw [List.chain'_cons']
          refine ⟨?_, hchain⟩
          intro e he
          rw [hhead e he]
          exact hidx
        · intro e he
          rcases List.mem_cons.1 he with rfl | he
          · rcases hinv with ⟨hc, hi⟩ | ⟨hc, _⟩
            · exact Or.inl ⟨hi, hnil hc⟩
            · exact Or.inr ⟨hc, le_refl _⟩
          · exact hall2 e he
        · rw [List.pairwise_cons]
          refine ⟨?_, hpw⟩
          intro e he
          rcases hall2 e he with hx | ⟨_, hx2⟩
          · exact Or.inr hx
          · exact Or.inl hx2
        · intro e he ev hev
          rcases List.mem_cons.1 he with rfl | he
          · exact hsrc ev hev
          · have := hmatch e he ev hev
            rw [hdocs] at this
            exact this

/-- C6: in a session begun by an accepted `startSearch` and driven by the timer, with any
clocks (any pattern of pauses and resumes), the document index seen by successive steps
either stays, or advances by exactly one, or becomes `-1` (the session is over); a later
step never works on an earlier document unless the session is over, in which case it emits
nothing; and every match emitted by a step carries the url and name of the document at the
index the step began with, a valid index of the list. Within one step on a running session
the index stays when the matcher returns a non-zero resume point, advances by exactly one
when the matcher returns 0 (document exhausted) and another document follows, and the
session ends when the exhausted document was the last. -/
theorem scan_order (engine : RegexEngine) (fuel : Nat) (clocks : List StepClock)
    (list : List Document) (regexp : QRegularExpression) (self s1 : SearchOpenFiles)
    (log : List (Int × List Signal))
    (hrun : runTicks engine fuel clocks
      (startSearch list regexp { self with m_nextFileIndex := -1 }) = some (s1, log)) :
    log.Chain' (fun a b => b.1 = a.1 ∨ b.1 = a.1 + 1 ∨ b.1 = -1) ∧
    log.Pairwise (fun a b => a.1 ≤ b.1 ∨ (b.1 = -1 ∧ b.2 = [])) ∧
    (∀ e ∈ log, ∀ ev ∈ matchesOf e.2,
      0 ≤ e.1 ∧ e.1 < list.length ∧
      ev.url = (docAt list e.1).url ∧ ev.docName = (docAt list e.1).documentName) ∧
    (∀ (clock : StepClock) (s s2 : SearchOpenFiles) (startLine : Int) (signals : List Signal),
      s.m_cancelSearch = false → s.m_nextFileIndex < s.m_docList.length →
      doSearchNextFile engine clock fuel s startLine = some (s2, signals) →
      ∃ s0 sigs line,
        searchOpenFile engine clock fuel s (docAt s.m_docList s.m_nextFileIndex) s.m_regExp
          startLine = some (s0, sigs, line) ∧
        (line ≠ 0 → s2.m_nextFileIndex = s.m_nextFileIndex ∧ s2.searching = true) ∧
        (line = 0 → s.m_nextFileIndex + 1 ≠ s.m_docList.length →
          s2.m_nextFileIndex = s.m_nextFileIndex + 1 ∧ s2.searching = true) ∧
        (line = 0 → s.m_nextFileIndex + 1 = s.m_docList.length →
          s2.m_nextFileIndex = -1 ∧ s2.searching = false)) := by
  have hinv : SessionInv (startSearch list regexp { self with m_nextFileIndex := -1 }) :=
    Or.inr ⟨by simp [startSearch], by simp [startSearch]⟩
  have hdocs : (startSearch list regexp { self with m_nextFileIndex := -1 }).m_docList = list := by
    simp [startSearch]
  obtain ⟨_, hchain, _, hpw, hmatch⟩ := runTicks_session engine fuel clocks _ s1 log hinv hrun
  rw [hdocs] at hmatch
  refine ⟨hchain, hpw, hmatch, ?_⟩
  intro clock s s2 startLine signals hc hlt hstep
  obtain ⟨s0, sigs, line, hso, _, hpause, hnext, hdone, _⟩ :=
    doSearchNextFile_running engine clock fuel s startLine s2 signals hc hlt hstep
  refine ⟨s0, sigs, line, hso, ?_, ?_, ?_⟩
  · intro h
    exact ⟨(hpause h).2.1, by simp [searching, (hpause h).1]⟩
  · intro h h2
    exact ⟨(hnext h h2).2.1, by simp [searching, (hnext h h2).1]⟩
  · intro h h2
    exact ⟨(hdone h h2).2.1, by simp [searching, (hdone h h2).1]⟩

/-- C6 at a concrete input: the documents `A` and `B` with one match each and two pauses;
the match of `A` is emitted in the second turn, the match of `B` in the third. -/
theorem scan_order_witness :
    (runTicks refEngine 1 twoDocsClocks
        (startSearch twoDocs ⟨"a".toList⟩ { idleObject with m_nextFileIndex := -1 })).map
      (fun r => r.2) = some twoDocsLog ∧
    twoDocsLog.Pairwise (fun a b => a.1 ≤ b.1 ∨ (b.1 = -1 ∧ b.2 = [])) :=
  have h : runTicks refEngine 1 twoDocsClocks
      (startSearch twoDocs ⟨"a".toList⟩ { idleObject with m_nextFileIndex := -1 }) =
      some (⟨twoDocs, -1, false, ⟨"a".toList⟩, true, false, [], [], -1⟩, twoDocsLog) := by
    decide
  ⟨by rw [h]; rfl,
    (scan_order refEngine 1 twoDocsClocks twoDocs ⟨"a".toList⟩ idleObject _ twoDocsLog h).2.1⟩

/-! ## `terminateSearch` -/

/-- C11: from every state, after `terminateSearch` the session is not searching,
`m_nextFileIndex` is `-1` and `m_nextLine` is the sentinel `-1`, no step is scheduled, and
the stored document list and pattern are unchanged; `terminateSearch` is idempotent; and a
`startSearch` called right after it is accepted: it stores the new list and pattern and
begins a session with cursor `(0, 0)`. -/
theorem terminateSearch_resets (self : SearchOpenFiles) (list : List Document)
    (regexp : QRegularExpression) :
    (terminateSearch self).searching = false ∧
    (terminateSearch self).m_nextFileIndex = -1 ∧
    (terminateSearch self).m_nextLine = -1 ∧
    (terminateSearch self).m_nextRunTimer = false ∧
    (terminateSearch self).m_docList = self.m_docList ∧
    (terminateSearch self).m_regExp = self.m_regExp ∧
    terminateSearch (terminateSearch self) = terminateSearch self ∧
    (startSearch list regexp (terminateSearch self)).m_docList = list ∧
    (startSearch list regexp (terminateSearch self)).m_regExp = regexp ∧
    (startSearch list regexp (terminateSearch self)).m_nextFileIndex = 0 ∧
    (startSearch list regexp (terminateSearch self)).m_nextLine = 0 ∧
    (startSearch list regexp (terminateSearch self)).searching = true ∧
    (startSearch list regexp (terminateSearch self)).m_nextRunTimer = true := by
  refine ⟨rfl, rfl, rfl, rfl, rfl, rfl, rfl, ?_, ?_, ?_, ?_, ?_, ?_⟩ <;>
    simp [startSearch, terminateSearch, searching]

/-! ## Shape of the emitted matches -/

theorem multiLineWhile_shape (engine : RegexEngine) (clock : StepClock) (doc : Document)
    (regExp : QRegularExpression) (fullDoc : QString) (lineStart : List Int) :
    ∀ (fuel k : Nat) (m : QRegularExpressionMatch) (evs : List MatchFound) (ret : Int),
      multiLineWhile engine clock doc regExp fullDoc lineStart fuel k m = some (evs, ret) →
      ∀ ev ∈ evs, ∃ (sl col : Int) (cap : QString), cap ≠ [] ∧
        ev = multiLineMatchFound doc lineStart sl col cap := by
  intro fuel
  induction fuel with
  | zero =>
    intro k m evs ret h ev hev
    unfold multiLineWhile at h
    split at h
    · split at h
      · simp only [Option.some.injEq, Prod.mk.injEq] at h
        rw [← h.1] at hev; simp at hev
      · exact absurd h (by simp)
    · simp only [Option.some.injEq, Prod.mk.injEq] at h
      rw [← h.1] at hev; simp at hev
  | succ fuel ih =>
    intro k m evs ret h ev hev
    by_cases hc : m.capturedStart ≠ -1 ∧ ¬ m.captured.isEmpty = true
    · by_cases hl : findStartLine lineStart m.capturedStart = -1
      · rw [multiLineWhile, if_pos hc, if_pos hl] at h
        simp only [Option.some.injEq, Prod.mk.injEq] at h
        rw [← h.1] at hev; simp at hev
      · have hne : m.captured ≠ [] := by simpa using hc.2
        rw [multiLineWhile_succ engine clock doc regExp fullDoc lineStart fuel k m hc.1 hne hl] at h
        split at h
        · simp only [Option.some.injEq, Prod.mk.injEq] at h
          rw [← h.1] at hev
          simp only [List.mem_singleton] at hev
          exact ⟨_, _, _, hne, hev⟩
        · cases hrest : multiLineWhile engine clock doc regExp fullDoc lineStart fuel (k + 1)
              (engine regExp fullDoc (m.capturedStart + m.capturedLength)) with
          | none => rw [hrest] at h; exact absurd h (by simp)
          | some r =>
            rw [hrest] at h
            simp only [Option.map_some', Option.some.injEq, Prod.mk.injEq] at h
            rw [← h.1] at hev
            rcases List.mem_cons.1 hev with e | hev
            · exact ⟨_, _, _, hne, e⟩
            · exact ih (k + 1) _ r.1 r.2 hrest ev hev
    · rw [multiLineWhile, if_neg hc] at h
      simp only [Option.some.injEq, Prod.mk.injEq] at h
      rw [← h.1] at hev; simp at hev

theorem multiLineMatchFound_wf (doc : Document) (lineStart : List Int) (sl col : Int)
    (cap : QString) (hne : cap ≠ []) :
    (multiLineMatchFound doc lineStart sl col cap).startLine ≤
        (multiLineMatchFound doc lineStart sl col cap).endLine ∧
      ((multiLineMatchFound doc lineStart sl col cap).endLine =
          (multiLineMatchFound doc lineStart sl col cap).startLine →
        (multiLineMatchFound doc lineStart sl col cap).startColumn <
          (multiLineMatchFound doc lineStart sl col cap).endColumn) ∧
      0 < (multiLineMatchFound doc lineStart sl col cap).matchLen := by
  have hpos : 0 < cap.length := List.length_pos.2 hne
  refine ⟨?_, ?_, ?_⟩
  · simp only [multiLineMatchFound, QString.count]
    omega
  · intro h
    simp only [multiLineMatchFound, QString.count] at h
    have hc : List.count '\n' cap = 0 := by omega
    have hmem : '\n' ∉ cap := List.count_eq_zero.1 hc
    have hk : QString.lastIndexOf cap '\n' = -1 := (lastIndexOfGo_spec '\n' cap 0 (-1)).1 hmem
    simp only [multiLineMatchFound, hk, if_true]
    omega
  · simp only [multiLineMatchFound]
    omega

/-- C14: every match emitted by `searchSingleLineRegExp` or by `searchMultiLineRegExp`, for
every document, every engine (whatever it reports), every clock and every start point,
satisfies `end_line >= start_line`, has `end_column > start_column` when
`end_line = start_line`, and has a positive match length. -/
theorem emitted_match_wellformed (engine : RegexEngine) (clock : StepClock) (fuel : Nat)
    (self : SearchOpenFiles) (doc : Document) (regExp : QRegularExpression) (startLine : Int) :
    (∀ evs ret, searchSingleLineRegExp engine clock fuel doc regExp startLine = some (evs, ret) →
      ∀ ev ∈ evs, ev.startLine ≤ ev.endLine ∧
        (ev.endLine = ev.startLine → ev.startColumn < ev.endColumn) ∧ 0 < ev.matchLen) ∧
    (∀ s1 evs ret,
      searchMultiLineRegExp engine clock fuel self doc regExp startLine = some (s1, evs, ret) →
      ∀ ev ∈ evs, ev.startLine ≤ ev.endLine ∧
        (ev.endLine = ev.startLine → ev.startColumn < ev.endColumn) ∧ 0 < ev.matchLen) := by
  constructor
  · intro evs ret h ev hev
    obtain ⟨per, hper, hall, _⟩ :=
      singleLineFor_chain engine clock fuel doc regExp _ 0 startLine evs ret h
    have hshape := emittedFor_shape doc per startLine (by
      intro ms hms
      obtain ⟨i, hi, hget⟩ := List.getElem_of_mem hms
      exact (hall i ms (by rw [List.getElem?_eq_getElem hi, hget])).captured_ne_nil) ev
      (by rw [← hper]; exact hev)
    obtain ⟨h1, h2, h3⟩ := hshape
    exact ⟨by omega, fun _ => by omega, h2⟩
  · intro s1 evs ret h ev hev
    have key : ∀ (fullDoc : QString) (lineStart : List Int) (m : QRegularExpressionMatch)
        (r : List MatchFound × Int),
        multiLineWhile engine clock doc (tmpRegExp regExp) fullDoc lineStart fuel 0 m = some r →
        ∀ ev ∈ r.1, ev.startLine ≤ ev.endLine ∧
          (ev.endLine = ev.startLine → ev.startColumn < ev.endColumn) ∧ 0 < ev.matchLen := by
      intro fullDoc lineStart m r hw ev hev
      obtain ⟨sl, col, cap, hne, rfl⟩ :=
        multiLineWhile_shape engine clock doc _ fullDoc lineStart fuel 0 m r.1 r.2 hw ev hev
      exact multiLineMatchFound_wf doc lineStart sl col cap hne
    unfold searchMultiLineRegExp at h
    split at h
    · simp only at h
      cases hw : multiLineWhile engine clock doc (tmpRegExp regExp) (synthesize doc regExp).1
          (synthesize doc regExp).2 fuel 0
          (engine (tmpRegExp regExp) (synthesize doc regExp).1 0) with
      | none => rw [hw] at h; exact absurd h (by simp)
      | some r =>
        rw [hw] at h
        simp only [Option.map_some', Option.some.injEq, Prod.mk.injEq] at h
        exact key _ _ _ r hw ev (by rw [h.2.1]; exact hev)
    · split at h
      · cases hw : multiLineWhile engine clock doc (tmpRegExp regExp) self.m_fullDoc
            self.m_lineStart fuel 0
            (engine (tmpRegExp regExp) self.m_fullDoc
              (lineStartAt self.m_lineStart startLine)) with
        | none => rw [hw] at h; exact absurd h (by simp)
        | some r =>
          rw [hw] at h
          simp only [Option.map_some', Option.some.injEq, Prod.mk.injEq] at h
          exact key _ _ _ r hw ev (by rw [h.2.1]; exact hev)
      · simp only [Option.some.injEq, Prod.mk.injEq] at h
        rw [← h.2.1] at hev; simp at hev

/-! ## Contents of the synthesized buffer -/

theorem remove_last_eq_dropLast (b : QString) :
    QString.remove b ((b.length : Int) - 1) 1 = b.dropLast := by
  cases b with
  | nil => simp [QString.remove]
  | cons c cs =>
    have e : ((((c :: cs).length : Nat) : Int) - 1).toNat = (c :: cs).length - 1 := by
      simp
    unfold QString.remove
    simp only
    split_ifs
    all_goals first
      | (exfalso; simp only [List.length_cons] at *; omega)
      | (rw [List.dropLast_eq_take, e])

theorem synthesize_fullDoc (doc : Document) (regExp : QRegularExpression) :
    (synthesize doc regExp).1 =
      if QString.endsWith regExp.pattern '$' = true then joinedLines doc.text
      else (joinedLines doc.text).dropLast := by
  unfold synthesize
  simp only [synthLoop_eq, List.nil_append]
  by_cases h : QString.endsWith regExp.pattern '$' = true
  · simp [h]
  · simp only [h, if_false]
    simp only [Bool.not_eq_true] at h
    simp [h, remove_last_eq_dropLast]

theorem joinedLines_cons (l : QString) (rest : List QString) :
    joinedLines (l :: rest) = l ++ '\n' :: joinedLines rest := by
  simp [joinedLines]

theorem joinedLines_ne_nil (l : QString) (rest : List QString) :
    joinedLines (l :: rest) ≠ [] := by
  rw [joinedLines_cons]; simp

theorem joinedLines_dropLast (text : List QString) :
    (joinedLines text).dropLast = List.intercalate ['\n'] text := by
  induction text with
  | nil => rfl
  | cons l rest ih =>
    cases rest with
    | nil => simp [joinedLines, List.intercalate]
    | cons l2 rest2 =>
      rw [joinedLines_cons]
      have h : ('\n' :: joinedLines (l2 :: rest2)) ≠ [] := by simp
      rw [List.dropLast_append_of_ne_nil _ h]
      have h2 : ('\n' :: joinedLines (l2 :: rest2)).dropLast =
          '\n' :: (joinedLines (l2 :: rest2)).dropLast := by
        cases hj : joinedLines (l2 :: rest2) with
        | nil => exact absurd hj (joinedLines_ne_nil l2 rest2)
        | cons a b => rfl
      rw [h2, ih]
      simp [List.intercalate, List.intersperse]

theorem searchMultiLineRegExp_zero_scratch (engine : RegexEngine) (clock : StepClock)
    (fuel : Nat) (self : SearchOpenFiles) (doc : Document) (regExp : QRegularExpression)
    (s1 : SearchOpenFiles) (evs : List MatchFound) (ret : Int)
    (h : searchMultiLineRegExp engine clock fuel self doc regExp 0 = some (s1, evs, ret)) :
    s1.m_fullDoc = (synthesize doc regExp).1 ∧ s1.m_lineStart = (synthesize doc regExp).2 := by
  unfold searchMultiLineRegExp at h
  rw [if_pos rfl] at h
  simp only at h
  cases hw : multiLineWhile engine clock doc (tmpRegExp regExp) (synthesize doc regExp).1
      (synthesize doc regExp).2 fuel 0
      (engine (tmpRegExp regExp) (synthesize doc regExp).1 0) with
  | none => rw [hw] at h; exact absurd h (by simp)
  | some r =>
    rw [hw] at h
    simp only [Option.map_some', Option.some.injEq, Prod.mk.injEq] at h
    rw [← h.1]
    exact ⟨rfl, rfl⟩

/-- C19: when `searchMultiLineRegExp` is entered with resume point 0 and returns, the buffer
`m_fullDoc` it leaves is the one it synthesized: the lines of the document joined by single
newline characters with no trailing newline when the pattern text does not end with `$`,
and every line followed by a newline (the trailing one retained) when the pattern text ends
with `$`; for a document with no lines the buffer is empty in both cases. -/
theorem fullDoc_after_synthesis (engine : RegexEngine) (clock : StepClock) (fuel : Nat)
    (self : SearchOpenFiles) (doc : Document) (regExp : QRegularExpression)
    (s1 : SearchOpenFiles) (evs : List MatchFound) (ret : Int)
    (h : searchMultiLineRegExp engine clock fuel self doc regExp 0 = some (s1, evs, ret)) :
    (QString.endsWith regExp.pattern '$' = false →
      s1.m_fullDoc = List.intercalate ['\n'] doc.text) ∧
    (QString.endsWith regExp.pattern '$' = true →
      s1.m_fullDoc = doc.text.flatMap (fun l => l ++ ['\n'])) ∧
    (doc.text = [] → s1.m_fullDoc = []) := by
  obtain ⟨hbuf, _⟩ := searchMultiLineRegExp_zero_scratch engine clock fuel self doc regExp
    s1 evs ret h
  rw [hbuf, synthesize_fullDoc]
  refine ⟨?_, ?_, ?_⟩
  · intro hd
    rw [hd]
    simp only [Bool.false_eq_true, if_false]
    exact joinedLines_dropLast doc.text
  · intro hd
    rw [hd]
    simp only [if_true]
    rfl
  · intro he
    rw [he]
    split <;> rfl

/-- C19 at a concrete input: the lines `abc`, `def`, `ghi`, the pattern `c\ndef\ng`. -/
theorem fullDoc_after_synthesis_witness :
    QString.endsWith "c\\ndef\\ng".toList '$' = false ∧
    (⟨[], -1, false, ⟨[]⟩, true, false, "abc\ndef\nghi".toList, [0, 4, 8, 12], -1⟩ :
      SearchOpenFiles).m_fullDoc = List.intercalate ['\n'] docAbc.text :=
  ⟨by decide,
    (fullDoc_after_synthesis refEngine StepClock.unbounded 1 idleObject docAbc
      ⟨"c\\ndef\\ng".toList⟩ _
      [⟨"abc.txt".toList, "abc".toList, "abc\ndef\ng".toList, 7, 0, 2, 2, 1⟩] 0
      (by decide)).1 (by decide)⟩

/-! ## The offset table -/

theorem offsetOfLine_cast (xs : List QString) :
    (((xs.map (fun l => l.length + 1)).sum : Nat) : Int) =
      (xs.map (fun l => (l.length : Int) + 1)).sum := by
  induction xs with
  | nil => rfl
  | cons l rest ih =>
    simp only [List.map_cons, List.sum_cons, Nat.cast_add, Nat.cast_one]
    rw [ih]

theorem lineStartsFrom_getD (text : List QString) :
    ∀ (base : Int) (i : Nat), i ≤ text.length →
      (base :: lineStartsFrom base text).getD i 0 = base + offsetOfLine text i := by
  induction text with
  | nil =>
    intro base i hi
    have : i = 0 := by simpa using hi
    subst this
    simp [offsetOfLine]
  | cons l rest ih =>
    intro base i hi
    cases i with
    | zero => simp [offsetOfLine]
    | succ j =>
      have hj : j ≤ rest.length := by simpa using hi
      have := ih (base + l.length + 1) j hj
      simp only [lineStartsFrom, List.getD_cons_succ]
      rw [this]
      simp only [offsetOfLine, List.take_succ_cons, List.map_cons, List.sum_cons]
      push_cast
      ring

theorem joinedLines_drop_offset (text : List QString) :
    ∀ i : Nat, (joinedLines text).drop (offsetOfLine text i) = joinedLines (text.drop i) := by
  induction text with
  | nil => intro i; simp [offsetOfLine, joinedLines]
  | cons l rest ih =>
    intro i
    cases i with
    | zero => simp [offsetOfLine]
    | succ j =>
      have e : offsetOfLine (l :: rest) (j + 1) = (l ++ ['\n']).length + offsetOfLine rest j := by
        simp [offsetOfLine]
      have e2 : joinedLines (l :: rest) = (l ++ ['\n']) ++ joinedLines rest := by
        simp [joinedLines]
      rw [e, e2, List.drop_append, List.drop_succ_cons]
      exact ih j

theorem joinedLines_line_at (text : List QString) (i : Nat) (hi : i < text.length) :
    ((joinedLines text).drop (offsetOfLine text i)).take (text.getD i []).length =
        text.getD i [] ∧
      (((joinedLines text).dropLast).drop (offsetOfLine text i)).take (text.getD i []).length =
        text.getD i [] := by
  have hdrop := joinedLines_drop_offset text i
  have hsplit : text.drop i = text.getD i [] :: text.drop (i + 1) := by
    rw [List.getD_eq_getElem text [] hi]
    exact List.drop_eq_getElem_cons hi
  rw [hsplit, joinedLines_cons] at hdrop
  constructor
  · rw [hdrop]
    simp
  · have hJ : joinedLines text =
        (joinedLines text).take (offsetOfLine text i) ++
          (text.getD i [] ++ '\n' :: joinedLines (text.drop (i + 1))) := by
      rw [← hdrop, List.take_append_drop]
    have hlen : ((joinedLines text).take (offsetOfLine text i)).length = offsetOfLine text i := by
      rw [List.length_take, Nat.min_eq_left]
      by_contra hcon
      have : (joinedLines text).drop (offsetOfLine text i) = [] := by
        apply List.drop_eq_nil_of_le
        omega
      rw [this] at hdrop
      simp at hdrop
    have hne : (text.getD i [] ++ '\n' :: joinedLines (text.drop (i + 1))) ≠ [] := by simp
    have hne2 : ('\n' :: joinedLines (text.drop (i + 1))) ≠ [] := by simp
    have hdl : (joinedLines text).dropLast =
        (joinedLines text).take (offsetOfLine text i) ++
          (text.getD i [] ++ ('\n' :: joinedLines (text.drop (i + 1))).dropLast) := by
      conv_lhs => rw [hJ]
      rw [List.dropLast_append_of_ne_nil _ hne, List.dropLast_append_of_ne_nil _ hne2]
    rw [hdl]
    have hd2 : ((joinedLines text).take (offsetOfLine text i) ++
          (text.getD i [] ++ ('\n' :: joinedLines (text.drop (i + 1))).dropLast)).drop
        (offsetOfLine text i) =
        text.getD i [] ++ ('\n' :: joinedLines (text.drop (i + 1))).dropLast := by
      have := List.drop_left ((joinedLines text).take (offsetOfLine text i))
        (text.getD i [] ++ ('\n' :: joinedLines (text.drop (i + 1))).dropLast)
      rw [hlen] at this
      exact this
    rw [hd2]
    simp

/-- C20: for a document with `n` lines the offset table `m_lineStart` built by the synthesis
has `n + 1` entries, begins with `0`, is strictly increasing, and for every line `i < n` its
entry `i` is the sum over `j < i` of `length(l_j) + 1`, so that the substring of the buffer
of length `length(l_i)` starting at that offset is `l_i`; a call of `searchMultiLineRegExp`
with resume point 0 that returns leaves this table and this buffer in `m_lineStart` and
`m_fullDoc`. -/
theorem lineStart_table (doc : Document) (regExp : QRegularExpression) :
    (synthesize doc regExp).2.length = doc.text.length + 1 ∧
    (synthesize doc regExp).2.getD 0 0 = 0 ∧
    (synthesize doc regExp).2.Pairwise (fun a b => a < b) ∧
    (∀ i : Nat, i < doc.text.length →
      (synthesize doc regExp).2.getD i 0 =
        ((doc.text.take i).map (fun l => (l.length : Int) + 1)).sum ∧
      (((synthesize doc regExp).1.drop ((synthesize doc regExp).2.getD i 0).toNat).take
          (doc.text.getD i []).length = doc.text.getD i [])) ∧
    (∀ (engine : RegexEngine) (clock : StepClock) (fuel : Nat) (self s1 : SearchOpenFiles)
        (evs : List MatchFound) (ret : Int),
      searchMultiLineRegExp engine clock fuel self doc regExp 0 = some (s1, evs, ret) →
        s1.m_lineStart = (synthesize doc regExp).2 ∧ s1.m_fullDoc = (synthesize doc regExp).1) := by
  refine ⟨?_, ?_, synthesize_lineStart_pairwise doc regExp, ?_, ?_⟩
  · rw [synthesize_lineStart]
    simp [lineStartsFrom_length]
  · rw [synthesize_lineStart]
    rfl
  · intro i hi
    have hget : (synthesize doc regExp).2.getD i 0 = (offsetOfLine doc.text i : Int) := by
      rw [synthesize_lineStart, lineStartsFrom_getD doc.text 0 i (by omega)]
      simp
    refine ⟨?_, ?_⟩
    · rw [hget]
      exact offsetOfLine_cast (doc.text.take i)
    · rw [hget, synthesize_fullDoc]
      simp only [Int.toNat_ofNat]
      split
      · exact (joinedLines_line_at doc.text i hi).1
      · exact (joinedLines_line_at doc.text i hi).2
  · intro engine clock fuel self s1 evs ret h
    obtain ⟨h1, h2⟩ := searchMultiLineRegExp_zero_scratch engine clock fuel self doc regExp
      s1 evs ret h
    exact ⟨h2, h1⟩

/-! ## The resume point of the multi-line matcher -/

/-- C16 fails on the code. On the lines `x`, `a`, `b`, `a`, `b` with the pattern `a\nb`
the first match occupies the buffer offsets 2 to 5; when the budget check after it fires,
`searchMultiLineRegExp` returns 1, the line on which that match begins, not the end offset
5, and the resumed call asks the engine from offset `m_lineStart[1] = 2`, where it finds
the match already emitted. In general, for a match at offset `s` inside the synthesized
buffer the value returned on expiry is the line of `s`, and the offset the resumed call
starts from is at most `s`, so before the end of the match. -/
theorem multiLine_resume_point_is_start_line :
    (refEngine (tmpRegExp ⟨"a\\nb".toList⟩) (synthesize docXabab ⟨"a\\nb".toList⟩).1 0 =
        ⟨2, "a\nb".toList⟩ ∧
      (searchMultiLineRegExp refEngine (StepClock.firesAt 0) 3 idleObject docXabab
          ⟨"a\\nb".toList⟩ 0).map (fun r => (r.2.1.map spanOf, r.2.2)) =
        some ([(1, 0, 2, 1)], 1) ∧
      lineStartAt (synthesize docXabab ⟨"a\\nb".toList⟩).2 1 = 2 ∧
      (searchMultiLineRegExp refEngine StepClock.unbounded 3
          { idleObject with
            m_fullDoc := (synthesize docXabab ⟨"a\\nb".toList⟩).1
            m_lineStart := (synthesize docXabab ⟨"a\\nb".toList⟩).2 }
          docXabab ⟨"a\\nb".toList⟩ 1).map (fun r => (r.2.1.map spanOf, r.2.2)) =
        some ([(1, 0, 2, 1), (3, 0, 4, 1)], 0)) ∧
    (∀ (engine : RegexEngine) (clock : StepClock) (fuel : Nat) (self : SearchOpenFiles)
        (doc : Document) (regExp : QRegularExpression) (k : Int),
      0 < k → k < self.m_lineStart.length →
      searchMultiLineRegExp engine clock fuel self doc regExp k =
        (multiLineWhile engine clock doc (tmpRegExp regExp) self.m_fullDoc self.m_lineStart
            fuel 0
            (engine (tmpRegExp regExp) self.m_fullDoc (lineStartAt self.m_lineStart k))).map
          (fun r => (self, r.1, r.2))) ∧
    (∀ (engine : RegexEngine) (clock : StepClock) (fuel k : Nat) (doc : Document)
        (regExp : QRegularExpression) (s : Int) (m : QString),
      m ≠ [] → 0 ≤ s → s + m.length ≤ (synthesize doc regExp).1.length →
      clock.expired k = true →
      ∃ evs ret,
        multiLineWhile engine clock doc (tmpRegExp regExp) (synthesize doc regExp).1
          (synthesize doc regExp).2 (fuel + 1) k ⟨s, m⟩ = some (evs, ret) ∧
        ret = findStartLine (synthesize doc regExp).2 s ∧
        lineStartAt (synthesize doc regExp).2 ret ≤ s ∧ s < s + m.length) := by
  refine ⟨⟨?_, ?_, ?_, ?_⟩, ?_, ?_⟩
  · decide
  · decide
  · decide
  · decide
  · intro engine clock fuel self doc regExp k h0 hk
    have hne : ¬ k = 0 := by omega
    simp only [searchMultiLineRegExp, hne, if_false, h0, hk, and_self, if_true]
  · intro engine clock fuel k doc regExp s m hm hs hin hexp
    have hlen := synthesize_fullDoc_length_le doc regExp
    have hmpos : 0 < m.length := List.length_pos.2 hm
    obtain ⟨j, hj, _, hle, _⟩ := findStartLine_synthesize doc regExp s hs (by omega)
    have hne1 : findStartLine (synthesize doc regExp).2 s ≠ -1 := by rw [hj]; omega
    have hs1 : (⟨s, m⟩ : QRegularExpressionMatch).capturedStart ≠ -1 := by
      show s ≠ -1
      omega
    refine ⟨[multiLineMatchFound doc (synthesize doc regExp).2
        (findStartLine (synthesize doc regExp).2 s) s m],
      findStartLine (synthesize doc regExp).2 s, ?_, rfl, ?_, by omega⟩
    · rw [multiLineWhile_succ engine clock doc _ _ _ fuel k ⟨s, m⟩ hs1 hm hne1, if_pos hexp]
    · rw [hj]
      simpa [lineStartAt] using hle

/-- C17 fails on the code. On the lines `a`, `b`, `a`, `b` with the pattern `a\nb` the
budget check after the first match (which begins on line 0) makes `searchMultiLineRegExp`
return 0 although the match at offset 4 has not been reached; `doSearchNextFile` reads the 0
as "document finished": with this document alone the session ends with `searchDone`, with a
second document after it the index advances to 1. The single-line matcher returns 0 as well
when its check fires before line 0. -/
theorem budget_expiry_can_return_zero :
    (searchMultiLineRegExp refEngine (StepClock.firesAt 0) 3 idleObject docAbab
        ⟨"a\\nb".toList⟩ 0).map (fun r => (r.2.1.map spanOf, r.2.2)) =
      some ([(0, 0, 1, 1)], 0) ∧
    refEngine (tmpRegExp ⟨"a\\nb".toList⟩) (synthesize docAbab ⟨"a\\nb".toList⟩).1 3 =
      ⟨4, "a\nb".toList⟩ ∧
    (doSearchNextFile refEngine (StepClock.firesAt 0) 3
        (startSearch [docAbab] ⟨"a\\nb".toList⟩ idleObject) 0).map
      (fun r => (r.1.m_nextFileIndex, r.1.searching)) = some (-1, false) ∧
    (doSearchNextFile refEngine (StepClock.firesAt 0) 3
        (startSearch [docAbab] ⟨"a\\nb".toList⟩ idleObject) 0).map
      (fun r => r.2.map (fun g => decide (g = Signal.searchDone))) = some [false, true] ∧
    (doSearchNextFile refEngine (StepClock.firesAt 0) 3
        (startSearch [docAbab, docAbc] ⟨"a\\nb".toList⟩ idleObject) 0).map
      (fun r => (r.1.m_nextFileIndex, r.1.m_nextLine)) = some (1, 0) ∧
    (doSearchNextFile refEngine (StepClock.firesAt 0) 3
        (startSearch [docAbab, docAbc] ⟨"a\\nb".toList⟩ idleObject) 0).map
      (fun r => (matchesOf r.2).map spanOf) = some [(0, 0, 1, 1)] ∧
    searchSingleLineRegExp refEngine (StepClock.firesAt 0) 1 docAbab ⟨"a".toList⟩ 0 =
      some ([], 0) := by
  refine ⟨?_, ?_, ?_, ?_, ?_, ?_, ?_⟩ <;> decide

/-! ## Pausing the single-line matcher -/

theorem singleLineFor_unbounded_index (engine : RegexEngine) (fuel : Nat) (doc : Document)
    (regExp : QRegularExpression) :
    ∀ (remaining c c2 : Nat) (line : Int),
      singleLineFor engine StepClock.unbounded fuel doc regExp remaining c line =
        singleLineFor engine StepClock.unbounded fuel doc regExp remaining c2 line := by
  intro remaining
  induction remaining with
  | zero => intro c c2 line; rfl
  | succ remaining ih =>
    intro c c2 line
    simp only [singleLineFor, StepClock.unbounded, Bool.false_eq_true, if_false]
    rw [show singleLineFor engine { statusElapsed := false, expired := fun _ => false } fuel doc
        regExp remaining (c + 1) (line + 1) =
      singleLineFor engine { statusElapsed := false, expired := fun _ => false } fuel doc
        regExp remaining (c2 + 1) (line + 1) from ih (c + 1) (c2 + 1) (line + 1)]

theorem singleLineFor_unbounded_succ (engine : RegexEngine) (fuel : Nat) (doc : Document)
    (regExp : QRegularExpression) (remaining c : Nat) (line : Int) :
    singleLineFor engine StepClock.unbounded fuel doc regExp (remaining + 1) c line =
      match singleLineWhile engine doc regExp line fuel (engine regExp (doc.line line) 0) with
      | none => none
      | some evs =>
        (singleLineFor engine StepClock.unbounded fuel doc regExp remaining 0 (line + 1)).map
          (fun r => (evs ++ r.1, r.2)) := by
  rw [singleLineFor_unbounded_index engine fuel doc regExp remaining 0 (c + 1) (line + 1)]
  simp only [singleLineFor, StepClock.unbounded, Bool.false_eq_true, if_false]

theorem singleLineFor_succ_of_not_expired (engine : RegexEngine) (clock : StepClock)
    (fuel : Nat) (doc : Document) (regExp : QRegularExpression) (remaining c : Nat) (line : Int)
    (h : clock.expired c = false) :
    singleLineFor engine clock fuel doc regExp (remaining + 1) c line =
      match singleLineWhile engine doc regExp line fuel (engine regExp (doc.line line) 0) with
      | none => none
      | some evs =>
        (singleLineFor engine clock fuel doc regExp remaining (c + 1) (line + 1)).map
          (fun r => (evs ++ r.1, r.2)) := by
  simp only [singleLineFor, h, Bool.false_eq_true, if_false]

theorem singleLineFor_unbounded_ret (engine : RegexEngine) (fuel : Nat) (doc : Document)
    (regExp : QRegularExpression) :
    ∀ (remaining c : Nat) (line : Int) (evs : List MatchFound) (ret : Int),
      singleLineFor engine StepClock.unbounded fuel doc regExp remaining c line =
        some (evs, ret) → ret = 0 := by
  intro remaining
  induction remaining with
  | zero =>
    intro c line evs ret h
    simp only [singleLineFor, Option.some.injEq, Prod.mk.injEq] at h
    exact h.2.symm
  | succ remaining ih =>
    intro c line evs ret h
    rw [singleLineFor_unbounded_succ] at h
    split at h
    · exact absurd h (by simp)
    · cases hr : singleLineFor engine StepClock.unbounded fuel doc regExp remaining 0 (line + 1) with
      | none => rw [hr] at h; exact absurd h (by simp)
      | some r =>
        rw [hr] at h
        simp only [Option.map_some', Option.some.injEq, Prod.mk.injEq] at h
        rw [← h.2]
        exact ih 0 (line + 1) r.1 r.2 hr

theorem singleLineFor_split (engine : RegexEngine) (clock : StepClock) (fuel : Nat)
    (doc : Document) (regExp : QRegularExpression) :
    ∀ (remaining c : Nat) (line : Int) (evs : List MatchFound) (ret : Int),
      singleLineFor engine clock fuel doc regExp remaining c line = some (evs, ret) →
      ((∀ j, j < remaining → clock.expired (c + j) = false) ∧ ret = 0 ∧
        singleLineFor engine StepClock.unbounded fuel doc regExp remaining 0 line =
          some (evs, 0)) ∨
      (∃ i, i < remaining ∧ clock.expired (c + i) = true ∧
        (∀ j, j < i → clock.expired (c + j) = false) ∧ ret = line + i ∧
        singleLineFor engine StepClock.unbounded fuel doc regExp i 0 line = some (evs, 0)) := by
  intro remaining
  induction remaining with
  | zero =>
    intro c line evs ret h
    simp only [singleLineFor, Option.some.injEq, Prod.mk.injEq] at h
    left
    refine ⟨fun j hj => absurd hj (by omega), h.2.symm, ?_⟩
    rw [← h.1]; rfl
  | succ remaining ih =>
    intro c line evs ret h
    by_cases hexp : clock.expired c = true
    · simp only [singleLineFor, hexp, if_true, Option.some.injEq, Prod.mk.injEq] at h
      right
      refine ⟨0, by omega, by simpa using hexp, fun j hj => absurd hj (by omega), ?_, ?_⟩
      · rw [← h.2]; simp
      · rw [← h.1]; rfl
    · have hexp : clock.expired c = false := by simpa using hexp
      rw [singleLineFor_succ_of_not_expired engine clock fuel doc regExp remaining c line hexp] at h
      cases hw : singleLineWhile engine doc regExp line fuel (engine regExp (doc.line line) 0) with
      | none => rw [hw] at h; exact absurd h (by simp)
      | some evs0 =>
        rw [hw] at h
        simp only at h
        cases hr : singleLineFor engine clock fuel doc regExp remaining (c + 1) (line + 1) with
        | none => rw [hr] at h; exact absurd h (by simp)
        | some r =>
          obtain ⟨evs1, ret1⟩ := r
          rw [hr] at h
          simp only [Option.map_some', Option.some.injEq, Prod.mk.injEq] at h
          obtain ⟨he, hret⟩ := h
          rcases ih (c + 1) (line + 1) evs1 ret1 hr with ⟨hall, h0, hU⟩ | ⟨i, hi, hfi, hbefore, hri, hU⟩
          · left
            refine ⟨?_, by rw [← hret]; exact h0, ?_⟩
            · intro j hj
              cases j with
              | zero => simpa using hexp
              | succ j2 =>
                have := hall j2 (by omega)
                rw [show c + (j2 + 1) = c + 1 + j2 by omega]
                exact this
            · rw [singleLineFor_unbounded_succ, hw]
              simp only
              rw [hU]
              simp only [Option.map_some', Option.some.injEq, Prod.mk.injEq]
              exact ⟨he, trivial⟩
          · right
            refine ⟨i + 1, by omega, ?_, ?_, ?_, ?_⟩
            · rw [show c + (i + 1) = c + 1 + i by omega]; exact hfi
            · intro j hj
              cases j with
              | zero => simpa using hexp
              | succ j2 =>
                have := hbefore j2 (by omega)
                rw [show c + (j2 + 1) = c + 1 + j2 by omega]
                exact this
            · rw [← hret, hri]; push_cast; ring
            · rw [singleLineFor_unbounded_succ, hw]
              simp only
              rw [hU]
              simp only [Option.map_some', Option.some.injEq, Prod.mk.injEq]
              exact ⟨he, trivial⟩

theorem singleLineFor_unbounded_append (engine : RegexEngine) (fuel : Nat) (doc : Document)
    (regExp : QRegularExpression) :
    ∀ (a b : Nat) (line : Int) (e1 e2 : List MatchFound) (r1 r2 : Int),
      singleLineFor engine StepClock.unbounded fuel doc regExp a 0 line = some (e1, r1) →
      singleLineFor engine StepClock.unbounded fuel doc regExp b 0 (line + a) = some (e2, r2) →
      singleLineFor engine StepClock.unbounded fuel doc regExp (a + b) 0 line =
        some (e1 ++ e2, r2) := by
  intro a
  induction a with
  | zero =>
    intro b line e1 e2 r1 r2 h1 h2
    simp only [singleLineFor, Option.some.injEq, Prod.mk.injEq] at h1
    rw [← h1.1]
    simpa using h2
  | succ a ih =>
    intro b line e1 e2 r1 r2 h1 h2
    rw [singleLineFor_unbounded_succ] at h1
    rw [show a + 1 + b = (a + b) + 1 by omega, singleLineFor_unbounded_succ]
    cases hw : singleLineWhile engine doc regExp line fuel (engine regExp (doc.line line) 0) with
    | none => rw [hw] at h1; exact absurd h1 (by simp)
    | some evs0 =>
      rw [hw] at h1
      simp only at h1 ⊢
      cases hr : singleLineFor engine StepClock.unbounded fuel doc regExp a 0 (line + 1) with
      | none => rw [hr] at h1; exact absurd h1 (by simp)
      | some r =>
        obtain ⟨ea, ra⟩ := r
        rw [hr] at h1
        simp only [Option.map_some', Option.some.injEq, Prod.mk.injEq] at h1
        have h2b : singleLineFor engine StepClock.unbounded fuel doc regExp b 0
            (line + 1 + a) = some (e2, r2) := by
          rw [show line + 1 + (a : Int) = line + ((a + 1 : Nat) : Int) by push_cast; ring]
          exact h2
        rw [ih b (line + 1) ea e2 ra r2 hr h2b]
        simp only [Option.map_some', Option.some.injEq, Prod.mk.injEq]
        rw [← h1.1]
        simp

/-- C18: when `searchSingleLineRegExp`, started at line 0, returns the resume point `k` with
`0 < k <` line count, it has scanned exactly the `k` lines below `k`, each completely, and no
line at or above `k`; an uninterrupted call resumed at line `k` scans exactly the lines from
`k` to the last, so no line is scanned twice; and the matches of the paused call followed by
those of the resumed call are, in order, the matches of one uninterrupted scan from line 0,
which returns 0. -/
theorem singleLine_pause_resume (engine : RegexEngine) (clock : StepClock) (fuel : Nat)
    (doc : Document) (regExp : QRegularExpression) (k : Int) (evs : List MatchFound)
    (hk0 : 0 < k) (hkn : k < doc.lines)
    (h : searchSingleLineRegExp engine clock fuel doc regExp 0 = some (evs, k)) :
    (∃ per : List (List QRegularExpressionMatch),
      (per.length : Int) = k ∧ evs = emittedFor doc 0 per ∧
      ∀ (i : Nat) (ms : List QRegularExpressionMatch), per[i]? = some ms →
        MatchChain engine regExp (doc.line (0 + i)) 0 ms) ∧
    (∀ evs2 ret2,
      searchSingleLineRegExp engine StepClock.unbounded fuel doc regExp k = some (evs2, ret2) →
      (∃ per2 : List (List QRegularExpressionMatch),
        (per2.length : Int) = doc.lines - k ∧ evs2 = emittedFor doc k per2 ∧
        ∀ (i : Nat) (ms : List QRegularExpressionMatch), per2[i]? = some ms →
          MatchChain engine regExp (doc.line (k + i)) 0 ms) ∧
      searchSingleLineRegExp engine StepClock.unbounded fuel doc regExp 0 =
        some (evs ++ evs2, 0)) := by
  unfold searchSingleLineRegExp at h
  have hlines : (0 : Int) ≤ doc.lines := by simp [Document.lines]
  rcases singleLineFor_split engine clock fuel doc regExp _ 0 0 evs k h with
    ⟨_, h0, _⟩ | ⟨i, hi, _, _, hri, hU⟩
  · omega
  · have hik : (i : Int) = k := by omega
    obtain ⟨per, hper, hall, hlen⟩ :=
      singleLineFor_chain engine StepClock.unbounded fuel doc regExp i 0 0 evs 0 hU
    refine ⟨⟨per, ?_, hper, hall⟩, ?_⟩
    · rw [hlen (fun _ => rfl)]; exact hik
    · intro evs2 ret2 h2
      unfold searchSingleLineRegExp at h2 ⊢
      obtain ⟨per2, hper2, hall2, hlen2⟩ :=
        singleLineFor_chain engine StepClock.unbounded fuel doc regExp _ 0 k evs2 ret2 h2
      have hret2 := singleLineFor_unbounded_ret engine fuel doc regExp _ 0 k evs2 ret2 h2
      refine ⟨⟨per2, ?_, hper2, hall2⟩, ?_⟩
      · rw [hlen2 (fun _ => rfl)]; omega
      · have hsum : (doc.lines - 0).toNat = i + (doc.lines - k).toNat := by omega
        rw [hsum]
        have h2b : singleLineFor engine StepClock.unbounded fuel doc regExp
            (doc.lines - k).toNat 0 (0 + (i : Int)) = some (evs2, ret2) := by
          rw [show (0 : Int) + (i : Int) = k by omega]
          exact h2
        rw [singleLineFor_unbounded_append engine fuel doc regExp i _ 0 evs evs2 0 ret2 hU h2b,
          hret2]

/-- C18 at a concrete input: the pattern `b` on the lines `ab`, `b`, `cb`, the budget check
firing before line 1. -/
theorem singleLine_pause_resume_witness :
    searchSingleLineRegExp refEngine (StepClock.firesAt 1) 2 docThree ⟨"b".toList⟩ 0 =
      some ([⟨"t.txt".toList, "t".toList, "ab".toList, 1, 0, 1, 0, 2⟩], 1) ∧
    (∀ evs2 ret2,
      searchSingleLineRegExp refEngine StepClock.unbounded 2 docThree ⟨"b".toList⟩ 1 =
        some (evs2, ret2) →
      searchSingleLineRegExp refEngine StepClock.unbounded 2 docThree ⟨"b".toList⟩ 0 =
        some ([⟨"t.txt".toList, "t".toList, "ab".toList, 1, 0, 1, 0, 2⟩] ++ evs2, 0)) :=
  have h : searchSingleLineRegExp refEngine (StepClock.firesAt 1) 2 docThree ⟨"b".toList⟩ 0 =
      some ([⟨"t.txt".toList, "t".toList, "ab".toList, 1, 0, 1, 0, 2⟩], 1) := by decide
  ⟨h, fun evs2 ret2 h2 =>
    ((singleLine_pause_resume refEngine (StepClock.firesAt 1) 2 docThree ⟨"b".toList⟩ 1 _
      (by decide) (by decide) h).2 evs2 ret2 h2).2⟩

/-! ## The budget checks -/

theorem multiLineWhile_count (engine : RegexEngine) (clock : StepClock) (doc : Document)
    (regExp : QRegularExpression) (fullDoc : QString) (lineStart : List Int) :
    ∀ (fuel c : Nat) (m : QRegularExpressionMatch) (evs : List MatchFound) (ret : Int),
      multiLineWhile engine clock doc regExp fullDoc lineStart fuel c m = some (evs, ret) →
      ∀ k, c ≤ k → clock.expired k = true → evs.length ≤ k + 1 - c := by
  intro fuel
  induction fuel with
  | zero =>
    intro c m evs ret h k _ _
    unfold multiLineWhile at h
    split at h
    · split at h
      · simp only [Option.some.injEq, Prod.mk.injEq] at h
        rw [← h.1]; simp
      · exact absurd h (by simp)
    · simp only [Option.some.injEq, Prod.mk.injEq] at h
      rw [← h.1]; simp
  | succ fuel ih =>
    intro c m evs ret h k hck hexp
    by_cases hc : m.capturedStart ≠ -1 ∧ ¬ m.captured.isEmpty = true
    · by_cases hl : findStartLine lineStart m.capturedStart = -1
      · rw [multiLineWhile, if_pos hc, if_pos hl] at h
        simp only [Option.some.injEq, Prod.mk.injEq] at h
        rw [← h.1]; simp
      · have hne : m.captured ≠ [] := by simpa using hc.2
        rw [multiLineWhile_succ engine clock doc regExp fullDoc lineStart fuel c m hc.1 hne hl] at h
        split at h
        · simp only [Option.some.injEq, Prod.mk.injEq] at h
          rw [← h.1]
          simp only [List.length_singleton]
          omega
        · rename_i hnexp
          cases hrest : multiLineWhile engine clock doc regExp fullDoc lineStart fuel (c + 1)
              (engine regExp fullDoc (m.capturedStart + m.capturedLength)) with
          | none => rw [hrest] at h; exact absurd h (by simp)
          | some r =>
            rw [hrest] at h
            simp only [Option.map_some', Option.some.injEq, Prod.mk.injEq] at h
            have hkc : c + 1 ≤ k := by
              rcases Nat.eq_or_lt_of_le hck with e | e
              · rw [← e] at hexp; exact absurd hexp hnexp
              · omega
            have := ih (c + 1) _ r.1 r.2 hrest k hkc hexp
            rw [← h.1]
            simp only [List.length_cons]
            omega
    · rw [multiLineWhile, if_neg hc] at h
      simp only [Option.some.injEq, Prod.mk.injEq] at h
      rw [← h.1]; simp

theorem firing_check_bounds (engine : RegexEngine) (clock : StepClock) (fuel : Nat)
    (self : SearchOpenFiles) (doc : Document) (regExp : QRegularExpression) (startLine : Int)
    (k : Nat) (hexp : clock.expired k = true) :
    (∀ evs ret,
      searchSingleLineRegExp engine clock fuel doc regExp startLine = some (evs, ret) →
      ∃ per : List (List QRegularExpressionMatch),
        per.length ≤ k ∧ evs = emittedFor doc startLine per ∧
        ∀ (i : Nat) (ms : List QRegularExpressionMatch), per[i]? = some ms →
          MatchChain engine regExp (doc.line (startLine + i)) 0 ms) ∧
    (∀ s1 evs ret,
      searchMultiLineRegExp engine clock fuel self doc regExp startLine = some (s1, evs, ret) →
      evs.length ≤ k + 1) := by
  constructor
  · intro evs ret h
    unfold searchSingleLineRegExp at h
    rcases singleLineFor_split engine clock fuel doc regExp _ 0 startLine evs ret h with
      ⟨hall, _, hU⟩ | ⟨i, _, _, hbefore, _, hU⟩
    · obtain ⟨per, hper, hchain, hlen⟩ :=
        singleLineFor_chain engine StepClock.unbounded fuel doc regExp _ 0 startLine evs 0 hU
      refine ⟨per, ?_, hper, hchain⟩
      rw [hlen (fun _ => rfl)]
      by_contra hcon
      have := hall k (by omega)
      rw [Nat.zero_add, hexp] at this
      cases this
    · obtain ⟨per, hper, hchain, hlen⟩ :=
        singleLineFor_chain engine StepClock.unbounded fuel doc regExp i 0 startLine evs 0 hU
      refine ⟨per, ?_, hper, hchain⟩
      rw [hlen (fun _ => rfl)]
      by_contra hcon
      have := hbefore k (by omega)
      rw [Nat.zero_add, hexp] at this
      cases this
  · intro s1 evs ret h
    unfold searchMultiLineRegExp at h
    split at h
    · simp only at h
      cases hw : multiLineWhile engine clock doc (tmpRegExp regExp) (synthesize doc regExp).1
          (synthesize doc regExp).2 fuel 0
          (engine (tmpRegExp regExp) (synthesize doc regExp).1 0) with
      | none => rw [hw] at h; exact absurd h (by simp)
      | some r =>
        rw [hw] at h
        simp only [Option.map_some', Option.some.injEq, Prod.mk.injEq] at h
        have := multiLineWhile_count engine clock doc _ _ _ fuel 0 _ r.1 r.2 hw k (by omega) hexp
        rw [← h.2.1]
        omega
    · split at h
      · cases hw : multiLineWhile engine clock doc (tmpRegExp regExp) self.m_fullDoc
            self.m_lineStart fuel 0
            (engine (tmpRegExp regExp) self.m_fullDoc
              (lineStartAt self.m_lineStart startLine)) with
        | none => rw [hw] at h; exact absurd h (by simp)
        | some r =>
          rw [hw] at h
          simp only [Option.map_some', Option.some.injEq, Prod.mk.injEq] at h
          have := multiLineWhile_count engine clock doc _ _ _ fuel 0 _ r.1 r.2 hw k (by omega) hexp
          rw [← h.2.1]
          omega
      · simp only [Option.some.injEq, Prod.mk.injEq] at h
        rw [← h.2.1]; simp

/-! ## `terminateSearch` called from a slot during a step -/

/-- C12, as stated, fails: on the lines `x`, `a`, `b`, `a`, `b` with the pattern `a\nb` and a
slot that calls `terminateSearch` at every `matchFound`, the step still emits the second
match, after the call made at the first one, and when it returns `m_nextFileIndex` is 0 and
`m_nextLine` is 0, not `-1`, and the timer is started again. -/
theorem terminate_in_slot_not_detected :
    (doSearchNextFileSlot (fun _ => SlotCall.terminateSearch) refEngine StepClock.unbounded 3
        (startSearch [docXabab] ⟨"a\\nb".toList⟩ idleObject) 0).map
      (fun r => (matchesOf r.2).map spanOf) = some [(1, 0, 2, 1), (3, 0, 4, 1)] ∧
    (doSearchNextFileSlot (fun _ => SlotCall.terminateSearch) refEngine StepClock.unbounded 3
        (startSearch [docXabab] ⟨"a\\nb".toList⟩ idleObject) 0).map
      (fun r => (r.1.m_nextFileIndex, r.1.m_nextLine)) = some (0, 0) ∧
    (doSearchNextFileSlot (fun _ => SlotCall.terminateSearch) refEngine StepClock.unbounded 3
        (startSearch [docXabab] ⟨"a\\nb".toList⟩ idleObject) 0).map
      (fun r => r.1.m_nextRunTimer) = some true := by
  refine ⟨?_, ?_, ?_⟩ <;> decide

theorem SlotCall.run_frame (c : SlotCall) (s : SearchOpenFiles) :
    (c.run s).m_fullDoc = s.m_fullDoc ∧ (c.run s).m_lineStart = s.m_lineStart ∧
      (c.run s).m_docList = s.m_docList ∧ (c.run s).m_regExp = s.m_regExp := by
  cases c <;> exact ⟨rfl, rfl, rfl, rfl⟩

theorem runSlots_append (slot : MatchFound → SlotCall) (a b : List MatchFound) :
    ∀ s, runSlots slot (a ++ b) s = runSlots slot b (runSlots slot a s) := by
  induction a with
  | nil => intro s; rfl
  | cons x xs ih => intro s; simp only [List.cons_append, runSlots]; exact ih _

theorem runSlots_frame (slot : MatchFound → SlotCall) (evs : List MatchFound) :
    ∀ s, (runSlots slot evs s).m_fullDoc = s.m_fullDoc ∧
      (runSlots slot evs s).m_lineStart = s.m_lineStart ∧
      (runSlots slot evs s).m_docList = s.m_docList ∧
      (runSlots slot evs s).m_regExp = s.m_regExp := by
  induction evs with
  | nil => intro s; exact ⟨rfl, rfl, rfl, rfl⟩
  | cons x xs ih =>
    intro s
    obtain ⟨a, b, c, d⟩ := ih ((slot x).run s)
    obtain ⟨a2, b2, c2, d2⟩ := SlotCall.run_frame (slot x) s
    exact ⟨a.trans a2, b.trans b2, c.trans c2, d.trans d2⟩

theorem runSlots_terminated (slot : MatchFound → SlotCall) (evs : List MatchFound) :
    ∀ s, runSlots slot evs (terminateSearch s) = terminateSearch s := by
  induction evs with
  | nil => intro s; rfl
  | cons x xs ih =>
    intro s
    have h : (slot x).run (terminateSearch s) = terminateSearch s := by
      cases slot x <;> rfl
    rw [runSlots, h]
    exact ih s

theorem runSlots_of_terminate (slot : MatchFound → SlotCall) (evs : List MatchFound) :
    ∀ s, (∃ ev ∈ evs, slot ev = SlotCall.terminateSearch) →
      runSlots slot evs s = terminateSearch s := by
  induction evs with
  | nil => intro s h; obtain ⟨ev, hev, _⟩ := h; simp at hev
  | cons x xs ih =>
    intro s h
    by_cases hx : slot x = SlotCall.terminateSearch
    · rw [runSlots, hx]
      exact runSlots_terminated slot xs s
    · have hrest : ∃ ev ∈ xs, slot ev = SlotCall.terminateSearch := by
        obtain ⟨ev, hev, hs⟩ := h
        rcases List.mem_cons.1 hev with e | e
        · rw [e] at hs; exact absurd hs hx
        · exact ⟨ev, e, hs⟩
      rw [runSlots, ih _ hrest]
      cases slot x <;> rfl

theorem singleLineWhileSlot_eq (slot : MatchFound → SlotCall) (engine : RegexEngine)
    (doc : Document) (regExp : QRegularExpression) (line : Int) :
    ∀ (fuel : Nat) (m : QRegularExpressionMatch) (self : SearchOpenFiles),
      singleLineWhileSlot slot engine doc regExp line fuel m self =
        (singleLineWhile engine doc regExp line fuel m).map
          (fun evs => (evs, runSlots slot evs self)) := by
  intro fuel
  induction fuel with
  | zero =>
    intro m self
    unfold singleLineWhileSlot singleLineWhile
    split <;> rfl
  | succ fuel ih =>
    intro m self
    unfold singleLineWhileSlot singleLineWhile
    split
    · rw [ih]
      cases singleLineWhile engine doc regExp line fuel
          (engine regExp (doc.line line) (m.capturedStart + m.capturedLength)) with
      | none => rfl
      | some evs => rfl
    · rfl

theorem singleLineForSlot_eq (slot : MatchFound → SlotCall) (engine : RegexEngine)
    (clock : StepClock) (fuel : Nat) (doc : Document) (regExp : QRegularExpression) :
    ∀ (remaining k : Nat) (line : Int) (self : SearchOpenFiles),
      singleLineForSlot slot engine clock fuel doc regExp remaining k line self =
        (singleLineFor engine clock fuel doc regExp remaining k line).map
          (fun r => (r.1, r.2, runSlots slot r.1 self)) := by
  intro remaining
  induction remaining with
  | zero => intro k line self; rfl
  | succ remaining ih =>
    intro k line self
    unfold singleLineForSlot singleLineFor
    split
    · rfl
    · rw [singleLineWhileSlot_eq]
      cases singleLineWhile engine doc regExp line fuel (engine regExp (doc.line line) 0) with
      | none => rfl
      | some evs =>
        simp only [Option.map_some']
        rw [ih]
        cases singleLineFor engine clock fuel doc regExp remaining (k + 1) (line + 1) with
        | none => rfl
        | some r =>
          simp only [Option.map_some', runSlots_append]

theorem multiLineWhileSlot_eq (slot : MatchFound → SlotCall) (engine : RegexEngine)
    (clock : StepClock) (doc : Document) (regExp : QRegularExpression) :
    ∀ (fuel k : Nat) (m : QRegularExpressionMatch) (self : SearchOpenFiles),
      multiLineWhileSlot slot engine clock doc regExp fuel k m self =
        (multiLineWhile engine clock doc regExp self.m_fullDoc self.m_lineStart fuel k m).map
          (fun r => (r.1, r.2, runSlots slot r.1 self)) := by
  intro fuel
  induction fuel with
  | zero =>
    intro k m self
    unfold multiLineWhileSlot multiLineWhile
    split
    · split <;> rfl
    · rfl
  | succ fuel ih =>
    intro k m self
    unfold multiLineWhileSlot multiLineWhile
    split
    · split
      · rfl
      · simp only
        split
        · rfl
        · obtain ⟨hf, hl, _, _⟩ := SlotCall.run_frame
            (slot (multiLineMatchFound doc self.m_lineStart
              (findStartLine self.m_lineStart m.capturedStart) m.capturedStart m.captured)) self
          rw [ih, hf, hl]
          cases multiLineWhile engine clock doc regExp self.m_fullDoc self.m_lineStart fuel
              (k + 1) (engine regExp self.m_fullDoc (m.capturedStart + m.capturedLength)) with
          | none => rfl
          | some r => rfl
    · rfl

theorem searchMultiLineRegExpSlot_eq (slot : MatchFound → SlotCall) (engine : RegexEngine)
    (clock : StepClock) (fuel : Nat) (self : SearchOpenFiles) (doc : Document)
    (regExp : QRegularExpression) (inStartLine : Int) :
    searchMultiLineRegExpSlot slot engine clock fuel self doc regExp inStartLine =
      (searchMultiLineRegExp engine clock fuel self doc regExp inStartLine).map
        (fun r => (r.2.1, r.2.2, runSlots slot r.2.1 r.1)) := by
  unfold searchMultiLineRegExpSlot searchMultiLineRegExp
  by_cases h0 : inStartLine = 0
  · rw [if_pos h0, if_pos h0]
    simp only [multiLineWhileSlot_eq]
    cases multiLineWhile engine clock doc (tmpRegExp regExp) (synthesize doc regExp).1
        (synthesize doc regExp).2 fuel 0
        (engine (tmpRegExp regExp) (synthesize doc regExp).1 0) with
    | none => rfl
    | some r => rfl
  · rw [if_neg h0, if_neg h0]
    by_cases h1 : 0 < inStartLine ∧ inStartLine < self.m_lineStart.length
    · rw [if_pos h1, if_pos h1]
      simp only [multiLineWhileSlot_eq]
      cases multiLineWhile engine clock doc (tmpRegExp regExp) self.m_fullDoc
          self.m_lineStart fuel 0
          (engine (tmpRegExp regExp) self.m_fullDoc
            (lineStartAt self.m_lineStart inStartLine)) with
      | none => rfl
      | some r => rfl
    · rw [if_neg h1, if_neg h1]
      rfl

theorem searchOpenFileSlot_eq (slot : MatchFound → SlotCall) (engine : RegexEngine)
    (clock : StepClock) (fuel : Nat) (self : SearchOpenFiles) (doc : Document)
    (regExp : QRegularExpression) (startLine : Int) :
    searchOpenFileSlot slot engine clock fuel self doc regExp startLine =
      (searchOpenFile engine clock fuel self doc regExp startLine).map
        (fun r => (runSlots slot (matchesOf r.2.1) r.1, r.2.1, r.2.2)) := by
  have hprog : ∀ evs : List MatchFound,
      matchesOf ((if clock.statusElapsed = true then [Signal.searching doc.url] else []) ++
        evs.map Signal.matchFound) = evs := by
    intro evs
    rw [matchesOf_append, matchesOf_map_matchFound]
    split <;> rfl
  unfold searchOpenFileSlot searchOpenFile
  simp only
  by_cases hm : QString.contains regExp.pattern "\\n".toList = true
  · rw [if_pos hm, if_pos hm, searchMultiLineRegExpSlot_eq]
    cases searchMultiLineRegExp engine clock fuel self doc regExp startLine with
    | none => rfl
    | some r => simp only [Option.map_some', hprog]
  · rw [if_neg hm, if_neg hm]
    unfold searchSingleLineRegExpSlot searchSingleLineRegExp
    rw [singleLineForSlot_eq]
    cases singleLineFor engine clock fuel doc regExp (doc.lines - startLine).toNat 0 startLine with
    | none => rfl
    | some r => simp only [Option.map_some', hprog]

/-- C12, amended: if a slot calls `terminateSearch` at some `matchFound` of a step on a
running session, the matcher does not detect it: the step emits exactly the signals of the
same matcher call with no slot calling back, up to the end of the document or the next
budget expiry. When the step returns, `searching()` is false and `m_terminateSearch` is set,
but the timer has been started again; the step it schedules emits nothing and leaves
`m_nextFileIndex = -1`, `m_nextLine = -1` and no further step scheduled. -/
theorem terminate_in_slot_takes_effect_next_step (slot : MatchFound → SlotCall)
    (engine : RegexEngine) (clock : StepClock) (fuel : Nat) (self : SearchOpenFiles)
    (startLine : Int) (s1 : SearchOpenFiles) (signals : List Signal)
    (hc : self.m_cancelSearch = false) (h0 : 0 ≤ self.m_nextFileIndex)
    (hlt : self.m_nextFileIndex < self.m_docList.length)
    (hstep : doSearchNextFileSlot slot engine clock fuel self startLine = some (s1, signals))
    (hterm : ∃ ev ∈ matchesOf signals, slot ev = SlotCall.terminateSearch) :
    (∃ s0 line,
      searchOpenFile engine clock fuel self (docAt self.m_docList self.m_nextFileIndex)
        self.m_regExp startLine = some (s0, signals, line)) ∧
    s1.searching = false ∧ s1.m_terminateSearch = true ∧ s1.m_nextRunTimer = true ∧
    (∀ (clock2 : StepClock) (fuel2 : Nat),
      doSearchNextFileSlot slot engine clock2 fuel2 { s1 with m_nextRunTimer := false }
          s1.m_nextLine =
        some ({ s1 with
                m_nextRunTimer := false
                m_nextFileIndex := -1
                m_cancelSearch := true
                m_nextLine := -1 }, [])) := by
  have hg : ¬ (self.m_cancelSearch = true ∨
      (self.m_docList.length : Int) ≤ self.m_nextFileIndex) := by
    rw [hc]; simp; omega
  unfold doSearchNextFileSlot at hstep
  rw [if_neg hg, searchOpenFileSlot_eq] at hstep
  cases hso : searchOpenFile engine clock fuel self (docAt self.m_docList self.m_nextFileIndex)
      self.m_regExp startLine with
  | none => rw [hso] at hstep; exact absurd hstep (by simp)
  | some r =>
    obtain ⟨s0, sigs, line⟩ := r
    rw [hso] at hstep
    simp only [Option.map_some'] at hstep
    obtain ⟨hdocs, _, _, _, _, _, _, _⟩ := searchOpenFile_frame _ _ _ _ _ _ _ _ _ _ hso
    have key : (∃ ev ∈ matchesOf sigs, slot ev = SlotCall.terminateSearch) →
        runSlots slot (matchesOf sigs) s0 = terminateSearch s0 :=
      runSlots_of_terminate slot (matchesOf sigs) s0
    have hlen : ¬ ((-1 : Int) + 1 = (s0.m_docList.length : Int)) := by
      rw [hdocs]; omega
    have hnext : ∀ (s : SearchOpenFiles), s.m_cancelSearch = true →
        ∀ (clock2 : StepClock) (fuel2 : Nat) (l : Int),
        doSearchNextFileSlot slot engine clock2 fuel2 s l =
          some ({ s with m_nextFileIndex := -1, m_cancelSearch := true, m_nextLine := -1 },
            []) := by
      intro s hs clock2 fuel2 l
      simp [doSearchNextFileSlot, hs]
    by_cases hline : line = 0
    · rw [if_pos hline] at hstep
      by_cases hdone : (runSlots slot (matchesOf sigs) s0).m_nextFileIndex + 1 =
          ((runSlots slot (matchesOf sigs) s0).m_docList.length : Int)
      · rw [if_pos hdone] at hstep
        simp only [Option.some.injEq, Prod.mk.injEq] at hstep
        obtain ⟨_, hsig⟩ := hstep
        rw [← hsig, matchesOf_append] at hterm
        simp only [matchesOf, List.append_nil] at hterm
        rw [key hterm] at hdone
        exact absurd hdone hlen
      · rw [if_neg hdone] at hstep
        simp only [Option.some.injEq, Prod.mk.injEq] at hstep
        obtain ⟨hs1, hsig⟩ := hstep
        rw [← hsig] at hterm
        rw [key hterm] at hs1
        subst hs1 hsig
        exact ⟨⟨s0, line, rfl⟩, rfl, rfl, rfl, fun clock2 fuel2 => hnext _ rfl clock2 fuel2 _⟩
    · rw [if_neg hline] at hstep
      simp only [Option.some.injEq, Prod.mk.injEq] at hstep
      obtain ⟨hs1, hsig⟩ := hstep
      rw [← hsig] at hterm
      rw [key hterm] at hs1
      subst hs1 hsig
      exact ⟨⟨s0, line, rfl⟩, rfl, rfl, rfl, fun clock2 fuel2 => hnext _ rfl clock2 fuel2 _⟩

/-- C12, amended, at a concrete input: the lines `x`, `a`, `b`, `a`, `b`, the pattern `a\nb`,
a slot that calls `terminateSearch` at every match. -/
theorem terminate_in_slot_takes_effect_next_step_witness :
    ∃ s1 signals,
      doSearchNextFileSlot (fun _ => SlotCall.terminateSearch) refEngine StepClock.unbounded 3
        (startSearch [docXabab] ⟨"a\\nb".toList⟩ idleObject) 0 = some (s1, signals) ∧
      (matchesOf signals).map spanOf = [(1, 0, 2, 1), (3, 0, 4, 1)] ∧
      s1.searching = false ∧ s1.m_terminateSearch = true ∧ s1.m_nextRunTimer = true ∧
      ∀ (clock2 : StepClock) (fuel2 : Nat),
        doSearchNextFileSlot (fun _ => SlotCall.terminateSearch) refEngine clock2 fuel2
            { s1 with m_nextRunTimer := false } s1.m_nextLine =
          some ({ s1 with
                  m_nextRunTimer := false
                  m_nextFileIndex := -1
                  m_cancelSearch := true
                  m_nextLine := -1 }, []) := by
  cases h : doSearchNextFileSlot (fun _ => SlotCall.terminateSearch) refEngine
      StepClock.unbounded 3 (startSearch [docXabab] ⟨"a\\nb".toList⟩ idleObject) 0 with
  | none => exact absurd h (by decide)
  | some r =>
    obtain ⟨s1, signals⟩ := r
    have hm : (Option.map (fun r => (matchesOf r.2).map spanOf)
        (doSearchNextFileSlot (fun _ => SlotCall.terminateSearch) refEngine
          StepClock.unbounded 3 (startSearch [docXabab] ⟨"a\\nb".toList⟩ idleObject) 0)) =
        some [(1, 0, 2, 1), (3, 0, 4, 1)] := by decide
    rw [h] at hm
    simp only [Option.map_some', Option.some.injEq] at hm
    have hex : ∃ ev ∈ matchesOf signals,
        (fun _ => SlotCall.terminateSearch) ev = SlotCall.terminateSearch := by
      cases hms : matchesOf signals with
      | nil => rw [hms] at hm; simp at hm
      | cons ev rest => exact ⟨ev, List.mem_cons_self _ _, rfl⟩
    obtain ⟨_, ha, hb, hc2, hd⟩ :=
      terminate_in_slot_takes_effect_next_step (fun _ => SlotCall.terminateSearch) refEngine
        StepClock.unbounded 3 (startSearch [docXabab] ⟨"a\\nb".toList⟩ idleObject) 0 s1 signals
        (by decide) (by decide) (by decide) h hex
    exact ⟨s1, signals, rfl, hm, ha, hb, hc2, hd⟩

/-! ## The document index over all reachable states -/

theorem reachable_index (engine : RegexEngine) (init s : SearchOpenFiles)
    (hinit : init.m_nextFileIndex = -1) (hc : init.m_cancelSearch = true)
    (hr : Reachable engine init s) :
    (s.m_nextFileIndex = -1 ∧ s.m_cancelSearch = true) ∨
      (0 ≤ s.m_nextFileIndex ∧ s.m_nextFileIndex < s.m_docList.length) ∨
      (s.m_nextFileIndex = 0 ∧ s.m_docList = []) := by
  induction hr with
  | init => exact Or.inl ⟨hinit, hc⟩
  | startSearch s list regexp _ ih =>
    unfold startSearch
    by_cases hidx : s.m_nextFileIndex ≠ -1
    · rw [if_pos hidx]; exact ih
    · rw [if_neg hidx]
      cases list with
      | nil => exact Or.inr (Or.inr ⟨rfl, rfl⟩)
      | cons d ds =>
        refine Or.inr (Or.inl ⟨le_refl _, ?_⟩)
        simp only [List.length_cons]
        omega
  | step s s1 clock fuel startLine signals _ hstep ih =>
    by_cases hg : s.m_cancelSearch = true ∨ (s.m_docList.length : Int) ≤ s.m_nextFileIndex
    · unfold doSearchNextFile at hstep
      rw [if_pos hg] at hstep
      simp only [Option.some.injEq, Prod.mk.injEq] at hstep
      rw [← hstep.1]
      exact Or.inl ⟨rfl, rfl⟩
    · have hcf : s.m_cancelSearch = false := by
        cases hcs : s.m_cancelSearch with
        | true => exact absurd (Or.inl hcs) hg
        | false => rfl
      have hlt : s.m_nextFileIndex < s.m_docList.length := by
        by_contra hcon
        exact hg (Or.inr (by omega))
      have h0 : 0 ≤ s.m_nextFileIndex := by
        rcases ih with ⟨_, h2⟩ | ⟨h1, _⟩ | ⟨h1, _⟩
        · rw [hcf] at h2; cases h2
        · exact h1
        · omega
      obtain ⟨_, _, line, _, hdocs, hpause, hnext, hdone, _⟩ :=
        doSearchNextFile_running engine clock fuel s startLine s1 signals hcf hlt hstep
      by_cases hline : line = 0
      · by_cases hlast : s.m_nextFileIndex + 1 = s.m_docList.length
        · exact Or.inl ⟨(hdone hline hlast).2.1, (hdone hline hlast).1⟩
        · refine Or.inr (Or.inl ?_)
          rw [(hnext hline hlast).2.1, hdocs]
          omega
      · refine Or.inr (Or.inl ?_)
        rw [(hpause hline).2.1, hdocs]
        exact ⟨h0, hlt⟩
  | cancelSearch s _ ih =>
    rcases ih with ⟨h1, _⟩ | h | h
    · exact Or.inl ⟨h1, rfl⟩
    · exact Or.inr (Or.inl h)
    · exact Or.inr (Or.inr h)
  | terminateSearch s _ _ => exact Or.inl ⟨rfl, rfl⟩

/-- C13, as stated, fails: `startSearch` with the empty document list is accepted on an idle
object and leaves `m_nextFileIndex = 0` with no document in the list, which is neither `-1`
nor a valid index. -/
theorem empty_list_index_not_valid :
    Reachable refEngine idleObject (startSearch [] ⟨"a".toList⟩ idleObject) ∧
    idleObject.m_nextFileIndex = -1 ∧
    ¬ ((startSearch [] ⟨"a".toList⟩ idleObject).m_nextFileIndex = -1 ∨
      (0 ≤ (startSearch [] ⟨"a".toList⟩ idleObject).m_nextFileIndex ∧
        (startSearch [] ⟨"a".toList⟩ idleObject).m_nextFileIndex <
          ((startSearch [] ⟨"a".toList⟩ idleObject).m_docList.length : Int))) :=
  ⟨Reachable.startSearch idleObject [] ⟨"a".toList⟩ Reachable.init, by decide, by decide⟩

/-- C13, amended: in every state reachable from an idle state (`m_nextFileIndex = -1`, cancel
flag set) by any sequence of `startSearch` (with any document list), step, `cancelSearch`
and `terminateSearch`, `m_nextFileIndex` is `-1`, or a valid index into the stored document
list, or `0` with an empty stored list (a session started on the empty list, which the next
step ends by resetting the index to `-1`). -/
theorem index_invariant (engine : RegexEngine) (init s : SearchOpenFiles)
    (hinit : init.m_nextFileIndex = -1) (hc : init.m_cancelSearch = true)
    (hr : Reachable engine init s) :
    (s.m_nextFileIndex = -1 ∨
      (0 ≤ s.m_nextFileIndex ∧ s.m_nextFileIndex < s.m_docList.length) ∨
      (s.m_nextFileIndex = 0 ∧ s.m_docList = [])) ∧
    (s.m_nextFileIndex = 0 → s.m_docList = [] →
      ∀ (clock : StepClock) (fuel : Nat) (startLine : Int),
        ∃ s1, doSearchNextFile engine clock fuel s startLine = some (s1, []) ∧
          s1.m_nextFileIndex = -1) := by
  constructor
  · rcases reachable_index engine init s hinit hc hr with ⟨h, _⟩ | h | h
    · exact Or.inl h
    · exact Or.inr (Or.inl h)
    · exact Or.inr (Or.inr h)
  · intro h0 hnil clock fuel startLine
    have hg : s.m_cancelSearch = true ∨ (s.m_docList.length : Int) ≤ s.m_nextFileIndex := by
      right; rw [h0, hnil]; simp
    refine ⟨{ s with m_nextFileIndex := -1, m_cancelSearch := true, m_nextLine := -1 }, ?_, rfl⟩
    unfold doSearchNextFile
    rw [if_pos hg]

/-- C13, amended, at a concrete input: the state right after a session on two documents was
started on the idle object. -/
theorem index_invariant_witness :
    ((startSearch [docAbc, docAbab] ⟨"e".toList⟩ idleObject).m_nextFileIndex = -1 ∨
      (0 ≤ (startSearch [docAbc, docAbab] ⟨"e".toList⟩ idleObject).m_nextFileIndex ∧
        (startSearch [docAbc, docAbab] ⟨"e".toList⟩ idleObject).m_nextFileIndex <
          ((startSearch [docAbc, docAbab] ⟨"e".toList⟩ idleObject).m_docList.length : Int)) ∨
      ((startSearch [docAbc, docAbab] ⟨"e".toList⟩ idleObject).m_nextFileIndex = 0 ∧
        (startSearch [docAbc, docAbab] ⟨"e".toList⟩ idleObject).m_docList = [])) :=
  (index_invariant refEngine idleObject _ (by decide) (by decide)
    (Reachable.startSearch idleObject [docAbc, docAbab] ⟨"e".toList⟩ Reachable.init)).1

/-! ## The lookup never fails on a synthesized table -/

/-- C21: for every document and pattern, with the buffer and the offset table synthesized
by `searchMultiLineRegExp`, the linear lookup finds a line for every offset `s` with
`0 <= s <` buffer length: `startLine` is not left at `-1` and is a line of the document.
So for every non-empty match starting at such an offset the loop body does not take the
lookup-failure `break`: it emits the match and goes on to the budget check. -/
theorem lookup_finds_line (doc : Document) (regExp : QRegularExpression) (s : Int)
    (hs : 0 ≤ s) (hlt : s < (synthesize doc regExp).1.length) :
    findStartLine (synthesize doc regExp).2 s ≠ -1 ∧
    0 ≤ findStartLine (synthesize doc regExp).2 s ∧
    findStartLine (synthesize doc regExp).2 s < doc.lines ∧
    (∀ (engine : RegexEngine) (clock : StepClock) (fuel k : Nat) (m : QString), m ≠ [] →
      multiLineWhile engine clock doc (tmpRegExp regExp) (synthesize doc regExp).1
          (synthesize doc regExp).2 (fuel + 1) k ⟨s, m⟩ =
        if clock.expired k = true then
          some ([multiLineMatchFound doc (synthesize doc regExp).2
            (findStartLine (synthesize doc regExp).2 s) s m],
            findStartLine (synthesize doc regExp).2 s)
        else
          (multiLineWhile engine clock doc (tmpRegExp regExp) (synthesize doc regExp).1
              (synthesize doc regExp).2 fuel (k + 1)
              (engine (tmpRegExp regExp) (synthesize doc regExp).1 (s + m.length))).map
            (fun r => (multiLineMatchFound doc (synthesize doc regExp).2
              (findStartLine (synthesize doc regExp).2 s) s m :: r.1, r.2))) := by
  have hlen := synthesize_fullDoc_length_le doc regExp
  obtain ⟨j, hj, hjlt, _, _⟩ := findStartLine_synthesize doc regExp s hs (by omega)
  have hne1 : findStartLine (synthesize doc regExp).2 s ≠ -1 := by rw [hj]; omega
  refine ⟨hne1, by rw [hj]; omega, by rw [hj]; simp [Document.lines]; exact hjlt, ?_⟩
  intro engine clock fuel k m hm
  have hs1 : (⟨s, m⟩ : QRegularExpressionMatch).capturedStart ≠ -1 := by
    show s ≠ -1
    omega
  rw [multiLineWhile_succ engine clock doc _ _ _ fuel k ⟨s, m⟩ hs1 hm hne1]
  rfl

/-- C21 at a concrete input: the lines `abc`, `def`, `ghi`, the last offset of the buffer. -/
theorem lookup_finds_line_witness :
    (synthesize docAbc ⟨"c\\ndef\\ng".toList⟩).1.length = 11 ∧
    findStartLine (synthesize docAbc ⟨"c\\ndef\\ng".toList⟩).2 10 ≠ -1 ∧
    0 ≤ findStartLine (synthesize docAbc ⟨"c\\ndef\\ng".toList⟩).2 10 ∧
    findStartLine (synthesize docAbc ⟨"c\\ndef\\ng".toList⟩).2 10 < docAbc.lines :=
  ⟨by decide,
    (lookup_finds_line docAbc ⟨"c\\ndef\\ng".toList⟩ 10 (by decide) (by decide)).1,
    (lookup_finds_line docAbc ⟨"c\\ndef\\ng".toList⟩ 10 (by decide) (by decide)).2.1,
    (lookup_finds_line docAbc ⟨"c\\ndef\\ng".toList⟩ 10 (by decide) (by decide)).2.2.1⟩

/-! ## Newlines of the buffer and the offset table -/

theorem offsetOfLine_zero (text : List QString) : offsetOfLine text 0 = 0 := by
  simp [offsetOfLine]

theorem offsetOfLine_cons_succ (l : QString) (rest : List QString) (i : Nat) :
    offsetOfLine (l :: rest) (i + 1) = l.length + 1 + offsetOfLine rest i := by
  simp [offsetOfLine]

theorem offsetOfLine_mono (text : List QString) :
    ∀ a b : Nat, a ≤ b → offsetOfLine text a ≤ offsetOfLine text b := by
  induction text with
  | nil => intro a b _; simp [offsetOfLine]
  | cons l rest ih =>
    intro a b hab
    cases a with
    | zero => rw [offsetOfLine_zero]; exact Nat.zero_le _
    | succ a2 =>
      cases b with
      | zero => omega
      | succ b2 =>
        rw [offsetOfLine_cons_succ, offsetOfLine_cons_succ]
        have := ih a2 b2 (by omega)
        omega

theorem offsetOfLine_length (text : List QString) :
    offsetOfLine text text.length = (joinedLines text).length := by
  induction text with
  | nil => rfl
  | cons l rest ih =>
    rw [List.length_cons, offsetOfLine_cons_succ, ih, joinedLines_cons]
    simp
    omega

theorem joinedLines_take_cons_le (l : QString) (rest : List QString) (p : Nat)
    (hp : p ≤ l.length) : (joinedLines (l :: rest)).take p = l.take p := by
  rw [joinedLines_cons, List.take_append_of_le_length hp]

theorem joinedLines_take_cons_gt (l : QString) (rest : List QString) (q : Nat) :
    (joinedLines (l :: rest)).take (l.length + 1 + q) =
      l ++ '\n' :: (joinedLines rest).take q := by
  rw [joinedLines_cons]
  have e : l ++ '\n' :: joinedLines rest = (l ++ ['\n']) ++ joinedLines rest := by simp
  have e2 : l.length + 1 + q = (l ++ ['\n']).length + q := by simp
  rw [e, e2, List.take_append]
  simp

theorem newline_count_take (text : List QString) (hw : ∀ l ∈ text, '\n' ∉ l) :
    ∀ p : Nat, p ≤ (joinedLines text).length →
      List.count '\n' ((joinedLines text).take p) ≤ text.length ∧
      offsetOfLine text (List.count '\n' ((joinedLines text).take p)) ≤ p ∧
      '\n' ∉ ((joinedLines text).take p).drop
        (offsetOfLine text (List.count '\n' ((joinedLines text).take p))) ∧
      (List.count '\n' ((joinedLines text).take p) < text.length →
        p ≤ offsetOfLine text (List.count '\n' ((joinedLines text).take p)) +
          (text.getD (List.count '\n' ((joinedLines text).take p)) []).length) := by
  induction text with
  | nil =>
    intro p hp
    simp [joinedLines, offsetOfLine]
  | cons l rest ih =>
    intro p hp
    have hl : '\n' ∉ l := hw l (List.mem_cons_self _ _)
    have hrest : ∀ x ∈ rest, '\n' ∉ x := fun x hx => hw x (List.mem_cons_of_mem _ hx)
    by_cases hple : p ≤ l.length
    · have hnot : '\n' ∉ l.take p := fun h => hl (List.mem_of_mem_take h)
      have hc : List.count '\n' ((joinedLines (l :: rest)).take p) = 0 := by
        rw [joinedLines_take_cons_le l rest p hple]
        exact List.count_eq_zero.2 hnot
      rw [hc, offsetOfLine_zero]
      refine ⟨Nat.zero_le _, Nat.zero_le _, ?_, ?_⟩
      · rw [List.drop_zero, joinedLines_take_cons_le l rest p hple]
        exact hnot
      · intro _
        simp
        omega
    · have hlenJ : (joinedLines (l :: rest)).length = l.length + 1 + (joinedLines rest).length := by
        rw [joinedLines_cons]; simp; omega
      obtain ⟨q, hq⟩ : ∃ q, p = l.length + 1 + q := ⟨p - (l.length + 1), by omega⟩
      have hqle : q ≤ (joinedLines rest).length := by omega
      obtain ⟨h1, h2, h3, h4⟩ := ih hrest q hqle
      have hc : List.count '\n' ((joinedLines (l :: rest)).take p) =
          List.count '\n' ((joinedLines rest).take q) + 1 := by
        rw [hq, joinedLines_take_cons_gt, List.count_append, List.count_cons_self,
          List.count_eq_zero.2 hl]
        omega
      rw [hc, offsetOfLine_cons_succ]
      refine ⟨by simp; omega, by omega, ?_, ?_⟩
      · rw [hq, joinedLines_take_cons_gt]
        have e : l ++ '\n' :: (joinedLines rest).take q =
            (l ++ ['\n']) ++ (joinedLines rest).take q := by simp
        have e2 : l.length + 1 +
            offsetOfLine rest (List.count '\n' ((joinedLines rest).take q)) =
            (l ++ ['\n']).length +
              offsetOfLine rest (List.count '\n' ((joinedLines rest).take q)) := by simp
        rw [e, e2, List.drop_append]
        exact h3
      · intro hlt
        have := h4 (by simpa using hlt)
        simp only [List.getD_cons_succ]
        omega

theorem newline_count_at_offset (text : List QString) (hw : ∀ l ∈ text, '\n' ∉ l) :
    ∀ i : Nat, i ≤ text.length →
      List.count '\n' ((joinedLines text).take (offsetOfLine text i)) = i := by
  induction text with
  | nil =>
    intro i hi
    have : i = 0 := by simpa using hi
    subst this
    simp [joinedLines, offsetOfLine]
  | cons l rest ih =>
    intro i hi
    have hl : '\n' ∉ l := hw l (List.mem_cons_self _ _)
    have hrest : ∀ x ∈ rest, '\n' ∉ x := fun x hx => hw x (List.mem_cons_of_mem _ hx)
    cases i with
    | zero => simp [offsetOfLine]
    | succ i2 =>
      rw [offsetOfLine_cons_succ, joinedLines_take_cons_gt, List.count_append,
        List.count_cons_self, List.count_eq_zero.2 hl, ih hrest i2 (by simpa using hi)]
      omega

theorem newline_count_span (text : List QString) (s : Nat) (m : QString)
    (hsub : ((joinedLines text).drop s).take m.length = m) :
    List.count '\n' ((joinedLines text).take (s + m.length)) =
      List.count '\n' ((joinedLines text).take s) + List.count '\n' m := by
  rw [List.take_add, hsub, List.count_append]

theorem offset_after_last_newline (text : List QString) (hw : ∀ l ∈ text, '\n' ∉ l) (s : Nat)
    (m : QString) (hin : s + m.length ≤ (joinedLines text).length)
    (hsub : ((joinedLines text).drop s).take m.length = m) (k : Nat)
    (hk : m[k]? = some '\n') (hlast : ∀ i : Nat, k < i → m[i]? ≠ some '\n') :
    offsetOfLine text (List.count '\n' ((joinedLines text).take s) + List.count '\n' m) =
      s + k + 1 := by
  have hklt : k < m.length := by
    by_contra hcon
    rw [List.getElem?_eq_none (by omega)] at hk
    cases hk
  have htake : ((joinedLines text).drop s).take (k + 1) = m.take (k + 1) := by
    conv_rhs => rw [← hsub]
    rw [List.take_take, Nat.min_eq_left (by omega)]
  have hJ : (joinedLines text).take (s + (k + 1)) =
      (joinedLines text).take s ++ m.take (k + 1) := by
    rw [List.take_add, htake]
  have hnodrop : '\n' ∉ m.drop (k + 1) := by
    intro hmem
    obtain ⟨i, hi⟩ := List.mem_iff_getElem?.1 hmem
    rw [List.getElem?_drop] at hi
    exact hlast (k + 1 + i) (by omega) hi
  have hcount : List.count '\n' m = List.count '\n' (m.take (k + 1)) := by
    conv_lhs => rw [← List.take_append_drop (k + 1) m]
    rw [List.count_append, List.count_eq_zero.2 hnodrop]
    rfl
  have hkk : List.count '\n' ((joinedLines text).take (s + (k + 1))) =
      List.count '\n' ((joinedLines text).take s) + List.count '\n' m := by
    rw [hJ, List.count_append, hcount]
  obtain ⟨_, hle, hno, _⟩ := newline_count_take text hw (s + (k + 1)) (by omega)
  rw [hkk] at hle hno
  have hlens : ((joinedLines text).take s).length = s := by
    rw [List.length_take, Nat.min_eq_left (by omega)]
  by_contra hne
  have hlt : offsetOfLine text
      (List.count '\n' ((joinedLines text).take s) + List.count '\n' m) < s + k + 1 := by
    omega
  apply hno
  apply List.mem_iff_getElem?.2
  refine ⟨s + k - offsetOfLine text
      (List.count '\n' ((joinedLines text).take s) + List.count '\n' m), ?_⟩
  rw [List.getElem?_drop, hJ]
  have e : offsetOfLine text
        (List.count '\n' ((joinedLines text).take s) + List.count '\n' m) +
      (s + k - offsetOfLine text
        (List.count '\n' ((joinedLines text).take s) + List.count '\n' m)) = s + k := by
    omega
  rw [e, List.getElem?_append_right (by rw [hlens]; omega), hlens,
    show s + k - s = k by omega, List.getElem?_take_of_lt (by omega)]
  exact hk

/-! ## Emitted spans and buffer offsets -/

theorem synthesize_fullDoc_take (doc : Document) (regExp : QRegularExpression) :
    (synthesize doc regExp).1 =
      (joinedLines doc.text).take (synthesize doc regExp).1.length := by
  rw [synthesize_fullDoc]
  split
  · simp
  · rw [List.dropLast_eq_take, List.length_take, Nat.min_eq_left (by omega)]

theorem synthesize_fullDoc_sub (doc : Document) (regExp : QRegularExpression) (s n : Nat)
    (h : s + n ≤ (synthesize doc regExp).1.length) :
    ((synthesize doc regExp).1.drop s).take n = ((joinedLines doc.text).drop s).take n := by
  conv_lhs => rw [synthesize_fullDoc_take]
  rw [List.drop_take, List.take_take, Nat.min_eq_left (by omega)]

theorem lineStart_getD_offset (doc : Document) (regExp : QRegularExpression) (i : Nat)
    (hi : i ≤ doc.text.length) :
    (synthesize doc regExp).2.getD i 0 = (offsetOfLine doc.text i : Int) := by
  rw [synthesize_lineStart, lineStartsFrom_getD doc.text 0 i hi]
  simp

theorem lineStartAt_offset (doc : Document) (regExp : QRegularExpression) (i : Nat)
    (hi : i ≤ doc.text.length) :
    lineStartAt (synthesize doc regExp).2 (i : Int) = (offsetOfLine doc.text i : Int) := by
  rw [← lineStart_getD_offset doc regExp i hi]
  simp [lineStartAt]

theorem findStartLine_eq_count (doc : Document) (regExp : QRegularExpression)
    (hw : ∀ l ∈ doc.text, '\n' ∉ l) (s : Nat) (hlt : s < (joinedLines doc.text).length) :
    findStartLine (synthesize doc regExp).2 (s : Int) =
      (List.count '\n' ((joinedLines doc.text).take s) : Nat) := by
  obtain ⟨j, hj, hjlt, hle, hgt⟩ :=
    findStartLine_synthesize doc regExp (s : Int) (by omega) (by exact_mod_cast hlt)
  rw [lineStart_getD_offset doc regExp j (by omega)] at hle
  rw [lineStart_getD_offset doc regExp (j + 1) (by omega)] at hgt
  have hle2 : offsetOfLine doc.text j ≤ s := by exact_mod_cast hle
  have hgt2 : s < offsetOfLine doc.text (j + 1) := by exact_mod_cast hgt
  obtain ⟨_, hk2, _, _⟩ := newline_count_take doc.text hw s (by omega)
  have hkj : List.count '\n' ((joinedLines doc.text).take s) ≤ j := by
    by_contra hcon
    have := offsetOfLine_mono doc.text (j + 1)
      (List.count '\n' ((joinedLines doc.text).take s)) (by omega)
    omega
  have hjk : j ≤ List.count '\n' ((joinedLines doc.text).take s) := by
    have hB := newline_count_at_offset doc.text hw j (by omega)
    have e : s = offsetOfLine doc.text j + (s - offsetOfLine doc.text j) := by omega
    rw [e, List.take_add, List.count_append, hB]
    omega
  rw [hj]
  have : j = List.count '\n' ((joinedLines doc.text).take s) := by omega
  rw [this]

theorem multiLineWhile_head (engine : RegexEngine) (clock : StepClock) (doc : Document)
    (regExp : QRegularExpression) (fullDoc : QString) (lineStart : List Int) (fuel k : Nat)
    (m : QRegularExpressionMatch) (evs : List MatchFound) (ret : Int)
    (hs : m.capturedStart ≠ -1) (he : m.captured ≠ [])
    (hl : findStartLine lineStart m.capturedStart ≠ -1)
    (h : multiLineWhile engine clock doc regExp fullDoc lineStart fuel k m = some (evs, ret)) :
    evs.head? = some (multiLineMatchFound doc lineStart
      (findStartLine lineStart m.capturedStart) m.capturedStart m.captured) := by
  cases fuel with
  | zero =>
    rw [multiLineWhile_zero engine clock doc regExp fullDoc lineStart k m hs he hl] at h
    exact absurd h (by simp)
  | succ f =>
    rw [multiLineWhile_succ engine clock doc regExp fullDoc lineStart f k m hs he hl] at h
    split at h
    · simp only [Option.some.injEq, Prod.mk.injEq] at h
      rw [← h.1]; rfl
    · cases hrest : multiLineWhile engine clock doc regExp fullDoc lineStart f (k + 1)
          (engine regExp fullDoc (m.capturedStart + m.capturedLength)) with
      | none => rw [hrest] at h; exact absurd h (by simp)
      | some r =>
        rw [hrest] at h
        simp only [Option.map_some', Option.some.injEq, Prod.mk.injEq] at h
        rw [← h.1]; rfl

/-- The facts about the span of a match `m` at offset `s` of the synthesized buffer that the
claims on spans share: the start line is the number of newlines before `s`, the end line the
number of newlines before the end offset, both are entries of the offset table, and the
columns are the distances from the table entries. -/
theorem span_facts (doc : Document) (regExp : QRegularExpression) (s : Nat) (m : QString)
    (hw : ∀ l ∈ doc.text, '\n' ∉ l) (hm : m ≠ [])
    (hin : s + m.length ≤ (synthesize doc regExp).1.length)
    (hsub : ((synthesize doc regExp).1.drop s).take m.length = m) :
    findStartLine (synthesize doc regExp).2 (s : Int) =
        (List.count '\n' ((joinedLines doc.text).take s) : Nat) ∧
      (multiLineMatchFound doc (synthesize doc regExp).2
          (findStartLine (synthesize doc regExp).2 (s : Int)) (s : Int) m).endLine =
        (List.count '\n' ((joinedLines doc.text).take (s + m.length)) : Nat) ∧
      ((offsetOfLine doc.text (List.count '\n' ((joinedLines doc.text).take s)) : Nat) : Int) +
          (multiLineMatchFound doc (synthesize doc regExp).2
            (findStartLine (synthesize doc regExp).2 (s : Int)) (s : Int) m).startColumn =
        s ∧
      ((offsetOfLine doc.text
            (List.count '\n' ((joinedLines doc.text).take (s + m.length))) : Nat) : Int) +
          (multiLineMatchFound doc (synthesize doc regExp).2
            (findStartLine (synthesize doc regExp).2 (s : Int)) (s : Int) m).endColumn =
        s + m.length := by
  have hlenJ := synthesize_fullDoc_length_le doc regExp
  have hmpos : 0 < m.length := List.length_pos.2 hm
  have hsubJ : ((joinedLines doc.text).drop s).take m.length = m := by
    rw [← synthesize_fullDoc_sub doc regExp s m.length hin]; exact hsub
  have hfind := findStartLine_eq_count doc regExp hw s (by omega)
  have hspan := newline_count_span doc.text s m hsubJ
  obtain ⟨hjn, _, _, _⟩ := newline_count_take doc.text hw s (by omega)
  have hstartAt : lineStartAt (synthesize doc regExp).2
      (findStartLine (synthesize doc regExp).2 (s : Int)) =
      (offsetOfLine doc.text (List.count '\n' ((joinedLines doc.text).take s)) : Nat) := by
    rw [hfind]; exact lineStartAt_offset doc regExp _ hjn
  refine ⟨hfind, ?_, ?_, ?_⟩
  · simp only [multiLineMatchFound, QString.count]
    rw [hfind, hspan]
    push_cast
    rfl
  · simp only [multiLineMatchFound]
    rw [hstartAt]
    omega
  · by_cases hmem : '\n' ∈ m
    · obtain ⟨k, hklt, hval, hget, hlast⟩ := (lastIndexOfGo_spec '\n' m 0 (-1)).2 hmem
      have hk : QString.lastIndexOf m '\n' = k := by rw [QString.lastIndexOf, hval]; simp
      have hk1 : ¬ ((k : Int) = -1) := by omega
      have hoff := offset_after_last_newline doc.text hw s m (by omega) hsubJ k hget hlast
      simp only [multiLineMatchFound, hk, if_neg hk1]
      rw [hspan, hoff]
      push_cast
      omega
    · have hk : QString.lastIndexOf m '\n' = -1 := (lastIndexOfGo_spec '\n' m 0 (-1)).1 hmem
      have hc0 : List.count '\n' m = 0 := List.count_eq_zero.2 hmem
      simp only [multiLineMatchFound, hk, if_true]
      rw [hstartAt, hspan, hc0, Nat.add_zero]
      omega

/-- C22: for every document (whose lines, as lines, contain no newline character), every
pattern and every non-empty match occupying the offsets `[s, s + |m|)` of the synthesized
buffer (`m` being the buffer text there), the span emitted by `searchMultiLineRegExp` maps
back to these offsets through the offset table:
`m_lineStart[start_line] + start_column = s` and
`m_lineStart[end_line] + end_column = s + |m|`, `end_line` being an index of the table; the
span is the first signal of the loop iteration entered with that match. -/
theorem span_maps_back (doc : Document) (regExp : QRegularExpression) (s : Int) (m : QString)
    (hw : ∀ l ∈ doc.text, '\n' ∉ l) (hm : m ≠ []) (hs : 0 ≤ s)
    (hin : s + m.length ≤ (synthesize doc regExp).1.length)
    (hsub : ((synthesize doc regExp).1.drop s.toNat).take m.length = m) :
    lineStartAt (synthesize doc regExp).2
        (multiLineMatchFound doc (synthesize doc regExp).2
          (findStartLine (synthesize doc regExp).2 s) s m).startLine +
      (multiLineMatchFound doc (synthesize doc regExp).2
        (findStartLine (synthesize doc regExp).2 s) s m).startColumn = s ∧
    lineStartAt (synthesize doc regExp).2
        (multiLineMatchFound doc (synthesize doc regExp).2
          (findStartLine (synthesize doc regExp).2 s) s m).endLine +
      (multiLineMatchFound doc (synthesize doc regExp).2
        (findStartLine (synthesize doc regExp).2 s) s m).endColumn = s + m.length ∧
    0 ≤ (multiLineMatchFound doc (synthesize doc regExp).2
      (findStartLine (synthesize doc regExp).2 s) s m).endLine ∧
    (multiLineMatchFound doc (synthesize doc regExp).2
      (findStartLine (synthesize doc regExp).2 s) s m).endLine <
        (synthesize doc regExp).2.length ∧
    (∀ (engine : RegexEngine) (clock : StepClock) (fuel k : Nat) (evs : List MatchFound)
        (ret : Int),
      multiLineWhile engine clock doc (tmpRegExp regExp) (synthesize doc regExp).1
          (synthesize doc regExp).2 fuel k ⟨s, m⟩ = some (evs, ret) →
        evs.head? = some (multiLineMatchFound doc (synthesize doc regExp).2
          (findStartLine (synthesize doc regExp).2 s) s m)) := by
  obtain ⟨sN, rfl⟩ := Int.eq_ofNat_of_zero_le hs
  have hin2 : sN + m.length ≤ (synthesize doc regExp).1.length := by exact_mod_cast hin
  have hsub2 : ((synthesize doc regExp).1.drop sN).take m.length = m := by
    simpa using hsub
  have hlenJ := synthesize_fullDoc_length_le doc regExp
  have hmpos : 0 < m.length := List.length_pos.2 hm
  obtain ⟨hfind, hend, hsc, hec⟩ := span_facts doc regExp sN m hw hm hin2 hsub2
  obtain ⟨hjn, _, _, _⟩ := newline_count_take doc.text hw sN (by omega)
  obtain ⟨hkn, _, _, _⟩ := newline_count_take doc.text hw (sN + m.length) (by omega)
  have hstart : (multiLineMatchFound doc (synthesize doc regExp).2
      (findStartLine (synthesize doc regExp).2 (sN : Int)) (sN : Int) m).startLine =
      (List.count '\n' ((joinedLines doc.text).take sN) : Nat) := hfind
  refine ⟨?_, ?_, ?_, ?_, ?_⟩
  · rw [hstart, lineStartAt_offset doc regExp _ hjn]
    exact hsc
  · rw [hend, lineStartAt_offset doc regExp _ hkn]
    exact hec
  · rw [hend]; omega
  · rw [hend, synthesize_lineStart]
    simp only [List.length_cons, lineStartsFrom_length]
    omega
  · intro engine clock fuel k evs ret h
    have hs1 : (⟨(sN : Int), m⟩ : QRegularExpressionMatch).capturedStart ≠ -1 := by
      show (sN : Int) ≠ -1
      omega
    have hl : findStartLine (synthesize doc regExp).2
        (⟨(sN : Int), m⟩ : QRegularExpressionMatch).capturedStart ≠ -1 := by
      show findStartLine (synthesize doc regExp).2 (sN : Int) ≠ -1
      rw [hfind]; omega
    exact multiLineWhile_head engine clock doc _ _ _ fuel k ⟨(sN : Int), m⟩ evs ret hs1 hm hl h

/-- C22 at a concrete input: the lines `abc`, `def`, `ghi`, the match `c\ndef\ng` at
offsets 2 to 9; the emitted span is `(0, 2, 2, 1)`, and `0 + 2 = 2`, `8 + 1 = 9`. -/
theorem span_maps_back_witness :
    spanOf (multiLineMatchFound docAbc (synthesize docAbc ⟨"c\\ndef\\ng".toList⟩).2
        (findStartLine (synthesize docAbc ⟨"c\\ndef\\ng".toList⟩).2 2) 2
        "c\ndef\ng".toList) = (0, 2, 2, 1) ∧
    lineStartAt (synthesize docAbc ⟨"c\\ndef\\ng".toList⟩).2 2 = 8 ∧
    lineStartAt (synthesize docAbc ⟨"c\\ndef\\ng".toList⟩).2
        (multiLineMatchFound docAbc (synthesize docAbc ⟨"c\\ndef\\ng".toList⟩).2
          (findStartLine (synthesize docAbc ⟨"c\\ndef\\ng".toList⟩).2 2) 2
          "c\ndef\ng".toList).endLine +
      (multiLineMatchFound docAbc (synthesize docAbc ⟨"c\\ndef\\ng".toList⟩).2
        (findStartLine (synthesize docAbc ⟨"c\\ndef\\ng".toList⟩).2 2) 2
        "c\ndef\ng".toList).endColumn = 2 + ("c\ndef\ng".toList.length : Int) :=
  ⟨by decide, by decide,
    (span_maps_back docAbc ⟨"c\\ndef\\ng".toList⟩ 2 "c\ndef\ng".toList
      (by decide) (by decide) (by decide) (by decide) (by decide)).2.1⟩

theorem document_line_natCast (doc : Document) (i : Nat) :
    doc.line (i : Int) = doc.text.getD i [] := by
  unfold Document.line
  rw [if_pos (Int.natCast_nonneg i), Int.toNat_natCast]

theorem span_in_document (doc : Document) (regExp : QRegularExpression) (s : Int)
    (m : QString) (hw : ∀ l ∈ doc.text, '\n' ∉ l) (hm : m ≠ []) (hs : 0 ≤ s)
    (hin : s + m.length ≤ (synthesize doc regExp).1.length)
    (hsub : ((synthesize doc regExp).1.drop s.toNat).take m.length = m)
    (hend : QString.endsWith regExp.pattern '$' = false ∨
      s + m.length < (synthesize doc regExp).1.length) :
    0 ≤ (multiLineMatchFound doc (synthesize doc regExp).2
        (findStartLine (synthesize doc regExp).2 s) s m).startLine ∧
    (multiLineMatchFound doc (synthesize doc regExp).2
        (findStartLine (synthesize doc regExp).2 s) s m).startLine ≤
      (multiLineMatchFound doc (synthesize doc regExp).2
        (findStartLine (synthesize doc regExp).2 s) s m).endLine ∧
    (multiLineMatchFound doc (synthesize doc regExp).2
        (findStartLine (synthesize doc regExp).2 s) s m).endLine < doc.lines ∧
    0 ≤ (multiLineMatchFound doc (synthesize doc regExp).2
        (findStartLine (synthesize doc regExp).2 s) s m).startColumn ∧
    (multiLineMatchFound doc (synthesize doc regExp).2
        (findStartLine (synthesize doc regExp).2 s) s m).startColumn ≤
      (doc.line (multiLineMatchFound doc (synthesize doc regExp).2
        (findStartLine (synthesize doc regExp).2 s) s m).startLine).length ∧
    0 ≤ (multiLineMatchFound doc (synthesize doc regExp).2
        (findStartLine (synthesize doc regExp).2 s) s m).endColumn ∧
    (multiLineMatchFound doc (synthesize doc regExp).2
        (findStartLine (synthesize doc regExp).2 s) s m).endColumn ≤
      (doc.line (multiLineMatchFound doc (synthesize doc regExp).2
        (findStartLine (synthesize doc regExp).2 s) s m).endLine).length := by
  obtain ⟨sN, rfl⟩ := Int.eq_ofNat_of_zero_le hs
  have hin2 : sN + m.length ≤ (synthesize doc regExp).1.length := by exact_mod_cast hin
  have hsub2 : ((synthesize doc regExp).1.drop sN).take m.length = m := by
    simpa using hsub
  have hlenJ := synthesize_fullDoc_length_le doc regExp
  have hmpos : 0 < m.length := List.length_pos.2 hm
  have he : sN + m.length < (joinedLines doc.text).length := by
    rcases hend with h | h
    · have hb := synthesize_fullDoc doc regExp
      rw [if_neg (by rw [h]; decide)] at hb
      have hl : (synthesize doc regExp).1.length = (joinedLines doc.text).length - 1 := by
        rw [hb, List.length_dropLast]
      omega
    · have h2 : sN + m.length < (synthesize doc regExp).1.length := by exact_mod_cast h
      omega
  obtain ⟨hfind, hendL, hsc, hec⟩ := span_facts doc regExp sN m hw hm hin2 hsub2
  obtain ⟨hjn, hoj, _, hjl⟩ := newline_count_take doc.text hw sN (by omega)
  obtain ⟨hkn, hok, _, hkl⟩ := newline_count_take doc.text hw (sN + m.length) (by omega)
  have hsubJ : ((joinedLines doc.text).drop sN).take m.length = m := by
    rw [← synthesize_fullDoc_sub doc regExp sN m.length hin2]; exact hsub2
  have hspan := newline_count_span doc.text sN m hsubJ
  have hstart : (multiLineMatchFound doc (synthesize doc regExp).2
      (findStartLine (synthesize doc regExp).2 (sN : Int)) (sN : Int) m).startLine =
      (List.count '\n' ((joinedLines doc.text).take sN) : Nat) := hfind
  have hklt : List.count '\n' ((joinedLines doc.text).take (sN + m.length)) <
      doc.text.length := by
    rcases Nat.lt_or_ge (List.count '\n' ((joinedLines doc.text).take (sN + m.length)))
      doc.text.length with h | h
    · exact h
    · have heq : List.count '\n' ((joinedLines doc.text).take (sN + m.length)) =
          doc.text.length := by omega
      rw [heq, offsetOfLine_length] at hok
      omega
  have hjlt : List.count '\n' ((joinedLines doc.text).take sN) < doc.text.length := by
    omega
  have hjl2 := hjl hjlt
  have hkl2 := hkl hklt
  rw [hstart, hendL, document_line_natCast, document_line_natCast]
  unfold Document.lines
  refine ⟨?_, ?_, ?_, ?_, ?_, ?_, ?_⟩ <;> omega

/-- C23: the emitted match does not always refer to existing lines. The document with the
two lines `x`, `a` and the pattern `a\n|b$`: the pattern ends with `$`, so the buffer keeps
its last newline (`x\na\n`, table `[0, 2, 4]`) and the pattern is run as `a\n|b(?=\n)`; the
match `a\n` at offset 2 contains the last newline and is emitted with the span
`(1, 0, 2, 0)`, whose `end_line` is 2, the number of lines. What holds for every document
(whose lines contain no newline character) and every non-empty match `m` at the offsets
`[s, s + |m|)` of the buffer: if the pattern does not end with `$`, or the match ends
before the last character of the buffer, then `0 ≤ start_line ≤ end_line < n`,
`0 ≤ start_column ≤ length(l_start_line)` and `0 ≤ end_column ≤ length(l_end_line)`. -/
theorem last_newline_match_ends_past_document :
    (docXa.lines = 2 ∧
      QString.endsWith ("a\\n|b$".toList) '$' = true ∧
      tmpRegExp ⟨"a\\n|b$".toList⟩ = ⟨"a\\n|b(?=\\n)".toList⟩ ∧
      (synthesize docXa ⟨"a\\n|b$".toList⟩).1 = "x\na\n".toList ∧
      (synthesize docXa ⟨"a\\n|b$".toList⟩).2 = [0, 2, 4] ∧
      altEngine (tmpRegExp ⟨"a\\n|b$".toList⟩) (synthesize docXa ⟨"a\\n|b$".toList⟩).1 0 =
        ⟨2, "a\n".toList⟩ ∧
      (searchMultiLineRegExp altEngine StepClock.unbounded 2 idleObject docXa
          ⟨"a\\n|b$".toList⟩ 0).map (fun r => r.2.1.map spanOf) = some [(1, 0, 2, 0)] ∧
      (searchMultiLineRegExp altEngine StepClock.unbounded 2 idleObject docXa
          ⟨"a\\n|b$".toList⟩ 0).map (fun r => r.2.2) = some 0) ∧
    (∀ (doc : Document) (regExp : QRegularExpression) (s : Int) (m : QString),
      (∀ l ∈ doc.text, '\n' ∉ l) → m ≠ [] → 0 ≤ s →
      s + m.length ≤ (synthesize doc regExp).1.length →
      ((synthesize doc regExp).1.drop s.toNat).take m.length = m →
      (QString.endsWith regExp.pattern '$' = false ∨
        s + m.length < (synthesize doc regExp).1.length) →
      0 ≤ (multiLineMatchFound doc (synthesize doc regExp).2
          (findStartLine (synthesize doc regExp).2 s) s m).startLine ∧
      (multiLineMatchFound doc (synthesize doc regExp).2
          (findStartLine (synthesize doc regExp).2 s) s m).startLine ≤
        (multiLineMatchFound doc (synthesize doc regExp).2
          (findStartLine (synthesize doc regExp).2 s) s m).endLine ∧
      (multiLineMatchFound doc (synthesize doc regExp).2
          (findStartLine (synthesize doc regExp).2 s) s m).endLine < doc.lines ∧
      0 ≤ (multiLineMatchFound doc (synthesize doc regExp).2
          (findStartLine (synthesize doc regExp).2 s) s m).startColumn ∧
      (multiLineMatchFound doc (synthesize doc regExp).2
          (findStartLine (synthesize doc regExp).2 s) s m).startColumn ≤
        (doc.line (multiLineMatchFound doc (synthesize doc regExp).2
          (findStartLine (synthesize doc regExp).2 s) s m).startLine).length ∧
      0 ≤ (multiLineMatchFound doc (synthesize doc regExp).2
          (findStartLine (synthesize doc regExp).2 s) s m).endColumn ∧
      (multiLineMatchFound doc (synthesize doc regExp).2
          (findStartLine (synthesize doc regExp).2 s) s m).endColumn ≤
        (doc.line (multiLineMatchFound doc (synthesize doc regExp).2
          (findStartLine (synthesize doc regExp).2 s) s m).endLine).length) := by
  refine ⟨?_, ?_⟩
  · refine ⟨?_, ?_, ?_, ?_, ?_, ?_, ?_, ?_⟩ <;> decide
  · intro doc regExp s m hw hm hs hin hsub hend
    exact span_in_document doc regExp s m hw hm hs hin hsub hend

/-! ## The budget checks: the matcher returns -/

theorem findFrom_inside (atoms : List Atom) :
    ∀ (s : QString) (pos : Nat), (findFrom atoms pos s).capturedStart ≠ -1 →
      (pos : Int) ≤ (findFrom atoms pos s).capturedStart ∧
      (findFrom atoms pos s).capturedStart + (findFrom atoms pos s).captured.length ≤
        (pos : Int) + s.length := by
  intro s
  induction s with
  | nil =>
    intro pos h
    unfold findFrom at h ⊢
    cases hm : matchHere atoms [] with
    | none => rw [hm] at h; exact absurd rfl h
    | some l => simp
  | cons c s ih =>
    intro pos h
    unfold findFrom at h ⊢
    cases hm : matchHere atoms (c :: s) with
    | none =>
      rw [hm] at h
      simp only at h ⊢
      obtain ⟨h1, h2⟩ := ih (pos + 1) h
      simp only [List.length_cons]
      push_cast at h1 h2 ⊢
      omega
    | some l =>
      simp only
      have hl : ((c :: s).take l).length ≤ (c :: s).length := by
        rw [List.length_take]; exact Nat.min_le_right _ _
      constructor
      · omega
      · have : (((c :: s).take l).length : Int) ≤ ((c :: s).length : Int) := by
          exact_mod_cast hl
        omega

theorem refEngine_inside (regExp : QRegularExpression) (subject : QString) (o : Int)
    (h0 : 0 ≤ o) (h1 : o ≤ subject.length)
    (hs : (refEngine regExp subject o).capturedStart ≠ -1) :
    o ≤ (refEngine regExp subject o).capturedStart ∧
      (refEngine regExp subject o).capturedStart +
        (refEngine regExp subject o).captured.length ≤ subject.length := by
  unfold refEngine at hs ⊢
  rw [if_neg (by omega)] at hs ⊢
  obtain ⟨h2, h3⟩ := findFrom_inside (parsePattern regExp.pattern)
    (subject.drop o.toNat) o.toNat hs
  rw [List.length_drop] at h3
  have hto : ((o.toNat : Nat) : Int) = o := Int.toNat_of_nonneg h0
  have hle : o.toNat ≤ subject.length := by omega
  constructor
  · omega
  · have : ((subject.length - o.toNat : Nat) : Int) = (subject.length : Int) - o.toNat := by
      omega
    omega

theorem document_line_length_le (doc : Document) (fuel : Nat)
    (hfuel : ∀ l ∈ doc.text, l.length ≤ fuel) (line : Int) :
    (doc.line line).length ≤ fuel := by
  unfold Document.line
  split
  · rw [List.getD_eq_getElem?_getD]
    cases hg : doc.text[line.toNat]? with
    | none => simp
    | some l => simpa using hfuel l (List.getElem?_mem hg)
  · simp

theorem singleLineFor_returns (engine : RegexEngine) (clock : StepClock) (fuel : Nat)
    (doc : Document) (regExp : QRegularExpression)
    (hin : ∀ (line o : Int), 0 ≤ o → o ≤ (doc.line line).length →
      (engine regExp (doc.line line) o).capturedStart ≠ -1 →
        o ≤ (engine regExp (doc.line line) o).capturedStart ∧
        (engine regExp (doc.line line) o).capturedStart +
          (engine regExp (doc.line line) o).captured.length ≤ (doc.line line).length)
    (hfuel : ∀ l ∈ doc.text, l.length ≤ fuel) :
    ∀ (remaining k : Nat) (line : Int),
      ∃ r, singleLineFor engine clock fuel doc regExp remaining k line = some r := by
  intro remaining
  induction remaining with
  | zero => intro k line; exact ⟨_, rfl⟩
  | succ remaining ih =>
    intro k line
    unfold singleLineFor
    split
    · exact ⟨_, rfl⟩
    · have hlen := document_line_length_le doc fuel hfuel line
      obtain ⟨evs, hev, _⟩ := singleLineWhile_bound engine doc regExp line (hin line) fuel 0
        (le_refl 0) (by omega) (by omega)
      obtain ⟨r, hr⟩ := ih (k + 1) (line + 1)
      rw [hev, hr]
      exact ⟨_, rfl⟩

theorem multiLineWhile_returns_at_check (engine : RegexEngine) (clock : StepClock)
    (doc : Document) (regExp : QRegularExpression) (fullDoc : QString) (lineStart : List Int)
    (k : Nat) (hexp : clock.expired k = true) :
    ∀ (fuel c : Nat) (m : QRegularExpressionMatch), c ≤ k → k + 1 ≤ fuel + c →
      ∃ r, multiLineWhile engine clock doc regExp fullDoc lineStart fuel c m = some r := by
  intro fuel
  induction fuel with
  | zero => intro c m h1 h2; omega
  | succ fuel ih =>
    intro c m h1 h2
    by_cases hc : m.capturedStart ≠ -1 ∧ ¬ m.captured.isEmpty = true
    · by_cases hl : findStartLine lineStart m.capturedStart = -1
      · rw [multiLineWhile, if_pos hc, if_pos hl]
        exact ⟨_, rfl⟩
      · have hne : m.captured ≠ [] := by simpa using hc.2
        rw [multiLineWhile_succ engine clock doc regExp fullDoc lineStart fuel c m hc.1 hne hl]
        by_cases he : clock.expired c = true
        · rw [if_pos he]
          exact ⟨_, rfl⟩
        · rw [if_neg he]
          have hck : c + 1 ≤ k := by
            rcases Nat.eq_or_lt_of_le h1 with e | e
            · rw [e] at he; exact absurd hexp he
            · omega
          obtain ⟨r, hr⟩ := ih (c + 1)
            (engine regExp fullDoc (m.capturedStart + m.capturedLength)) hck (by omega)
          rw [hr]
          exact ⟨_, rfl⟩
    · rw [multiLineWhile, if_neg hc]
      exact ⟨_, rfl⟩

theorem searchMultiLineRegExp_returns_at_check (engine : RegexEngine) (clock : StepClock)
    (fuel : Nat) (self : SearchOpenFiles) (doc : Document) (regExp : QRegularExpression)
    (inStartLine : Int) (k : Nat) (hexp : clock.expired k = true) (hfuel : k + 1 ≤ fuel) :
    ∃ r, searchMultiLineRegExp engine clock fuel self doc regExp inStartLine = some r := by
  unfold searchMultiLineRegExp
  split
  · obtain ⟨r, hr⟩ := multiLineWhile_returns_at_check engine clock doc (tmpRegExp regExp)
      (synthesize doc regExp).1 (synthesize doc regExp).2 k hexp fuel 0
      (engine (tmpRegExp regExp) (synthesize doc regExp).1 0) (by omega) (by omega)
    simp only
    rw [hr]
    exact ⟨_, rfl⟩
  · split
    · obtain ⟨r, hr⟩ := multiLineWhile_returns_at_check engine clock doc (tmpRegExp regExp)
        self.m_fullDoc self.m_lineStart k hexp fuel 0
        (engine (tmpRegExp regExp) self.m_fullDoc (lineStartAt self.m_lineStart inStartLine))
        (by omega) (by omega)
      rw [hr]
      exact ⟨_, rfl⟩
    · exact ⟨_, rfl⟩

/-- C15, as stated, fails: the work of a step before its first budget check is not one line
or one match, so its time is not bounded by the budget plus such a unit. On the lines `x`,
`a`, `b`, `a`, `b` with the pattern `a\nb` and a clock on which every check fires, the
multi-line matcher entered at line 0 appends all five lines to its buffer (`m_lineStart`
gets its six entries), searches the buffer and emits a match before it reads the clock for
the first time. With the pattern `q\nq`, which matches nowhere, it never reads the clock:
for every clock the call builds the whole buffer, searches it and returns 0, and the step
ends the session with `searchDone`. On the same clock the single-line matcher returns
before it scans a line. -/
theorem multiLine_first_check_after_whole_buffer :
    (searchMultiLineRegExp refEngine StepClock.exhausted 3 idleObject docXabab
        ⟨"a\\nb".toList⟩ 0).map (fun r => r.1.m_lineStart) = some [0, 2, 4, 6, 8, 10] ∧
    (searchMultiLineRegExp refEngine StepClock.exhausted 3 idleObject docXabab
        ⟨"a\\nb".toList⟩ 0).map (fun r => r.1.m_fullDoc) = some "x\na\nb\na\nb".toList ∧
    (searchMultiLineRegExp refEngine StepClock.exhausted 3 idleObject docXabab
        ⟨"a\\nb".toList⟩ 0).map (fun r => r.2.1.map spanOf) = some [(1, 0, 2, 1)] ∧
    (searchMultiLineRegExp refEngine StepClock.exhausted 3 idleObject docXabab
        ⟨"a\\nb".toList⟩ 0).map (fun r => r.2.2) = some 1 ∧
    (∀ clock : StepClock,
      (searchMultiLineRegExp refEngine clock 0 idleObject docXabab ⟨"q\\nq".toList⟩ 0).map
        (fun r => (r.1.m_lineStart, r.1.m_fullDoc, r.2.1, r.2.2)) =
        some ([0, 2, 4, 6, 8, 10], "x\na\nb\na\nb".toList, [], 0)) ∧
    (doSearchNextFile refEngine StepClock.exhausted 0
        (startSearch [docXabab] ⟨"q\\nq".toList⟩ idleObject) 0).map (fun r => r.2) =
      some [Signal.searchDone] ∧
    searchSingleLineRegExp refEngine StepClock.exhausted 1 docXabab ⟨"a".toList⟩ 1 =
      some ([], 1) := by
  refine ⟨?_, ?_, ?_, ?_, ?_, ?_, ?_⟩
  · decide
  · decide
  · decide
  · decide
  · intro clock; rfl
  · decide
  · decide

/-- C15, amended: as soon as a budget check observes an elapsed time above 100 ms the
matcher returns without emitting any further match. For a clock whose check numbered `k`
(from 0) fires, an engine whose reported match, for a requested offset inside a line, lies
inside the line at or after that offset, and fuel for the loop bodies that can run
(`k + 1` and the length of every line): the single-line matcher, which checks once per
line before scanning it, returns, and what it has emitted are the matches of at most `k`
lines; the multi-line matcher, which checks once per match after emitting it and searching
for the next one, returns, and it has emitted at most `k + 1` matches. When the multi-line
matcher was entered at line 0 it has, before its first check, built the buffer from all
the lines of the document: `m_lineStart` has one entry more than the document has lines
and `m_fullDoc` holds every line followed by a newline, but for at most its last
character. -/
theorem matcher_returns_at_firing_check (engine : RegexEngine) (clock : StepClock)
    (fuel : Nat) (self : SearchOpenFiles) (doc : Document) (regExp : QRegularExpression)
    (startLine : Int) (k : Nat) (hexp : clock.expired k = true)
    (hin : ∀ (line o : Int), 0 ≤ o → o ≤ (doc.line line).length →
      (engine regExp (doc.line line) o).capturedStart ≠ -1 →
        o ≤ (engine regExp (doc.line line) o).capturedStart ∧
        (engine regExp (doc.line line) o).capturedStart +
          (engine regExp (doc.line line) o).captured.length ≤ (doc.line line).length)
    (hlines : ∀ l ∈ doc.text, l.length ≤ fuel) (hfuel : k + 1 ≤ fuel) :
    (∃ evs ret,
      searchSingleLineRegExp engine clock fuel doc regExp startLine = some (evs, ret) ∧
      ∃ per : List (List QRegularExpressionMatch),
        per.length ≤ k ∧ evs = emittedFor doc startLine per ∧
        ∀ (i : Nat) (ms : List QRegularExpressionMatch), per[i]? = some ms →
          MatchChain engine regExp (doc.line (startLine + i)) 0 ms) ∧
    (∃ s1 evs ret,
      searchMultiLineRegExp engine clock fuel self doc regExp startLine = some (s1, evs, ret) ∧
      evs.length ≤ k + 1 ∧
      (startLine = 0 →
        (s1.m_lineStart.length : Int) = doc.lines + 1 ∧
        s1.m_fullDoc = (synthesize doc regExp).1 ∧
        (joinedLines doc.text).length ≤ s1.m_fullDoc.length + 1)) := by
  obtain ⟨hb1, hb2⟩ := firing_check_bounds engine clock fuel self doc regExp startLine k hexp
  constructor
  · obtain ⟨r, hr⟩ := singleLineFor_returns engine clock fuel doc regExp hin hlines
      (doc.lines - startLine).toNat 0 startLine
    have hr2 : searchSingleLineRegExp engine clock fuel doc regExp startLine =
        some (r.1, r.2) := hr
    exact ⟨r.1, r.2, hr2, hb1 r.1 r.2 hr2⟩
  · obtain ⟨r, hr⟩ := searchMultiLineRegExp_returns_at_check engine clock fuel self doc regExp
      startLine k hexp hfuel
    have hr2 : searchMultiLineRegExp engine clock fuel self doc regExp startLine =
        some (r.1, r.2.1, r.2.2) := hr
    refine ⟨r.1, r.2.1, r.2.2, hr2, hb2 r.1 r.2.1 r.2.2 hr2, ?_⟩
    intro h0
    rw [h0] at hr2
    obtain ⟨hfd, hls⟩ := searchMultiLineRegExp_zero_scratch engine clock fuel self doc regExp
      r.1 r.2.1 r.2.2 hr2
    refine ⟨?_, hfd, ?_⟩
    · rw [hls, synthesize_lineStart]
      simp only [List.length_cons, lineStartsFrom_length, Document.lines]
      push_cast
      rfl
    · rw [hfd, synthesize_fullDoc]
      split
      · omega
      · rw [List.length_dropLast]; omega

/-- C15, amended, at a concrete input: the lines `a`, `b`, `a`, `b`, the pattern `a` and a
clock whose check numbered 1 fires. The single-line matcher scans line 0, emits its match and
returns 1 at the check before line 1; the multi-line matcher emits two matches and returns
at the check that follows the second. -/
theorem matcher_returns_at_firing_check_witness :
    (searchSingleLineRegExp refEngine (StepClock.firesAt 1) 2 docAbab ⟨"a".toList⟩ 0).map
        (fun r => r.1.map spanOf) = some [(0, 0, 0, 1)] ∧
    (searchSingleLineRegExp refEngine (StepClock.firesAt 1) 2 docAbab ⟨"a".toList⟩ 0).map
        (fun r => r.2) = some 1 ∧
    (searchMultiLineRegExp refEngine (StepClock.firesAt 1) 2 idleObject docAbab
        ⟨"a".toList⟩ 0).map (fun r => r.2.1.map spanOf) = some [(0, 0, 0, 1), (2, 0, 2, 1)] ∧
    (searchMultiLineRegExp refEngine (StepClock.firesAt 1) 2 idleObject docAbab
        ⟨"a".toList⟩ 0).map (fun r => r.2.2) = some 2 ∧
    ((∃ evs ret,
      searchSingleLineRegExp refEngine (StepClock.firesAt 1) 2 docAbab ⟨"a".toList⟩ 0 =
        some (evs, ret) ∧
      ∃ per : List (List QRegularExpressionMatch),
        per.length ≤ 1 ∧ evs = emittedFor docAbab 0 per ∧
        ∀ (i : Nat) (ms : List QRegularExpressionMatch), per[i]? = some ms →
          MatchChain refEngine ⟨"a".toList⟩ (docAbab.line (0 + i)) 0 ms) ∧
    (∃ s1 evs ret,
      searchMultiLineRegExp refEngine (StepClock.firesAt 1) 2 idleObject docAbab
        ⟨"a".toList⟩ 0 = some (s1, evs, ret) ∧
      evs.length ≤ 1 + 1 ∧
      ((0 : Int) = 0 →
        (s1.m_lineStart.length : Int) = docAbab.lines + 1 ∧
        s1.m_fullDoc = (synthesize docAbab ⟨"a".toList⟩).1 ∧
        (joinedLines docAbab.text).length ≤ s1.m_fullDoc.length + 1))) :=
  ⟨by decide, by decide, by decide, by decide,
    matcher_returns_at_firing_check refEngine (StepClock.firesAt 1) 2 idleObject docAbab
      ⟨"a".toList⟩ 0 1 (by decide)
      (fun line o h0 h1 hs => refEngine_inside ⟨"a".toList⟩ (docAbab.line line) o h0 h1 hs)
      (by decide) (by decide)⟩

end Kate
